import Mathlib

/-!
Verification of the treeop content-indexing engine (src/treeop.cpp) against its
specification.  The C++ code is shallowly embedded: machine integers become
Nat with explicit reductions modulo 2^64 / 256 where the code relies on the
width, byte buffers become lists of Nat, and filesystem effects become
explicit oracles and state passing.

The file is organized as definitions first (the embedding of the data model
and operations) followed by the theorems about them.
-/

namespace Treeop

/-! ## Definitions: byte-level primitives

The DirDB codec and Hash128 manipulate little-endian byte buffers.  A byte
buffer is a list of Nat; a value is a byte when it is < 256. -/

abbrev Bytes := List Nat

/-- Little-endian decoding of an 8-byte group, the unrolled form of the C++
loops of the shape for i < 8, value |= data[i] << (8*i). -/
def u64FromBytes (b0 b1 b2 b3 b4 b5 b6 b7 : Nat) : Nat :=
  b0 ||| b1 <<< 8 ||| b2 <<< 16 ||| b3 <<< 24 ||| b4 <<< 32 |||
    b5 <<< 40 ||| b6 <<< 48 ||| b7 <<< 56

/-- Little-endian encoding of a u64, the unrolled form of appendU64Le
(eight pushes of value & 0xff with value >>= 8 in between). -/
def appendU64Le (v : Nat) : Bytes :=
  [v &&& 255, v >>> 8 &&& 255, v >>> 16 &&& 255, v >>> 24 &&& 255,
   v >>> 32 &&& 255, v >>> 40 &&& 255, v >>> 48 &&& 255, v >>> 56 &&& 255]

/-- Specification-side little-endian byte interpretation: first byte is least
significant. -/
def decodeLE : List Nat → Nat
  | [] => 0
  | b :: rest => b + decodeLE rest * 256

/-! ## Definitions: Hash128 (struct Hash128, treeop.cpp) -/

/-- A 128-bit hash stored as two 64-bit halves, as in struct Hash128. -/
structure Hash128 where
  hi : Nat
  lo : Nat
deriving Repr, DecidableEq

/-- Hash128 comparison: hi first, then lo (operator< of Hash128). -/
def Hash128.ltb (a b : Hash128) : Bool :=
  if a.hi ≠ b.hi then a.hi < b.hi else a.lo < b.lo

/-- Hash128::fromBytes: converts a byte vector into a Hash128 (little-endian);
buffers shorter than 16 bytes yield the value-initialized (all-zero) hash. -/
def Hash128.fromBytes (bytes : List Nat) : Hash128 :=
  if bytes.length < 16 then
    ⟨0, 0⟩
  else
    { lo := u64FromBytes (bytes.getD 0 0) (bytes.getD 1 0) (bytes.getD 2 0)
        (bytes.getD 3 0) (bytes.getD 4 0) (bytes.getD 5 0) (bytes.getD 6 0)
        (bytes.getD 7 0),
      hi := u64FromBytes (bytes.getD 8 0) (bytes.getD 9 0) (bytes.getD 10 0)
        (bytes.getD 11 0) (bytes.getD 12 0) (bytes.getD 13 0) (bytes.getD 14 0)
        (bytes.getD 15 0) }

/-- Hash128::toBytes: eight little-endian bytes of lo followed by eight
little-endian bytes of hi. -/
def Hash128.toBytes (h : Hash128) : List Nat :=
  appendU64Le h.lo ++ appendU64Le h.hi

/-- Specification-side view of a hash as a single 128-bit value with hi as
the most significant half. -/
def Hash128.val (h : Hash128) : Nat :=
  h.hi * 2 ^ 64 + h.lo

/-! ## Definitions: minimum unique hash bits
(MainDb::getMinUniqueHashBits, treeop.cpp) -/

/-- Model of std::countl_zero over uint64_t. -/
def clz64 (z : Nat) : Nat :=
  if z = 0 then 64 else 63 - Nat.log2 z

/-- Insert a hash into a list sorted by operator< of Hash128. -/
def insertHash (x : Hash128) : List Hash128 → List Hash128
  | [] => [x]
  | y :: rest => if Hash128.ltb x y then x :: y :: rest else y :: insertHash x rest

/-- Comparison sort on hashes by operator< (model of std::sort, whose result
is unique here because operator< totally orders the (hi, lo) pairs). -/
def sortHashes : List Hash128 → List Hash128
  | [] => []
  | x :: rest => insertHash x (sortHashes rest)

/-- Model of std::unique on a list: drop each element equal to its
predecessor. -/
def dedupAdj : List Hash128 → List Hash128
  | [] => []
  | [x] => [x]
  | x :: y :: rest => if x = y then dedupAdj (y :: rest) else x :: dedupAdj (y :: rest)

/-- The per-pair computation of getMinUniqueHashBits: number of common
leading bits of two hashes, counted via countl_zero on the hi halves and, if
those are equal, 64 plus countl_zero of the lo halves. -/
def commonCode (a b : Hash128) : Nat :=
  let hiXor := a.hi ^^^ b.hi
  if hiXor = 0 then 64 + clz64 (a.lo ^^^ b.lo) else clz64 hiXor

/-- The loop of getMinUniqueHashBits: maximum of commonCode over adjacent
pairs. -/
def maxAdjCommon : List Hash128 → Nat
  | [] => 0
  | [_] => 0
  | a :: b :: rest => max (commonCode a b) (maxAdjCommon (b :: rest))

/-- MainDb::getMinUniqueHashBits: 0 for at most one (deduplicated) hash,
otherwise min(128, max adjacent common prefix + 1) after sort and unique. -/
def getMinUniqueHashBits (hashes : List Hash128) : Nat :=
  if hashes.length ≤ 1 then 0
  else
    let dedup := dedupAdj (sortHashes hashes)
    if dedup.length ≤ 1 then 0
    else min 128 (maxAdjCommon dedup + 1)

/-- Propositional form of the Hash128 strict order (hi first, then lo). -/
def hlex (a b : Hash128) : Prop :=
  a.hi < b.hi ∨ (a.hi = b.hi ∧ a.lo < b.lo)

instance (a b : Hash128) : Decidable (hlex a b) := by
  unfold hlex
  infer_instance

/-- Specification-side predicate: x and y agree on their top k bits, viewed
as 128-bit values. -/
def agreeTop (k x y : Nat) : Prop :=
  x / 2 ^ (128 - k) = y / 2 ^ (128 - k)

instance (k x y : Nat) : Decidable (agreeTop k x y) := by
  unfold agreeTop
  infer_instance

/-- Specification-side count of shared leading bits of two 128-bit values:
the largest k ≤ 128 on which they agree. -/
def sharedBits (x y : Nat) : Nat :=
  (((List.range 129).filter (fun k => decide (agreeTop k x y))).foldr max 0)

/-- Specification-side maximum of sharedBits over all pairs of distinct
hashes in a list. -/
def pairsMaxShared (l : List Hash128) : Nat :=
  ((((l.product l).filter (fun p => decide (p.1 ≠ p.2))).map
    (fun p => sharedBits p.1.val p.2.val)).foldr max 0)

/-! ## Definitions: directory scan and DirDB build
(buildDirDb / createDirDb / updateDirDb, treeop.cpp)

The filesystem facade is abstracted: the directory iteration yields a list
of scan entries (leaf name, file type, stat data), and the digest primitive
is an oracle from the file (identified by its name within the directory) to
its 128-bit content hash. -/

/-- One directory entry as seen by the scan loop of buildDirDb. -/
structure ScanEntry where
  name : List Nat
  isRegular : Bool
  size : Nat
  inode : Nat
  mtimeSec : Int
  mtimeNsec : Nat
  numLinks : Nat
deriving Repr, DecidableEq

/-- fileTimeFromTimespec: FILETIME ticks (100ns since 1601-01-01 UTC) from a
timespec; negative seconds clamp to 0. -/
def fileTimeFromTimespec (sec : Int) (nsec : Nat) : Nat :=
  if sec < 0 then 0 else (sec.toNat + 11644473600) * 10000000 + nsec / 100

/-- struct FileEntry of treeop.cpp: inside a DirDbData the path field holds
just the leaf name. -/
structure FileEntry where
  path : List Nat
  size : Nat
  hash : Hash128
  inode : Nat
  date : Nat
  numLinks : Nat
deriving Repr, DecidableEq

/-- struct HashReuseKey of treeop.cpp. -/
structure HashReuseKey where
  inode : Nat
  size : Nat
  date : Nat
deriving Repr, DecidableEq

/-- The byte string ".dirdb". -/
def dirdbNameBytes : List Nat := [46, 100, 105, 114, 100, 98]

/-- The scan loop of buildDirDb over the directory listing: skips the
sidecar by name and non-regular entries, converts the mtime, consults the
reuse cache keyed by (inode, size, date), and hashes on a miss.  Returns
the unsorted entries, the hashed byte count and the list of names whose
content was hashed (the instrumentation trace for hash reuse). -/
def scanLoop (cache : Option (List (HashReuseKey × FileEntry)))
    (hashOracle : List Nat → Hash128) :
    List ScanEntry → List FileEntry × Nat × List (List Nat)
  | [] => ([], 0, [])
  | e :: restEntries =>
    let r := scanLoop cache hashOracle restEntries
    if e.name = dirdbNameBytes then r
    else if e.isRegular = false then r
    else
      let date := fileTimeFromTimespec e.mtimeSec e.mtimeNsec
      let hit : Option FileEntry :=
        match cache with
        | none => none
        | some c => c.lookup ⟨e.inode, e.size, date⟩
      match hit with
      | some cached =>
        (⟨e.name, e.size, cached.hash, e.inode, date, e.numLinks⟩ :: r.1, r.2.1, r.2.2)
      | none =>
        (⟨e.name, e.size, hashOracle e.name, e.inode, date, e.numLinks⟩ :: r.1,
          r.2.1 + e.size, e.name :: r.2.2)

/-- Lexicographic byte-string comparison (std::string operator<). -/
def bytesLt : List Nat → List Nat → Bool
  | _, [] => false
  | [], _ :: _ => true
  | a :: as, b :: bs => if a < b then true else if b < a then false else bytesLt as bs

/-- The sort comparator of buildDirDb: size ascending, then name. -/
def entryLtb (a b : FileEntry) : Bool :=
  if a.size ≠ b.size then a.size < b.size else bytesLt a.path b.path

/-- Insertion into a list sorted by entryLtb. -/
def insertEntry (x : FileEntry) : List FileEntry → List FileEntry
  | [] => [x]
  | y :: rest => if entryLtb x y then x :: y :: rest else y :: insertEntry x rest

/-- Comparison sort of the scanned entries (model of the std::sort call in
buildDirDb; the comparator totally orders entries because directory entry
names are distinct). -/
def sortEntries : List FileEntry → List FileEntry
  | [] => []
  | x :: rest => insertEntry x (sortEntries rest)

/-- DirDbData as far as the build claims are concerned: the file list and
the hashed-bytes counter (dbSize and hashSeconds are measured externally). -/
structure DirDb where
  files : List FileEntry
  hashedBytes : Nat
deriving Repr, DecidableEq

/-- buildDirDb: scan, then sort by (size, name).  Also returns the list of
file names whose content was hashed. -/
def buildDirDb (listing : List ScanEntry)
    (cache : Option (List (HashReuseKey × FileEntry)))
    (hashOracle : List Nat → Hash128) : DirDb × List (List Nat) :=
  let (entries, hashedBytes, hashedNames) := scanLoop cache hashOracle listing
  ({ files := sortEntries entries, hashedBytes := hashedBytes }, hashedNames)

/-- createDirDb: build with no reuse cache. -/
def createDirDb (listing : List ScanEntry) (hashOracle : List Nat → Hash128) :
    DirDb × List (List Nat) :=
  buildDirDb listing none hashOracle

/-- The reuse cache updateDirDb builds from the existing sidecar. -/
def cacheOfFiles (files : List FileEntry) : List (HashReuseKey × FileEntry) :=
  files.map fun e => (⟨e.inode, e.size, e.date⟩, e)

/-- updateDirDb: read the existing sidecar, build the reuse cache, rebuild. -/
def updateDirDb (existing : List FileEntry) (listing : List ScanEntry)
    (hashOracle : List Nat → Hash128) : DirDb × List (List Nat) :=
  buildDirDb listing (some (cacheOfFiles existing)) hashOracle

/-- Specification-side strict (size, name) order on file entries. -/
def entryStrictLt (a b : FileEntry) : Prop :=
  a.size < b.size ∨ (a.size = b.size ∧ bytesLt a.path b.path = true)

/-! ## Definitions: the aggregator and its mutators
(MainDb::hardlinkCopies / removeCopyFiles / copyIntersectFiles, treeop.cpp)

In the aggregator the path field of a FileEntry holds the full path
(dir.path / entry leaf name).  Filesystem mutation is modelled by oracles
deciding the success of each individual operation, and the functions return
an explicit trace of the mutations they perform.  The same-filename digest
(hashWithFilename) and fs::path::filename are external facilities and enter
as oracle parameters. -/

/-- struct ContentKey of treeop.cpp. -/
structure ContentKey where
  size : Nat
  hash : Hash128
deriving Repr, DecidableEq

/-- ContentKey operator<: size first, then hash. -/
def ContentKey.ltb (a b : ContentKey) : Bool :=
  if a.size ≠ b.size then a.size < b.size else Hash128.ltb a.hash b.hash

/-- The ContentKey hash of a file: hashWithFilename(hash, filename(path))
when the same-filename policy is active, the plain content hash otherwise. -/
def keyHashOf (sameFilename : Bool) (nameHash : Hash128 → List Nat → Hash128)
    (filenameOf : List Nat → List Nat) (f : FileEntry) : Hash128 :=
  if sameFilename then nameHash f.hash (filenameOf f.path) else f.hash

/-- The ContentKey of a file. -/
def contentKeyOf (sameFilename : Bool) (nameHash : Hash128 → List Nat → Hash128)
    (filenameOf : List Nat → List Nat) (f : FileEntry) : ContentKey :=
  ⟨f.size, keyHashOf sameFilename nameHash filenameOf f⟩

/-- One loaded directory as held by MainDb (path plus its file list). -/
structure DirData where
  path : List Nat
  files : List FileEntry
deriving Repr, DecidableEq

/-- dir.path / entry.name as a full path (the filesystem facade's path
join). -/
def dirJoin (dir name : List Nat) : List Nat :=
  dir ++ 47 :: name

/-- All files of all loaded directories with their full paths, in iteration
order (the nested loops of hardlinkCopies). -/
def fullRefsOf (dirs : List DirData) : List FileEntry :=
  dirs.flatMap fun d => d.files.map fun f => { f with path := dirJoin d.path f.path }

/-- Insertion into the sorted association list modelling a std::map from
ContentKey to a vector of files (push_back appends on an existing key). -/
def insertGroup (k : ContentKey) (f : FileEntry) :
    List (ContentKey × List FileEntry) → List (ContentKey × List FileEntry)
  | [] => [(k, [f])]
  | (k2, g) :: rest =>
    if ContentKey.ltb k k2 then (k, [f]) :: (k2, g) :: rest
    else if ContentKey.ltb k2 k then (k2, g) :: insertGroup k f rest
    else (k2, g ++ [f]) :: rest

/-- The contentFiles map built by hardlinkCopies: every file of size ≥
minSize, grouped by ContentKey (files with size < minSize are skipped before
insertion). -/
def collectContent (sameFilename : Bool) (nameHash : Hash128 → List Nat → Hash128)
    (filenameOf : List Nat → List Nat) (dirs : List DirData) (minSize : Nat) :
    List (ContentKey × List FileEntry) :=
  (fullRefsOf dirs).foldl
    (fun m f =>
      if f.size < minSize then m
      else insertGroup (contentKeyOf sameFilename nameHash filenameOf f) f m)
    []

/-- The min_element comparator of hardlinkCopies: earlier date first, ties
broken by the lexicographically smaller full path. -/
def olderLtb (a b : FileEntry) : Bool :=
  if a.date ≠ b.date then a.date < b.date else bytesLt a.path b.path

/-- The fold performed by std::min_element (keeps the first minimum). -/
def oldestFold (x : FileEntry) (l : List FileEntry) : FileEntry :=
  l.foldl (fun best f => if olderLtb f best then f else best) x

/-- struct HardlinkStats of treeop.cpp. -/
structure HardlinkStats where
  createdLinks : Nat
  removedFiles : Nat
  removedBytes : Nat
deriving Repr, DecidableEq

/-- Result of hardlinkCopies in the model: the statistics, the performed (or,
in dry-run, announced) replacements as (target source, replaced file) path
pairs, and the warning trace of failed replacements. -/
structure HardlinkOutcome where
  stats : HardlinkStats
  actions : List (List Nat × List Nat)
  warnings : List (List Nat)
deriving Repr, DecidableEq

/-- The inner loop of hardlinkCopies over one content group: skip the target
itself, silently skip files already on the target's inode, and otherwise
replace (or merely announce in dry-run); a failed replacement produces a
warning and is skipped without stopping. -/
def groupLoop (oldest : FileEntry) (dryRun : Bool)
    (replaceOk : List Nat → List Nat → Bool) :
    List FileEntry → HardlinkOutcome
  | [] => ⟨⟨0, 0, 0⟩, [], []⟩
  | ref :: rest =>
    let r := groupLoop oldest dryRun replaceOk rest
    if ref.path = oldest.path then r
    else if ref.inode = oldest.inode then r
    else if dryRun then
      ⟨⟨r.stats.createdLinks + 1, r.stats.removedFiles + 1,
          r.stats.removedBytes + ref.size⟩,
        (oldest.path, ref.path) :: r.actions, r.warnings⟩
    else if replaceOk oldest.path ref.path then
      ⟨⟨r.stats.createdLinks + 1, r.stats.removedFiles + 1,
          r.stats.removedBytes + ref.size⟩,
        (oldest.path, ref.path) :: r.actions, r.warnings⟩
    else
      ⟨r.stats, r.actions, ref.path :: r.warnings⟩

/-- Processing of one content group by hardlinkCopies: groups of fewer than
two files are skipped; the oldest file is the target; the group is skipped
when the effective hardlink count (live when not dry-run, with fallback to
the cached count on a failed read; cached in dry-run) reaches maxHardlinks. -/
def processGroup (maxHardlinks : Nat) (dryRun : Bool)
    (fsLinkCount : List Nat → Option Nat)
    (replaceOk : List Nat → List Nat → Bool)
    (g : List FileEntry) : HardlinkOutcome :=
  match g with
  | [] => ⟨⟨0, 0, 0⟩, [], []⟩
  | h :: t =>
    if (h :: t).length < 2 then ⟨⟨0, 0, 0⟩, [], []⟩
    else
      let oldest := oldestFold h t
      let linkCount :=
        if dryRun then oldest.numLinks
        else
          match fsLinkCount oldest.path with
          | some n => n
          | none => oldest.numLinks
      if maxHardlinks ≤ linkCount then ⟨⟨0, 0, 0⟩, [], []⟩
      else groupLoop oldest dryRun replaceOk (h :: t)

/-- Concatenation of per-group outcomes (groups are independent). -/
def mergeHardlink (a b : HardlinkOutcome) : HardlinkOutcome :=
  ⟨⟨a.stats.createdLinks + b.stats.createdLinks,
      a.stats.removedFiles + b.stats.removedFiles,
      a.stats.removedBytes + b.stats.removedBytes⟩,
    a.actions ++ b.actions, a.warnings ++ b.warnings⟩

/-- MainDb::hardlinkCopies: build the content map over all loaded dirs and
process each group in map order. -/
def hardlinkCopies (sameFilename : Bool) (nameHash : Hash128 → List Nat → Hash128)
    (filenameOf : List Nat → List Nat) (dirs : List DirData)
    (minSize maxHardlinks : Nat) (dryRun : Bool)
    (fsLinkCount : List Nat → Option Nat)
    (replaceOk : List Nat → List Nat → Bool) : HardlinkOutcome :=
  (collectContent sameFilename nameHash filenameOf dirs minSize).foldr
    (fun kg acc => mergeHardlink (processGroup maxHardlinks dryRun fsLinkCount
      replaceOk kg.2) acc)
    ⟨⟨0, 0, 0⟩, [], []⟩

/-- Specification-side plan of one group's replacements: the oldest file as
target and every other file whose inode differs, unless the group is small
or the target's effective link count reaches the bound. -/
def groupPlanned (maxHardlinks : Nat) (dryRun : Bool)
    (fsLinkCount : List Nat → Option Nat) (g : List FileEntry) :
    List (FileEntry × FileEntry) :=
  match g with
  | [] => []
  | h :: t =>
    if (h :: t).length < 2 then []
    else
      let oldest := oldestFold h t
      let linkCount :=
        if dryRun then oldest.numLinks
        else
          match fsLinkCount oldest.path with
          | some n => n
          | none => oldest.numLinks
      if maxHardlinks ≤ linkCount then []
      else ((h :: t).filter fun ref =>
          decide (ref.path ≠ oldest.path) && decide (ref.inode ≠ oldest.inode)).map
        fun ref => (oldest, ref)

/-- Specification-side plan of all replacements of hardlinkCopies. -/
def hardlinkPlanned (sameFilename : Bool) (nameHash : Hash128 → List Nat → Hash128)
    (filenameOf : List Nat → List Nat) (dirs : List DirData)
    (minSize maxHardlinks : Nat) (dryRun : Bool)
    (fsLinkCount : List Nat → Option Nat) : List (FileEntry × FileEntry) :=
  (collectContent sameFilename nameHash filenameOf dirs minSize).flatMap fun kg =>
    groupPlanned maxHardlinks dryRun fsLinkCount kg.2

/-- Outcome determined by a replacement plan: successful replacements (all of
them in dry-run) are counted and listed as actions, failed ones become
warnings. -/
def outcomeOfPlan (dryRun : Bool) (replaceOk : List Nat -> List Nat -> Bool)
    (planned : List (FileEntry × FileEntry)) : HardlinkOutcome :=
  ⟨⟨((planned.filter fun p => dryRun || replaceOk p.1.path p.2.path).length),
      ((planned.filter fun p => dryRun || replaceOk p.1.path p.2.path).length),
      (((planned.filter fun p => dryRun || replaceOk p.1.path p.2.path).map
        fun p => p.2.size).sum)⟩,
    ((planned.filter fun p => dryRun || replaceOk p.1.path p.2.path).map
      fun p => (p.1.path, p.2.path)),
    ((planned.filter fun p => !(dryRun || replaceOk p.1.path p.2.path)).map
      fun p => p.2.path)⟩

/-! ## Definitions: remove-copies (MainDb::removeCopyFiles, treeop.cpp) -/

/-- Observable outcome of removeCopyFiles: the returned counters, the
announced paths ("Would remove"/"Removed" lines), the actually performed
removals, and the error that aborted the run, if any. -/
structure RemoveOutcome where
  removedFiles : Nat
  removedBytes : Nat
  announced : List (List Nat)
  performed : List (List Nat)
  error : Option String
deriving Repr, DecidableEq

/-- Sequencing of outcomes: an error stops the run, discarding everything
that would have come later. -/
def mergeOutcome (a b : RemoveOutcome) : RemoveOutcome :=
  match a.error with
  | some _ => a
  | none =>
    ⟨a.removedFiles + b.removedFiles, a.removedBytes + b.removedBytes,
      a.announced ++ b.announced, a.performed ++ b.performed, b.error⟩

/-- The per-file loop of removeCopyFiles over one group from a later root:
announce when dry-run or verbose, count, and remove unless dry-run; a failed
removal throws, aborting the remainder. -/
def removeRefs (dryRun verbose : Bool) (removeOk : List Nat → Bool) :
    List FileEntry → RemoveOutcome
  | [] => ⟨0, 0, [], [], none⟩
  | ref :: rest =>
    if dryRun then
      let r := removeRefs dryRun verbose removeOk rest
      ⟨r.removedFiles + 1, r.removedBytes + ref.size, ref.path :: r.announced,
        r.performed, r.error⟩
    else if removeOk ref.path then
      let r := removeRefs dryRun verbose removeOk rest
      ⟨r.removedFiles + 1, r.removedBytes + ref.size,
        (if verbose then ref.path :: r.announced else r.announced),
        ref.path :: r.performed, r.error⟩
    else
      ⟨1, ref.size, (if verbose then [ref.path] else []), [],
        some "Failed to remove"⟩

/-- removeCopyFiles over the groups of one root (root index i): a group with
an empty list is skipped; a key not yet in the firstRoot map claims it; a
key first seen in an earlier root has its files removed. -/
def removeRootLoop (dryRun verbose : Bool) (removeOk : List Nat → Bool) (i : Nat) :
    List (ContentKey × Nat) → List (ContentKey × List FileEntry) →
    RemoveOutcome × List (ContentKey × Nat)
  | m, [] => (⟨0, 0, [], [], none⟩, m)
  | m, (k, refs) :: restEntries =>
    if refs.isEmpty then removeRootLoop dryRun verbose removeOk i m restEntries
    else
      match m.lookup k with
      | none => removeRootLoop dryRun verbose removeOk i ((k, i) :: m) restEntries
      | some j =>
        if j < i then
          let r := removeRefs dryRun verbose removeOk refs
          let r2 := removeRootLoop dryRun verbose removeOk i m restEntries
          (mergeOutcome r r2.1, r2.2)
        else removeRootLoop dryRun verbose removeOk i m restEntries

/-- removeCopyFiles over all roots in command-line order. -/
def removeRootsLoop (dryRun verbose : Bool) (removeOk : List Nat → Bool) :
    Nat → List (ContentKey × Nat) → List (List (ContentKey × List FileEntry)) →
    RemoveOutcome
  | _, _, [] => ⟨0, 0, [], [], none⟩
  | i, m, root :: rest =>
    let r := removeRootLoop dryRun verbose removeOk i m root
    mergeOutcome r.1 (removeRootsLoop dryRun verbose removeOk (i + 1) r.2 rest)

/-- MainDb::removeCopyFiles on the per-root ContentKey maps. -/
def removeCopyFiles (rootFiles : List (List (ContentKey × List FileEntry)))
    (dryRun verbose : Bool) (removeOk : List Nat → Bool) : RemoveOutcome :=
  removeRootsLoop dryRun verbose removeOk 0 [] rootFiles

/-- Does this root's map contain the key with a nonempty file list? -/
def rootHasKey (root : List (ContentKey × List FileEntry)) (k : ContentKey) : Bool :=
  root.any fun p => p.1 == k && !p.2.isEmpty

/-- Specification-side removal plan: for each root, every file of every
group whose key already occurs (nonempty) in an earlier root, in iteration
order. -/
def specRemAux (prev : List (List (ContentKey × List FileEntry))) :
    List (List (ContentKey × List FileEntry)) → List FileEntry
  | [] => []
  | root :: rest =>
    (root.flatMap fun p =>
      if !p.2.isEmpty && prev.any (fun r => rootHasKey r p.1) then p.2 else [])
      ++ specRemAux (prev ++ [root]) rest

/-- Specification-side removal plan of removeCopyFiles. -/
def specRemovals (rootFiles : List (List (ContentKey × List FileEntry))) :
    List FileEntry :=
  specRemAux [] rootFiles

/-- Is the key removable at root i: first claimed by a strictly earlier
root? -/
def removableB (m : List (ContentKey × Nat)) (i : Nat) (k : ContentKey) : Bool :=
  match m.lookup k with
  | some j => j < i
  | none => false

/-- The files removed while processing one root against the firstRoot map. -/
def remListB (m : List (ContentKey × Nat)) (i : Nat)
    (entries : List (ContentKey × List FileEntry)) : List FileEntry :=
  entries.flatMap fun p => if !p.2.isEmpty && removableB m i p.1 then p.2 else []

/-- The firstRoot map after processing one root: every nonempty unclaimed
key is claimed with the root's index. -/
def claimRoot (i : Nat) :
    List (ContentKey × Nat) → List (ContentKey × List FileEntry) →
    List (ContentKey × Nat)
  | m, [] => m
  | m, (k, refs) :: rest =>
    if refs.isEmpty then claimRoot i m rest
    else
      match m.lookup k with
      | none => claimRoot i ((k, i) :: m) rest
      | some _ => claimRoot i m rest

/-- All file paths of one root's map, in iteration order. -/
def rootPaths (root : List (ContentKey × List FileEntry)) : List (List Nat) :=
  root.flatMap fun p => p.2.map fun f => f.path

/-- All file paths of all roots. -/
def pathsOf (roots : List (List (ContentKey × List FileEntry))) : List (List Nat) :=
  roots.flatMap rootPaths

/-! ## Definitions: copy-extract (MainDb::copyIntersectFiles, treeop.cpp) -/

/-- Observable outcome of copyIntersectFiles: performed copies, announced
("Would copy") paths, and the error that aborted the run, if any. -/
structure CopyOutcome where
  copied : List (List Nat)
  announced : List (List Nat)
  error : Option String
deriving Repr, DecidableEq

/-- Sequencing of copy outcomes with error halting. -/
def mergeCopy (a b : CopyOutcome) : CopyOutcome :=
  match a.error with
  | some _ => a
  | none => ⟨a.copied ++ b.copied, a.announced ++ b.announced, b.error⟩

/-- The per-file loop of copyIntersectFiles: compute the relative path (a
failure throws), then announce in dry-run or copy; a failed copy throws. -/
def copyRefs (dryRun : Bool) (relOf : List Nat → Option (List Nat))
    (copyOk : List Nat → Bool) : List FileEntry → CopyOutcome
  | [] => ⟨[], [], none⟩
  | ref :: rest =>
    match relOf ref.path with
    | none => ⟨[], [], some "Failed to compute relative path"⟩
    | some _ =>
      if dryRun then
        let r := copyRefs dryRun relOf copyOk rest
        ⟨r.copied, ref.path :: r.announced, r.error⟩
      else if copyOk ref.path then
        let r := copyRefs dryRun relOf copyOk rest
        ⟨ref.path :: r.copied, r.announced, r.error⟩
      else ⟨[], [], some "Failed to copy"⟩

/-- MainDb::copyIntersectFiles: reject an existing destination, then copy
every file of every key present in the source map and absent from the other
map. -/
def copyIntersectFiles (destExists : Bool)
    (filesSrc filesOther : List (ContentKey × List FileEntry))
    (dryRun : Bool) (relOf : List Nat → Option (List Nat))
    (copyOk : List Nat → Bool) : CopyOutcome :=
  if destExists then ⟨[], [], some "Destination exists"⟩
  else
    (filesSrc.foldr
      (fun p acc =>
        if (filesOther.lookup p.1).isSome then acc
        else mergeCopy (copyRefs dryRun relOf copyOk p.2) acc)
      ⟨[], [], none⟩)

/-- Specification-side copy plan of copyIntersectFiles. -/
def specCopies (filesSrc filesOther : List (ContentKey × List FileEntry)) :
    List FileEntry :=
  filesSrc.flatMap fun p =>
    if (filesOther.lookup p.1).isSome then [] else p.2

/-! ## Definitions: atomic hardlink replacement
(MainDb::replaceWithHardlink, treeop.cpp)

The filesystem is a map from paths to inode numbers; create-hard-link and
the two rename attempts may fail, controlled by an oracle, while remove of
an existing file succeeds. -/

abbrev FS := List (String × Nat)

def fsLookup (fs : FS) (p : String) : Option Nat :=
  fs.lookup p

def fsErase (fs : FS) (p : String) : FS :=
  fs.filter fun q => q.1 ≠ p

def fsInsert (fs : FS) (p : String) (i : Nat) : FS :=
  (p, i) :: fsErase fs p

/-- The temporary path used by replaceWithHardlink: target + ".treeop_link_tmp",
with the index appended for i > 0. -/
def tempName (target : String) (i : Nat) : String :=
  target ++ ".treeop_link_tmp" ++ (if i = 0 then "" else toString i)

/-- Success of the fallible filesystem calls inside replaceWithHardlink. -/
structure LinkOracle where
  createOk : Bool
  rename1Ok : Bool
  rename2Ok : Bool
deriving Repr, DecidableEq

/-- Result of replaceWithHardlink: success flag, the final filesystem, and
the temporary path whose hard link creation succeeded (if any). -/
structure LinkResult where
  success : Bool
  fs : FS
  created : Option String
deriving Repr, DecidableEq

/-- MainDb::replaceWithHardlink: pick the first free temporary name (out of
100 candidates), hard-link it to the source, rename it over the target; on a
rename failure remove the target and retry, and on a persistent failure
remove the temporary before returning. -/
def replaceWithHardlink (fs0 : FS) (source target : String) (oracle : LinkOracle) :
    LinkResult :=
  match (List.range 100).find? (fun i => (fsLookup fs0 (tempName target i)).isNone) with
  | none => ⟨false, fs0, none⟩
  | some i =>
    let temp := tempName target i
    match fsLookup fs0 source with
    | none => ⟨false, fs0, none⟩
    | some ino =>
      if oracle.createOk = false then ⟨false, fs0, none⟩
      else
        let fs1 := fsInsert fs0 temp ino
        if oracle.rename1Ok then ⟨true, fsInsert (fsErase fs1 temp) target ino, some temp⟩
        else
          let fs2 := fsErase fs1 target
          if oracle.rename2Ok then
            ⟨true, fsInsert (fsErase fs2 temp) target ino, some temp⟩
          else ⟨false, fsErase fs2 temp, some temp⟩

/-! ## Definitions: the DirDB on-disk codec
(readDirDb / buildDirDb serialization, treeop.cpp)

The reader walks the byte buffer with explicit positions; every 8-byte read
and every entry is bounds-checked against the whole buffer, exactly as
readU64Le and the entry loops of readDirDb do.  The writer mirrors the
appendU64Le/appendLengthString output of buildDirDb; the generalized
serializers take explicit entry sizes and padding so that readers skipping
trailing entry bytes can be stated. -/

/-- makeTag: little-endian packing of up to eight tag characters. -/
def makeTag (cs : List Nat) : Nat := decodeLE cs

def tagDirDb : Nat := makeTag [68, 105, 114, 68, 66]

def tagToc : Nat := makeTag [84, 79, 67]

def tagFiles : Nat := makeTag [70, 73, 76, 69, 83]

def tagStrings : Nat := makeTag [83, 84, 82, 73, 78, 71, 83]

/-- readU64Le: read eight little-endian bytes at pos, bounds-checked. -/
def readU64 (data : Bytes) (pos : Nat) : Except String Nat :=
  if pos + 8 ≤ data.length then
    Except.ok (u64FromBytes (data.getD pos 0) (data.getD (pos + 1) 0)
      (data.getD (pos + 2) 0) (data.getD (pos + 3) 0) (data.getD (pos + 4) 0)
      (data.getD (pos + 5) 0) (data.getD (pos + 6) 0) (data.getD (pos + 7) 0))
  else Except.error "Unexpected end of .dirdb"

/-- The raw file entry record of the FILES section. -/
structure RawFileEntry where
  nameIndex : Nat
  hashLo : Nat
  hashHi : Nat
  inode : Nat
  date : Nat
  numLinks : Nat
deriving Repr, DecidableEq

/-- The TOC entry loop of readDirDb: per entry read size and fileIndex, then
skip to entryStart + tocEntrySize, bounds-checked. -/
def readTocEntries (data : Bytes) (tes : Nat) :
    Nat → Nat → Except String (List (Nat × Nat) × Nat)
  | 0, pos => Except.ok ([], pos)
  | n + 1, pos =>
    match readU64 data pos with
    | Except.error e => Except.error e
    | Except.ok sz =>
      match readU64 data (pos + 8) with
      | Except.error e => Except.error e
      | Except.ok fi =>
        if pos + tes > data.length then
          Except.error "Unexpected end of TOC in .dirdb"
        else
          match readTocEntries data tes n (pos + tes) with
          | Except.error e => Except.error e
          | Except.ok (rest, stop) => Except.ok ((sz, fi) :: rest, stop)

/-- The file entry loop of readDirDb: six sequential u64 fields, then skip
to entryStart + fileEntrySize, bounds-checked. -/
def readFileEntries (data : Bytes) (fes : Nat) :
    Nat → Nat → Except String (List RawFileEntry × Nat)
  | 0, pos => Except.ok ([], pos)
  | n + 1, pos =>
    match readU64 data pos with
    | Except.error e => Except.error e
    | Except.ok nameIndex =>
      match readU64 data (pos + 8) with
      | Except.error e => Except.error e
      | Except.ok hashLo =>
        match readU64 data (pos + 16) with
        | Except.error e => Except.error e
        | Except.ok hashHi =>
          match readU64 data (pos + 24) with
          | Except.error e => Except.error e
          | Except.ok inode =>
            match readU64 data (pos + 32) with
            | Except.error e => Except.error e
            | Except.ok date =>
              match readU64 data (pos + 40) with
              | Except.error e => Except.error e
              | Except.ok numLinks =>
                if pos + fes > data.length then
                  Except.error "Unexpected end of file entries in .dirdb"
                else
                  match readFileEntries data fes n (pos + fes) with
                  | Except.error e => Except.error e
                  | Except.ok (rest, stop) =>
                    Except.ok (⟨nameIndex, hashLo, hashHi, inode, date,
                      numLinks⟩ :: rest, stop)

/-- readLengthStringAt: a length-prefixed string inside the STRINGS blob
(0x00..0xFC direct, 0xFF two-byte, 0xFE four-byte, 0xFD eight-byte little
endian length). -/
def readLengthStringAt (strings : Bytes) (offset : Nat) :
    Except String (List Nat) :=
  if offset ≥ strings.length then Except.error "Invalid string offset in .dirdb"
  else
    let pb := strings.getD offset 0
    if pb ≤ 252 then
      if offset + 1 + pb > strings.length then
        Except.error "Invalid string length in .dirdb"
      else Except.ok ((strings.drop (offset + 1)).take pb)
    else if pb = 255 then
      if offset + 1 + 2 > strings.length then
        Except.error "Invalid 2-byte length in .dirdb"
      else
        let len := strings.getD (offset + 1) 0 |||
          (strings.getD (offset + 2) 0) <<< 8
        if offset + 3 + len > strings.length then
          Except.error "Invalid string length in .dirdb"
        else Except.ok ((strings.drop (offset + 3)).take len)
    else if pb = 254 then
      if offset + 1 + 4 > strings.length then
        Except.error "Invalid 4-byte length in .dirdb"
      else
        let len := strings.getD (offset + 1) 0 |||
          (strings.getD (offset + 2) 0) <<< 8 |||
          (strings.getD (offset + 3) 0) <<< 16 |||
          (strings.getD (offset + 4) 0) <<< 24
        if offset + 5 + len > strings.length then
          Except.error "Invalid string length in .dirdb"
        else Except.ok ((strings.drop (offset + 5)).take len)
    else if pb = 253 then
      if offset + 1 + 8 > strings.length then
        Except.error "Invalid 8-byte length in .dirdb"
      else
        let len := u64FromBytes (strings.getD (offset + 1) 0)
          (strings.getD (offset + 2) 0) (strings.getD (offset + 3) 0)
          (strings.getD (offset + 4) 0) (strings.getD (offset + 5) 0)
          (strings.getD (offset + 6) 0) (strings.getD (offset + 7) 0)
          (strings.getD (offset + 8) 0)
        if offset + 9 + len > strings.length then
          Except.error "Invalid string length in .dirdb"
        else Except.ok ((strings.drop (offset + 9)).take len)
    else Except.error "Invalid string length prefix in .dirdb"

/-- The sizes-filling inner loop of readDirDb: sizes[j] = v for j in
[a, b). -/
def fillSizes (v a b : Nat) : Nat → List Nat → List Nat
  | _, [] => []
  | j, x :: rest => (if a ≤ j ∧ j < b then v else x) :: fillSizes v a b (j + 1) rest

/-- The TOC application loop of readDirDb: each entry covers the file index
range up to the next entry (or fileCount), rejected when inverted or out of
range. -/
def applyTocLoop (fileCount : Nat) :
    List (Nat × Nat) → List Nat → Except String (List Nat)
  | [], sizes => Except.ok sizes
  | (sz, fi) :: rest, sizes =>
    let stop := match rest with
      | [] => fileCount
      | (_, fi2) :: _ => fi2
    if fi > stop ∨ stop > fileCount then Except.error "Invalid TOC index in .dirdb"
    else applyTocLoop fileCount rest (fillSizes sz fi stop 0 sizes)

/-- The final entry-building loop of readDirDb: check the name index, read
the name, attach the TOC-derived size. -/
def buildEntries (strings : Bytes) :
    List (RawFileEntry × Nat) → Except String (List FileEntry)
  | [] => Except.ok []
  | (raw, sz) :: rest =>
    if raw.nameIndex ≥ strings.length then
      Except.error "Invalid name index in .dirdb"
    else
      match readLengthStringAt strings raw.nameIndex with
      | Except.error e => Except.error e
      | Except.ok path =>
        match buildEntries strings rest with
        | Except.error e => Except.error e
        | Except.ok others =>
          Except.ok (⟨path, sz, ⟨raw.hashHi, raw.hashLo⟩, raw.inode, raw.date,
            raw.numLinks⟩ :: others)

/-- The validation readDirDb performs after the sections are consumed:
missing TOC, TOC index application, and name resolution. -/
def postValidate (tocs : List (Nat × Nat)) (raws : List RawFileEntry)
    (strings : Bytes) : Except String (List FileEntry) :=
  if raws.length ≠ 0 ∧ tocs.length = 0 then
    Except.error "Missing TOC entries in .dirdb"
  else
    match applyTocLoop raws.length tocs (List.replicate raws.length 0) with
    | Except.error e => Except.error e
    | Except.ok sizes => buildEntries strings (raws.zip sizes)

/-- The STRINGS section and final validation of readDirDb. -/
def phaseStrings (data : Bytes) (tocs : List (Nat × Nat))
    (raws : List RawFileEntry) (posF : Nat) : Except String (List FileEntry) :=
  match readU64 data posF with
  | Except.error e => Except.error e
  | Except.ok tag4 =>
    if tag4 ≠ tagStrings then Except.error "Missing STRINGS tag"
    else
      match readU64 data (posF + 8) with
      | Except.error e => Except.error e
      | Except.ok stringsSize =>
        if posF + 16 + stringsSize > data.length then
          Except.error "Invalid STRINGS size"
        else postValidate tocs raws ((data.drop (posF + 16)).take stringsSize)

/-- The FILES section of readDirDb. -/
def phaseFiles (data : Bytes) (tocs : List (Nat × Nat)) (posT : Nat) :
    Except String (List FileEntry) :=
  match readU64 data posT with
  | Except.error e => Except.error e
  | Except.ok tag3 =>
    if tag3 ≠ tagFiles then Except.error "Missing FILES tag"
    else
      match readU64 data (posT + 8) with
      | Except.error e => Except.error e
      | Except.ok fileCount =>
        match readU64 data (posT + 16) with
        | Except.error e => Except.error e
        | Except.ok fes =>
          if fes < 48 then Except.error "Unsupported file entry size"
          else
            match readFileEntries data fes fileCount (posT + 24) with
            | Except.error e => Except.error e
            | Except.ok (raws, posF) => phaseStrings data tocs raws posF

/-- The TOC section of readDirDb. -/
def phaseToc (data : Bytes) : Except String (List FileEntry) :=
  match readU64 data 24 with
  | Except.error e => Except.error e
  | Except.ok tocCount =>
    match readU64 data 32 with
    | Except.error e => Except.error e
    | Except.ok tes =>
      if tes < 16 then Except.error "Unsupported TOC entry size"
      else
        match readTocEntries data tes tocCount 40 with
        | Except.error e => Except.error e
        | Except.ok (tocs, posT) => phaseFiles data tocs posT

/-- readDirDb on the raw bytes of a .dirdb file: header checks, then the
TOC, FILES and STRINGS sections. -/
def readDirDbBytes (data : Bytes) : Except String (List FileEntry) :=
  match readU64 data 0 with
  | Except.error e => Except.error e
  | Except.ok tag1 =>
    if tag1 ≠ tagDirDb then Except.error "Invalid .dirdb tag"
    else
      match readU64 data 8 with
      | Except.error e => Except.error e
      | Except.ok version =>
        if version ≠ 1 then Except.error "Unsupported .dirdb version"
        else
          match readU64 data 16 with
          | Except.error e => Except.error e
          | Except.ok tag2 =>
            if tag2 ≠ tagToc then Except.error "Missing TOC tag"
            else phaseToc data

/-- appendLengthString's length mark: direct byte up to 0xFC, 0xFF + 2
bytes, 0xFE + 4 bytes, 0xFD + 8 bytes. -/
def lenMarkBytes (n : Nat) : Bytes :=
  if n ≤ 252 then [n]
  else if n ≤ 65535 then [255, n &&& 255, n >>> 8 &&& 255]
  else if n ≤ 4294967295 then
    [254, n &&& 255, n >>> 8 &&& 255, n >>> 16 &&& 255, n >>> 24 &&& 255]
  else 253 :: appendU64Le n

/-- appendLengthString of buildDirDb. -/
def appendLengthString (out : Bytes) (s : List Nat) : Bytes :=
  out ++ lenMarkBytes s.length ++ s

/-- The TOC derivation of buildDirDb: record (size, index) at index 0 and at
every size change. -/
def buildTocAux : List FileEntry → Nat → Option Nat → List (Nat × Nat)
  | [], _, _ => []
  | e :: rest, i, prev =>
    if prev = some e.size then buildTocAux rest (i + 1) (some e.size)
    else (e.size, i) :: buildTocAux rest (i + 1) (some e.size)

/-- The raw entry and string blob construction of buildDirDb: nameIndex is
the blob length at the time the name is appended. -/
def buildRaws : List FileEntry → Bytes → List RawFileEntry × Bytes
  | [], acc => ([], acc)
  | e :: rest, acc =>
    let r := buildRaws rest (appendLengthString acc e.path)
    (⟨acc.length, e.hash.lo, e.hash.hi, e.inode, e.date, e.numLinks⟩ :: r.1, r.2)

/-- The serialized TOC entry vector, with per-entry padding for entry sizes
beyond 16. -/
def tocRegion (tocPad : Bytes) (tocs : List (Nat × Nat)) : Bytes :=
  tocs.flatMap fun t => appendU64Le t.1 ++ appendU64Le t.2 ++ tocPad

/-- The serialized file entry vector, with per-entry padding for entry sizes
beyond 48. -/
def fileRegion (filePad : Bytes) (raws : List RawFileEntry) : Bytes :=
  raws.flatMap fun r =>
    appendU64Le r.nameIndex ++ appendU64Le r.hashLo ++ appendU64Le r.hashHi ++
      appendU64Le r.inode ++ appendU64Le r.date ++ appendU64Le r.numLinks ++
      filePad

/-- The section layout written by buildDirDb, with every header field
explicit. -/
def serializeSections (ver tocCount tes : Nat) (tocVec : Bytes)
    (fileCount fes : Nat) (fileVec : Bytes) (strings : Bytes) : Bytes :=
  appendU64Le tagDirDb ++ appendU64Le ver ++ appendU64Le tagToc ++
    appendU64Le tocCount ++ appendU64Le tes ++ tocVec ++
    appendU64Le tagFiles ++ appendU64Le fileCount ++ appendU64Le fes ++
    fileVec ++ appendU64Le tagStrings ++ appendU64Le strings.length ++ strings

/-- The writer on explicit TOC, raw entries and blob, with optional entry
padding (buildDirDb writes none). -/
def serializeRaw (tocs : List (Nat × Nat)) (raws : List RawFileEntry)
    (strings : Bytes) (tocPad filePad : Bytes) : Bytes :=
  serializeSections 1 tocs.length (16 + tocPad.length) (tocRegion tocPad tocs)
    raws.length (48 + filePad.length) (fileRegion filePad raws) strings

/-- The byte serialization of buildDirDb for a file list. -/
def serializeDirDb (files : List FileEntry) : Bytes :=
  serializeRaw (buildTocAux files 0 none) (buildRaws files []).1
    (buildRaws files []).2 [] []

/-- The concatenated length-prefixed names written by buildDirDb, in file
order. -/
def nameBlob (files : List FileEntry) : Bytes :=
  files.flatMap fun f => lenMarkBytes f.path.length ++ f.path

/-! ## Theorems: byte-level primitives -/

theorem and255_eq_mod (x : Nat) : x &&& 255 = x % 256 := by
  have h := Nat.and_pow_two_sub_one_eq_mod x 8
  norm_num at h
  exact h

theorem lor_shiftLeft_eq_add {a : Nat} (b : Nat) {k : Nat} (ha : a < 2 ^ k) :
    a ||| b <<< k = a + b * 2 ^ k := by
  apply Nat.eq_of_testBit_eq
  intro i
  rw [Nat.testBit_or, Nat.testBit_shiftLeft]
  rcases Nat.lt_or_ge i k with hik | hik
  · have h1 : Nat.testBit (a + b * 2 ^ k) i = Nat.testBit a i := by
      have hdecomp : b * 2 ^ k = b * 2 ^ (k - i - 1) * 2 * 2 ^ i := by
        rw [Nat.mul_assoc, Nat.mul_assoc, ← Nat.pow_succ']
        rw [← Nat.pow_add]
        congr 2
        omega
      rw [Nat.testBit_to_div_mod, Nat.testBit_to_div_mod, hdecomp,
        Nat.add_mul_div_right _ _ (Nat.two_pow_pos i),
        Nat.mul_comm (b * 2 ^ (k - i - 1)) 2, Nat.mul_comm 2 (b * 2 ^ (k - i - 1))]
      rw [Nat.add_mul_mod_self_right]
    have h2 : decide (i ≥ k) = false := by simp; omega
    rw [h1, h2]
    simp
  · have h1 : Nat.testBit a i = false :=
      Nat.testBit_lt_two_pow (Nat.lt_of_lt_of_le ha (Nat.pow_le_pow_right (by norm_num) hik))
    have h2 : Nat.testBit (a + b * 2 ^ k) i = Nat.testBit b (i - k) := by
      rw [Nat.testBit_to_div_mod, Nat.testBit_to_div_mod]
      have hsplit : (2 : Nat) ^ i = 2 ^ k * 2 ^ (i - k) := by
        rw [← Nat.pow_add]
        congr 1
        omega
      rw [hsplit, ← Nat.div_div_eq_div_mul,
        Nat.add_mul_div_right _ _ (Nat.two_pow_pos k),
        Nat.div_eq_of_lt ha, Nat.zero_add]
    have h3 : decide (i ≥ k) = true := by simp; omega
    rw [h1, h2, h3]
    simp

theorem lor_shiftLeft_bound {a b k : Nat} (ha : a < 2 ^ k) (hb : b < 256) :
    a + b * 2 ^ k < 2 ^ (k + 8) := by
  have hmul : b * 2 ^ k ≤ 255 * 2 ^ k := Nat.mul_le_mul_right _ (by omega)
  have h256 : 2 ^ (k + 8) = 256 * 2 ^ k := by
    rw [Nat.pow_add]
    ring
  omega

/-- With genuine bytes, the unrolled little-endian decode is the base-256 sum. -/
theorem u64FromBytes_eq_decodeLE {b0 b1 b2 b3 b4 b5 b6 b7 : Nat}
    (h0 : b0 < 256) (h1 : b1 < 256) (h2 : b2 < 256) (h3 : b3 < 256)
    (h4 : b4 < 256) (h5 : b5 < 256) (h6 : b6 < 256) (h7 : b7 < 256) :
    u64FromBytes b0 b1 b2 b3 b4 b5 b6 b7 = decodeLE [b0, b1, b2, b3, b4, b5, b6, b7] ∧
      u64FromBytes b0 b1 b2 b3 b4 b5 b6 b7 < 2 ^ 64 := by
  unfold u64FromBytes
  have s0 : b0 < 2 ^ 8 := by norm_num; exact h0
  rw [lor_shiftLeft_eq_add b1 s0]
  have s1 := lor_shiftLeft_bound s0 h1
  rw [lor_shiftLeft_eq_add b2 s1]
  have s2 := lor_shiftLeft_bound s1 h2
  rw [lor_shiftLeft_eq_add b3 s2]
  have s3 := lor_shiftLeft_bound s2 h3
  rw [lor_shiftLeft_eq_add b4 s3]
  have s4 := lor_shiftLeft_bound s3 h4
  rw [lor_shiftLeft_eq_add b5 s4]
  have s5 := lor_shiftLeft_bound s4 h5
  rw [lor_shiftLeft_eq_add b6 s5]
  have s6 := lor_shiftLeft_bound s5 h6
  rw [lor_shiftLeft_eq_add b7 s6]
  have s7 := lor_shiftLeft_bound s6 h7
  constructor
  · simp [decodeLE]
    ring
  · norm_num at s7 ⊢
    exact s7

/-- Byte-wise mod-256 decomposition step used to recompose a u64. -/
theorem mod_byte_step (m v : Nat) :
    v % 2 ^ (8 * (m + 1)) = v % 2 ^ (8 * m) + v / 2 ^ (8 * m) % 256 * 2 ^ (8 * m) := by
  have h : (2 : Nat) ^ (8 * (m + 1)) = 2 ^ (8 * m) * 2 ^ 8 := by
    rw [← Nat.pow_add]
    ring
  rw [h, Nat.mod_mul]
  norm_num [Nat.mul_comm]

/-- Decoding the eight little-endian bytes of v yields v mod 2^64. -/
theorem decodeLE_appendU64Le (v : Nat) : decodeLE (appendU64Le v) = v % 2 ^ 64 := by
  have e0 := mod_byte_step 0 v
  have e1 := mod_byte_step 1 v
  have e2 := mod_byte_step 2 v
  have e3 := mod_byte_step 3 v
  have e4 := mod_byte_step 4 v
  have e5 := mod_byte_step 5 v
  have e6 := mod_byte_step 6 v
  have e7 := mod_byte_step 7 v
  norm_num at e0 e1 e2 e3 e4 e5 e6 e7
  simp only [appendU64Le, decodeLE, and255_eq_mod, Nat.shiftRight_eq_div_pow]
  norm_num
  omega

theorem appendU64Le_byte_bounds (v : Nat) : ∀ b ∈ appendU64Le v, b < 256 := by
  intro b hb
  simp [appendU64Le, and255_eq_mod] at hb
  rcases hb with h | h | h | h | h | h | h | h <;> subst h <;>
    exact Nat.mod_lt _ (by norm_num)

theorem appendU64Le_length (v : Nat) : (appendU64Le v).length = 8 := rfl

theorem getD_congr_of_take_eq {l1 l2 : List Nat} {n i : Nat} (h : l1.take n = l2.take n)
    (hi : i < n) : l1.getD i 0 = l2.getD i 0 := by
  have h1 : (l1.take n).getD i 0 = l1.getD i 0 := by
    simp [List.getD_eq_getElem?_getD, List.getElem?_take, hi]
  have h2 : (l2.take n).getD i 0 = l2.getD i 0 := by
    simp [List.getD_eq_getElem?_getD, List.getElem?_take, hi]
  rw [← h1, ← h2, h]

/-! ## Theorems: minimum unique hash bits -/

theorem xor_shiftRight (a b k : Nat) : (a ^^^ b) >>> k = a >>> k ^^^ b >>> k := by
  apply Nat.eq_of_testBit_eq
  intro i
  simp [Nat.testBit_shiftRight, Nat.testBit_xor]

theorem shiftRight_eq_zero_iff_lt {z k : Nat} : z >>> k = 0 ↔ z < 2 ^ k := by
  rw [Nat.shiftRight_eq_div_pow]
  exact Nat.div_eq_zero_iff (Nat.two_pow_pos k)

theorem div_pow_eq_iff_xor_lt {a b k : Nat} :
    a / 2 ^ k = b / 2 ^ k ↔ a ^^^ b < 2 ^ k := by
  rw [← Nat.shiftRight_eq_div_pow a k, ← Nat.shiftRight_eq_div_pow b k]
  constructor
  · intro h
    apply shiftRight_eq_zero_iff_lt.mp
    rw [xor_shiftRight, h]
    simp
  · intro h
    have h0 := shiftRight_eq_zero_iff_lt.mpr h
    rw [xor_shiftRight] at h0
    exact Nat.xor_eq_zero.mp h0

theorem val_xor_split {a b : Hash128} (ha : a.lo < 2 ^ 64) (hb : b.lo < 2 ^ 64) :
    a.val ^^^ b.val = (a.hi ^^^ b.hi) * 2 ^ 64 + (a.lo ^^^ b.lo) := by
  have e1 : a.val = a.lo ||| a.hi <<< 64 := by
    rw [Hash128.val, lor_shiftLeft_eq_add a.hi ha]
    ring
  have e2 : b.val = b.lo ||| b.hi <<< 64 := by
    rw [Hash128.val, lor_shiftLeft_eq_add b.hi hb]
    ring
  have hxlo : a.lo ^^^ b.lo < 2 ^ 64 := Nat.xor_lt_two_pow ha hb
  have e3 : (a.hi ^^^ b.hi) * 2 ^ 64 + (a.lo ^^^ b.lo) =
      (a.lo ^^^ b.lo) ||| (a.hi ^^^ b.hi) <<< 64 := by
    rw [lor_shiftLeft_eq_add _ hxlo]
    ring
  rw [e1, e2, e3]
  apply Nat.eq_of_testBit_eq
  intro i
  simp only [Nat.testBit_or, Nat.testBit_xor, Nat.testBit_shiftLeft]
  rcases Nat.lt_or_ge i 64 with hi | hi
  · have hd : decide (i ≥ 64) = false := by simp; omega
    rw [hd]
    simp
  · have hd : decide (i ≥ 64) = true := by simp; omega
    have f1 : a.lo.testBit i = false :=
      Nat.testBit_lt_two_pow (Nat.lt_of_lt_of_le ha (Nat.pow_le_pow_right (by norm_num) hi))
    have f2 : b.lo.testBit i = false :=
      Nat.testBit_lt_two_pow (Nat.lt_of_lt_of_le hb (Nat.pow_le_pow_right (by norm_num) hi))
    have f3 : (a.lo ^^^ b.lo).testBit i = false :=
      Nat.testBit_lt_two_pow (Nat.lt_of_lt_of_le hxlo (Nat.pow_le_pow_right (by norm_num) hi))
    simp [hd, f1, f2, f3]

theorem commonCode_comm (a b : Hash128) : commonCode a b = commonCode b a := by
  simp [commonCode, Nat.xor_comm]

theorem hash128_eta (a b : Hash128) (h1 : a.hi = b.hi) (h2 : a.lo = b.lo) : a = b := by
  cases a
  cases b
  simp_all

/-- The agreement predicate characterizes commonCode: two distinct in-range
hashes agree on their top m bits exactly when m ≤ commonCode. -/
theorem agreeTop_iff_le_commonCode {a b : Hash128}
    (hahi : a.hi < 2 ^ 64) (halo : a.lo < 2 ^ 64)
    (hbhi : b.hi < 2 ^ 64) (hblo : b.lo < 2 ^ 64)
    (hne : a ≠ b) {m : Nat} (hm : m ≤ 128) :
    agreeTop m a.val b.val ↔ m ≤ commonCode a b := by
  have hx : agreeTop m a.val b.val ↔ a.val ^^^ b.val < 2 ^ (128 - m) :=
    div_pow_eq_iff_xor_lt
  rw [hx, val_xor_split halo hblo]
  by_cases hhi : a.hi ^^^ b.hi = 0
  · have hhieq : a.hi = b.hi := Nat.xor_eq_zero.mp hhi
    have hloz : a.lo ^^^ b.lo ≠ 0 := by
      intro hz
      exact hne (hash128_eta a b hhieq (Nat.xor_eq_zero.mp hz))
    set z := a.lo ^^^ b.lo with hzdef
    have hzlt : z < 2 ^ 64 := Nat.xor_lt_two_pow halo hblo
    set g := Nat.log2 z with hgdef
    have hglow : 2 ^ g ≤ z := Nat.log2_self_le hloz
    have hghigh : z < 2 ^ (g + 1) := (Nat.log2_lt hloz).mp (by omega)
    have hg63 : g ≤ 63 := by
      have := (Nat.log2_lt hloz).mpr hzlt
      omega
    have hcc : commonCode a b = 64 + (63 - g) := by
      simp [commonCode, hhi, clz64, hloz, hzdef, hgdef]
    rw [hcc, hhi, Nat.zero_mul, Nat.zero_add]
    constructor
    · intro hlt
      by_contra hgt
      have h1 : 128 - m ≤ g := by omega
      have h2 : (2 : Nat) ^ (128 - m) ≤ 2 ^ g := Nat.pow_le_pow_right (by norm_num) h1
      omega
    · intro hle
      have h1 : g + 1 ≤ 128 - m := by omega
      have h2 : (2 : Nat) ^ (g + 1) ≤ 2 ^ (128 - m) := Nat.pow_le_pow_right (by norm_num) h1
      omega
  · set w := a.hi ^^^ b.hi with hwdef
    have hwlt : w < 2 ^ 64 := Nat.xor_lt_two_pow hahi hbhi
    set g := Nat.log2 w with hgdef
    have hglow : 2 ^ g ≤ w := Nat.log2_self_le hhi
    have hghigh : w < 2 ^ (g + 1) := (Nat.log2_lt hhi).mp (by omega)
    have hg63 : g ≤ 63 := by
      have := (Nat.log2_lt hhi).mpr hwlt
      omega
    have hcc : commonCode a b = 63 - g := by
      simp [commonCode, hhi, clz64, hwdef, hgdef]
    rw [hcc]
    have hzlo : a.lo ^^^ b.lo < 2 ^ 64 := Nat.xor_lt_two_pow halo hblo
    have hXlow : 2 ^ (g + 64) ≤ w * 2 ^ 64 + (a.lo ^^^ b.lo) := by
      have : (2 : Nat) ^ (g + 64) = 2 ^ g * 2 ^ 64 := by
        rw [← Nat.pow_add]
      have hmul : 2 ^ g * 2 ^ 64 ≤ w * 2 ^ 64 := Nat.mul_le_mul_right _ hglow
      omega
    have hXhigh : w * 2 ^ 64 + (a.lo ^^^ b.lo) < 2 ^ (g + 65) := by
      have h1 : w * 2 ^ 64 + (a.lo ^^^ b.lo) < (w + 1) * 2 ^ 64 := by
        have : (w + 1) * 2 ^ 64 = w * 2 ^ 64 + 2 ^ 64 := by ring
        omega
      have h2 : (w + 1) * 2 ^ 64 ≤ 2 ^ (g + 1) * 2 ^ 64 :=
        Nat.mul_le_mul_right _ (by omega)
      have h3 : (2 : Nat) ^ (g + 1) * 2 ^ 64 = 2 ^ (g + 65) := by
        rw [← Nat.pow_add]
      omega
    constructor
    · intro hlt
      by_contra hgt
      have h1 : 128 - m ≤ g + 64 := by omega
      have h2 : (2 : Nat) ^ (128 - m) ≤ 2 ^ (g + 64) := Nat.pow_le_pow_right (by norm_num) h1
      omega
    · intro hle
      have h1 : g + 65 ≤ 128 - m := by omega
      have h2 : (2 : Nat) ^ (g + 65) ≤ 2 ^ (128 - m) := Nat.pow_le_pow_right (by norm_num) h1
      omega

theorem commonCode_le_127 {a b : Hash128}
    (hahi : a.hi < 2 ^ 64) (halo : a.lo < 2 ^ 64)
    (hbhi : b.hi < 2 ^ 64) (hblo : b.lo < 2 ^ 64) (hne : a ≠ b) :
    commonCode a b ≤ 127 := by
  by_cases hhi : a.hi ^^^ b.hi = 0
  · have hhieq : a.hi = b.hi := Nat.xor_eq_zero.mp hhi
    have hloz : a.lo ^^^ b.lo ≠ 0 := by
      intro hz
      exact hne (hash128_eta a b hhieq (Nat.xor_eq_zero.mp hz))
    simp [commonCode, hhi, clz64, hloz]
    omega
  · simp [commonCode, hhi, clz64]
    omega

theorem val_inj {a b : Hash128} (halo : a.lo < 2 ^ 64) (hblo : b.lo < 2 ^ 64)
    (h : a.val = b.val) : a = b := by
  apply hash128_eta
  · simp [Hash128.val] at h
    omega
  · simp [Hash128.val] at h
    omega

theorem ltb_iff_val_lt {a b : Hash128} (halo : a.lo < 2 ^ 64) (hblo : b.lo < 2 ^ 64) :
    Hash128.ltb a b = true ↔ a.val < b.val := by
  simp only [Hash128.ltb, Hash128.val]
  by_cases h : a.hi = b.hi
  · simp [h]
  · simp [h]
    constructor
    · intro hlt
      have : a.hi + 1 ≤ b.hi := hlt
      have := Nat.mul_le_mul_right (2 ^ 64) this
      omega
    · intro hlt
      by_contra hge
      have hge2 : b.hi < a.hi := by omega
      have : b.hi + 1 ≤ a.hi := hge2
      have := Nat.mul_le_mul_right (2 ^ 64) this
      omega

theorem ltb_iff_hlex {a b : Hash128} : Hash128.ltb a b = true ↔ hlex a b := by
  simp only [Hash128.ltb, hlex]
  by_cases h : a.hi = b.hi <;> simp [h] <;> omega

theorem hlex_irrefl (a : Hash128) : ¬ hlex a a := by
  simp [hlex]

theorem hlex_asymm {a b : Hash128} (h : hlex a b) : ¬ hlex b a := by
  simp only [hlex] at *
  omega

theorem hlex_trans {a b c : Hash128} (h1 : hlex a b) (h2 : hlex b c) : hlex a c := by
  simp only [hlex] at *
  omega

theorem hlex_connex {a b : Hash128} (h : ¬ hlex a b) : hlex b a ∨ a = b := by
  simp only [hlex] at *
  rcases Nat.lt_trichotomy a.hi b.hi with hc | hc | hc
  · omega
  · rcases Nat.lt_trichotomy a.lo b.lo with hl | hl | hl
    · omega
    · right
      exact hash128_eta a b hc hl
    · left
      omega
  · left
    omega

theorem hlex_ne {a b : Hash128} (h : hlex a b) : a ≠ b := by
  intro he
  subst he
  exact hlex_irrefl a h

theorem hlex_of_hlex_of_nlt {a b c : Hash128} (h1 : hlex a b) (h2 : ¬ hlex c b) :
    hlex a c := by
  rcases hlex_connex h2 with hb | hb
  · exact hlex_trans h1 hb
  · rw [hb]
    exact h1

theorem hlex_iff_val_lt {a b : Hash128} (halo : a.lo < 2 ^ 64) (hblo : b.lo < 2 ^ 64) :
    hlex a b ↔ a.val < b.val := by
  rw [← ltb_iff_hlex]
  exact ltb_iff_val_lt halo hblo

/-! ## Theorems: sorting and dedup of hashes -/

theorem insertHash_perm (x : Hash128) (l : List Hash128) :
    List.Perm (insertHash x l) (x :: l) := by
  induction l with
  | nil => simp [insertHash]
  | cons y t ih =>
    unfold insertHash
    by_cases hc : Hash128.ltb x y = true
    · simp [hc]
    · rw [if_neg (by simp [hc])]
      exact (ih.cons y).trans (List.Perm.swap x y t)

theorem sortHashes_perm (l : List Hash128) : List.Perm (sortHashes l) l := by
  induction l with
  | nil => simp [sortHashes]
  | cons x t ih =>
    unfold sortHashes
    exact (insertHash_perm x (sortHashes t)).trans (ih.cons x)

theorem mem_insertHash {z x : Hash128} {l : List Hash128} :
    z ∈ insertHash x l ↔ z = x ∨ z ∈ l := by
  rw [(insertHash_perm x l).mem_iff]
  simp

theorem insertHash_sorted (x : Hash128) {l : List Hash128}
    (hs : List.Pairwise (fun a b => ¬ hlex b a) l) :
    List.Pairwise (fun a b => ¬ hlex b a) (insertHash x l) := by
  induction l with
  | nil => simp [insertHash]
  | cons y t ih =>
    rcases List.pairwise_cons.mp hs with ⟨hy, ht⟩
    unfold insertHash
    by_cases hc : Hash128.ltb x y = true
    · rw [if_pos hc]
      have hxy : hlex x y := ltb_iff_hlex.mp hc
      refine List.Pairwise.cons ?_ hs
      intro z hz
      rcases List.mem_cons.mp hz with rfl | hzt
      · exact hlex_asymm hxy
      · intro hzx
        exact hy z hzt (hlex_trans hzx hxy)
    · rw [if_neg (by simp [hc])]
      have hnxy : ¬ hlex x y := fun h => hc (ltb_iff_hlex.mpr h)
      refine List.Pairwise.cons ?_ (ih ht)
      intro z hz
      rcases mem_insertHash.mp hz with rfl | hzt
      · exact hnxy
      · exact hy z hzt

theorem sortHashes_sorted (l : List Hash128) :
    List.Pairwise (fun a b => ¬ hlex b a) (sortHashes l) := by
  induction l with
  | nil => simp [sortHashes]
  | cons x t ih =>
    unfold sortHashes
    exact insertHash_sorted x ih

theorem mem_dedupAdj {l : List Hash128} {z : Hash128} :
    z ∈ dedupAdj l ↔ z ∈ l := by
  induction l with
  | nil => simp [dedupAdj]
  | cons x t ih =>
    cases t with
    | nil => simp [dedupAdj]
    | cons y rest =>
      unfold dedupAdj
      by_cases hc : x = y
      · rw [if_pos hc]
        rw [ih]
        subst hc
        simp
      · rw [if_neg hc]
        simp only [List.mem_cons] at *
        rw [ih]

theorem dedupAdj_sorted {l : List Hash128}
    (hs : List.Pairwise (fun a b => ¬ hlex b a) l) :
    List.Pairwise hlex (dedupAdj l) := by
  induction l with
  | nil => simp [dedupAdj]
  | cons x t ih =>
    cases t with
    | nil => simp [dedupAdj]
    | cons y rest =>
      rcases List.pairwise_cons.mp hs with ⟨hx, ht⟩
      rcases List.pairwise_cons.mp ht with ⟨hy, _⟩
      unfold dedupAdj
      by_cases hc : x = y
      · rw [if_pos hc]
        exact ih ht
      · rw [if_neg hc]
        refine List.Pairwise.cons ?_ (ih ht)
        intro z hz
        have hzmem : z ∈ y :: rest := mem_dedupAdj.mp hz
        have hxy : hlex x y := by
          rcases hlex_connex (hx y (by simp)) with h | h
          · exact h
          · exact absurd h.symm hc
        rcases List.mem_cons.mp hzmem with rfl | hzr
        · exact hxy
        · exact hlex_of_hlex_of_nlt hxy (hy z hzr)

theorem foldr_max_le {l : List Nat} {c : Nat} (h : ∀ x ∈ l, x ≤ c) :
    l.foldr max 0 ≤ c := by
  induction l with
  | nil => simp
  | cons a t ih =>
    simp only [List.foldr]
    exact max_le (h a (by simp)) (ih fun x hx => h x (by simp [hx]))

theorem le_foldr_max {x : Nat} {l : List Nat} (h : x ∈ l) : x ≤ l.foldr max 0 := by
  induction l with
  | nil => cases h
  | cons a t ih =>
    simp only [List.foldr]
    rcases List.mem_cons.mp h with rfl | hm
    · exact le_max_left _ _
    · exact le_trans (ih hm) (le_max_right _ _)

theorem maxAdjCommon_cons_le {a : Hash128} {t : List Hash128} :
    maxAdjCommon t ≤ maxAdjCommon (a :: t) := by
  cases t with
  | nil => simp [maxAdjCommon]
  | cons b r => exact le_max_right _ _

/-- After sorting, the largest common prefix over all pairs is attained on an
adjacent pair: any pair's common prefix is bounded by some adjacent one. -/
theorem commonCode_le_maxAdj (d : List Hash128) :
    (∀ h ∈ d, h.hi < 2 ^ 64 ∧ h.lo < 2 ^ 64) → List.Pairwise hlex d →
    ∀ x y : Hash128, x ∈ d → y ∈ d → hlex x y →
    commonCode x y ≤ maxAdjCommon d := by
  induction d with
  | nil =>
    intro _ _ x y hx _ _
    cases hx
  | cons a t ih =>
    intro hb hs x y hx hy hxy
    rcases List.pairwise_cons.mp hs with ⟨ha, ht⟩
    have hbt : ∀ h ∈ t, h.hi < 2 ^ 64 ∧ h.lo < 2 ^ 64 := fun h hm => hb h (by simp [hm])
    rcases List.mem_cons.mp hx with rfl | hxt
    · have hyt : y ∈ t := by
        rcases List.mem_cons.mp hy with rfl | h
        · exact absurd hxy (hlex_irrefl _)
        · exact h
      cases t with
      | nil => cases hyt
      | cons b rest =>
        rcases List.mem_cons.mp hyt with rfl | hyr
        · exact le_max_left _ _
        · have hab : hlex x b := ha b (by simp)
          have hby : hlex b y := (List.pairwise_cons.mp ht).1 y hyr
          have hxb := hb x (by simp)
          have hbb := hb b (by simp)
          have hyb := hb y (by simp [hyr])
          have hne_xy : x ≠ y := hlex_ne hxy
          have hne_by : b ≠ y := hlex_ne hby
          have hm128 : commonCode x y ≤ 128 :=
            le_trans (commonCode_le_127 hxb.1 hxb.2 hyb.1 hyb.2 hne_xy) (by norm_num)
          have hag : agreeTop (commonCode x y) x.val y.val :=
            (agreeTop_iff_le_commonCode hxb.1 hxb.2 hyb.1 hyb.2 hne_xy hm128).mpr le_rfl
          have hvab : x.val < b.val := (hlex_iff_val_lt hxb.2 hbb.2).mp hab
          have hvby : b.val < y.val := (hlex_iff_val_lt hbb.2 hyb.2).mp hby
          have hagb : agreeTop (commonCode x y) b.val y.val := by
            unfold agreeTop at hag ⊢
            have d1 : x.val / 2 ^ (128 - commonCode x y) ≤ b.val / 2 ^ (128 - commonCode x y) :=
              Nat.div_le_div_right (le_of_lt hvab)
            have d2 : b.val / 2 ^ (128 - commonCode x y) ≤ y.val / 2 ^ (128 - commonCode x y) :=
              Nat.div_le_div_right (le_of_lt hvby)
            omega
          have hcc : commonCode x y ≤ commonCode b y :=
            (agreeTop_iff_le_commonCode hbb.1 hbb.2 hyb.1 hyb.2 hne_by hm128).mp hagb
          have hchain : commonCode b y ≤ maxAdjCommon (b :: rest) :=
            ih hbt ht b y (by simp) (by simp [hyr]) hby
          exact le_trans hcc (le_trans hchain (le_max_right _ _))
    · have hyt : y ∈ t := by
        rcases List.mem_cons.mp hy with rfl | h
        · exact absurd (ha x hxt) (fun hax => hlex_asymm hax hxy)
        · exact h
      exact le_trans (ih hbt ht x y hxt hyt hxy) maxAdjCommon_cons_le

/-- The maximum adjacent common prefix is attained by some distinct pair. -/
theorem maxAdj_attained (d : List Hash128) :
    List.Pairwise hlex d → 2 ≤ d.length →
    ∃ x ∈ d, ∃ y ∈ d, x ≠ y ∧ commonCode x y = maxAdjCommon d := by
  induction d with
  | nil =>
    intro _ hl
    simp at hl
  | cons a t ih =>
    intro hs hl
    cases t with
    | nil => simp at hl
    | cons b rest =>
      rcases List.pairwise_cons.mp hs with ⟨ha, ht⟩
      by_cases hc : maxAdjCommon (b :: rest) ≤ commonCode a b
      · refine ⟨a, by simp, b, by simp, hlex_ne (ha b (by simp)), ?_⟩
        show commonCode a b = max (commonCode a b) (maxAdjCommon (b :: rest))
        exact (max_eq_left hc).symm
      · push_neg at hc
        cases rest with
        | nil =>
          simp [maxAdjCommon] at hc
        | cons c r2 =>
          obtain ⟨x, hx, y, hy, hne, heq⟩ := ih ht (by simp)
          refine ⟨x, by simp [hx], y, by simp [hy], hne, ?_⟩
          show commonCode x y = max (commonCode a b) (maxAdjCommon (b :: c :: r2))
          rw [max_eq_right (le_of_lt hc)]
          exact heq

/-- sharedBits (the specification-side count of shared leading bits)
coincides with the adjacent-pair computation of the code. -/
theorem sharedBits_eq_commonCode {a b : Hash128}
    (ha : a.hi < 2 ^ 64 ∧ a.lo < 2 ^ 64) (hb : b.hi < 2 ^ 64 ∧ b.lo < 2 ^ 64)
    (hne : a ≠ b) :
    sharedBits a.val b.val = commonCode a b := by
  unfold sharedBits
  apply le_antisymm
  · apply foldr_max_le
    intro k hk
    rcases List.mem_filter.mp hk with ⟨hkr, hka⟩
    have hk128 : k ≤ 128 := by
      have := List.mem_range.mp hkr
      omega
    exact (agreeTop_iff_le_commonCode ha.1 ha.2 hb.1 hb.2 hne hk128).mp
      (of_decide_eq_true hka)
  · apply le_foldr_max
    apply List.mem_filter.mpr
    have hcc := commonCode_le_127 ha.1 ha.2 hb.1 hb.2 hne
    refine ⟨List.mem_range.mpr (by omega), ?_⟩
    exact decide_eq_true
      ((agreeTop_iff_le_commonCode ha.1 ha.2 hb.1 hb.2 hne (by omega)).mpr le_rfl)

theorem commonCode_le_pairsMax {l : List Hash128}
    (hbnd : ∀ h ∈ l, h.hi < 2 ^ 64 ∧ h.lo < 2 ^ 64)
    {x y : Hash128} (hx : x ∈ l) (hy : y ∈ l) (hne : x ≠ y) :
    commonCode x y ≤ pairsMaxShared l := by
  unfold pairsMaxShared
  apply le_foldr_max
  apply List.mem_map.mpr
  refine ⟨(x, y), ?_, ?_⟩
  · apply List.mem_filter.mpr
    exact ⟨List.mem_product.mpr ⟨hx, hy⟩, decide_eq_true hne⟩
  · exact sharedBits_eq_commonCode (hbnd x hx) (hbnd y hy) hne

theorem maxAdj_le_pairsMax (d : List Hash128) {l : List Hash128}
    (hbnd : ∀ h ∈ l, h.hi < 2 ^ 64 ∧ h.lo < 2 ^ 64) :
    (∀ h ∈ d, h ∈ l) → List.Pairwise hlex d →
    maxAdjCommon d ≤ pairsMaxShared l := by
  induction d with
  | nil =>
    intro _ _
    simp [maxAdjCommon]
  | cons a t ih =>
    intro hsub hs
    rcases List.pairwise_cons.mp hs with ⟨ha, ht⟩
    cases t with
    | nil => simp [maxAdjCommon]
    | cons b rest =>
      apply max_le
      · exact commonCode_le_pairsMax hbnd (hsub a (by simp)) (hsub b (by simp))
          (hlex_ne (ha b (by simp)))
      · exact ih (fun h hm => hsub h (by simp [hm])) ht

theorem two_mem_ne_length {l : List Hash128} {x y : Hash128}
    (hx : x ∈ l) (hy : y ∈ l) (hne : x ≠ y) : 2 ≤ l.length := by
  cases l with
  | nil => cases hx
  | cons a t =>
    cases t with
    | nil =>
      simp at hx hy
      subst hx
      subst hy
      exact absurd rfl hne
    | cons b r => simp

theorem getMinUniqueHashBits_eq (hashes : List Hash128) :
    getMinUniqueHashBits hashes =
      if hashes.length ≤ 1 then 0
      else if (dedupAdj (sortHashes hashes)).length ≤ 1 then 0
      else min 128 (maxAdjCommon (dedupAdj (sortHashes hashes)) + 1) := rfl

/-! ## Theorems: byte-string comparison and entry sorting -/

theorem bytesLt_nil_right : ∀ (b : List Nat), bytesLt b [] = false
  | [] => rfl
  | _ :: _ => rfl

theorem bytesLt_asymm : ∀ (a b : List Nat), bytesLt a b = true → bytesLt b a = false
  | [], [] => by simp [bytesLt]
  | [], _ :: _ => by simp [bytesLt]
  | _ :: _, [] => by simp [bytesLt]
  | a :: as, b :: bs => by
    simp only [bytesLt]
    intro h
    by_cases h1 : a < b
    · rw [if_neg (show ¬ b < a by omega), if_pos h1]
    · by_cases h2 : b < a
      · rw [if_neg h1, if_pos h2] at h
        cases h
      · have hab : a = b := by omega
        rw [if_neg h1, if_neg h2] at h
        rw [if_neg (by omega), if_neg (by omega)]
        exact bytesLt_asymm as bs h

theorem bytesLt_trans : ∀ (a b c : List Nat),
    bytesLt a b = true → bytesLt b c = true → bytesLt a c = true
  | _, b, [] => by
    intro _ h2
    rw [bytesLt_nil_right b] at h2
    cases h2
  | [], _, _ :: _ => by
    intro _ _
    simp [bytesLt]
  | a :: as, b, c :: cs => by
    intro h1 h2
    cases b with
    | nil =>
      rw [bytesLt_nil_right (a :: as)] at h1
      cases h1
    | cons y ys =>
      simp only [bytesLt] at h1 h2 ⊢
      by_cases hab : a < y
      · by_cases hyc : y < c
        · rw [if_pos (by omega)]
        · by_cases hcy : c < y
          · rw [if_neg hyc, if_pos hcy] at h2
            cases h2
          · have : y = c := by omega
            rw [if_pos (by omega)]
      · by_cases hba : y < a
        · rw [if_neg hab, if_pos hba] at h1
          cases h1
        · have hay : a = y := by omega
          rw [if_neg hab, if_neg hba] at h1
          by_cases hyc : y < c
          · rw [if_pos (by omega)]
          · by_cases hcy : c < y
            · rw [if_neg hyc, if_pos hcy] at h2
              cases h2
            · have hyceq : y = c := by omega
              rw [if_neg (by omega), if_neg (by omega)]
              rw [if_neg hyc, if_neg hcy] at h2
              exact bytesLt_trans as ys cs h1 h2

theorem bytesLt_connex : ∀ (a b : List Nat),
    bytesLt a b = false → bytesLt b a = false → a = b
  | [], [] => by
    intro _ _
    rfl
  | [], _ :: _ => by
    intro h1 _
    simp [bytesLt] at h1
  | _ :: _, [] => by
    intro _ h2
    simp [bytesLt] at h2
  | a :: as, b :: bs => by
    intro h1 h2
    simp only [bytesLt] at h1 h2
    by_cases hab : a < b
    · rw [if_pos hab] at h1
      cases h1
    · by_cases hba : b < a
      · rw [if_pos hba] at h2
        cases h2
      · have heq : a = b := by omega
        subst heq
        rw [if_neg hab, if_neg hba] at h1 h2
        rw [bytesLt_connex as bs h1 h2]

theorem entryLtb_asymm {a b : FileEntry} (h : entryLtb a b = true) :
    entryLtb b a = false := by
  simp only [entryLtb] at *
  by_cases hs : a.size = b.size
  · rw [if_neg (by omega)] at h ⊢
    exact bytesLt_asymm _ _ h
  · rw [if_pos (by omega)] at h ⊢
    simp at h ⊢
    omega

theorem entryLtb_trans {a b c : FileEntry} (h1 : entryLtb a b = true)
    (h2 : entryLtb b c = true) : entryLtb a c = true := by
  simp only [entryLtb] at *
  by_cases hab : a.size = b.size
  · by_cases hbc : b.size = c.size
    · rw [if_neg (by omega)] at h1 h2 ⊢
      exact bytesLt_trans _ _ _ h1 h2
    · rw [if_neg (by omega)] at h1
      rw [if_pos (by omega)] at h2
      simp at h2
      rw [if_pos (by omega)]
      simp
      omega
  · rw [if_pos (by omega)] at h1
    simp at h1
    by_cases hbc : b.size = c.size
    · rw [if_pos (by omega)]
      simp
      omega
    · rw [if_pos (by omega)] at h2
      simp at h2
      rw [if_pos (by omega)]
      simp
      omega

theorem insertEntry_perm (x : FileEntry) (l : List FileEntry) :
    List.Perm (insertEntry x l) (x :: l) := by
  induction l with
  | nil => simp [insertEntry]
  | cons y t ih =>
    unfold insertEntry
    by_cases hc : entryLtb x y = true
    · simp [hc]
    · rw [if_neg (by simp [hc])]
      exact (ih.cons y).trans (List.Perm.swap x y t)

theorem sortEntries_perm (l : List FileEntry) : List.Perm (sortEntries l) l := by
  induction l with
  | nil => simp [sortEntries]
  | cons x t ih =>
    unfold sortEntries
    exact (insertEntry_perm x (sortEntries t)).trans (ih.cons x)

theorem mem_insertEntry {z x : FileEntry} {l : List FileEntry} :
    z ∈ insertEntry x l ↔ z = x ∨ z ∈ l := by
  rw [(insertEntry_perm x l).mem_iff]
  simp

theorem insertEntry_sorted (x : FileEntry) {l : List FileEntry}
    (hs : List.Pairwise (fun a b => entryLtb b a = false) l) :
    List.Pairwise (fun a b => entryLtb b a = false) (insertEntry x l) := by
  induction l with
  | nil => simp [insertEntry]
  | cons y t ih =>
    rcases List.pairwise_cons.mp hs with ⟨hy, ht⟩
    unfold insertEntry
    by_cases hc : entryLtb x y = true
    · rw [if_pos hc]
      refine List.Pairwise.cons ?_ hs
      intro z hz
      rcases List.mem_cons.mp hz with rfl | hzt
      · exact entryLtb_asymm hc
      · by_contra hzx
        have hzx2 : entryLtb z x = true := by
          cases hzxv : entryLtb z x
          · exact absurd hzxv hzx
          · rfl
        have := hy z hzt
        rw [entryLtb_trans hzx2 hc] at this
        cases this
    · rw [if_neg (by simp [hc])]
      refine List.Pairwise.cons ?_ (ih ht)
      intro w hw
      rcases mem_insertEntry.mp hw with heq | hwt
      · rw [heq]
        simp only [Bool.not_eq_true] at hc
        exact hc
      · exact hy w hwt

theorem sortEntries_sorted (l : List FileEntry) :
    List.Pairwise (fun a b => entryLtb b a = false) (sortEntries l) := by
  induction l with
  | nil => simp [sortEntries]
  | cons x t ih =>
    unfold sortEntries
    exact insertEntry_sorted x ih

/-- Non-strict sortedness plus pairwise-distinct names yields the strict
(size, name) order. -/
theorem sorted_strict_of_distinct_names {l : List FileEntry}
    (hs : List.Pairwise (fun a b => entryLtb b a = false) l)
    (hnd : List.Pairwise (fun a b => a.path ≠ b.path) l) :
    List.Pairwise entryStrictLt l := by
  have hcomb := hs.and hnd
  refine hcomb.imp ?_
  rintro a b ⟨hle, hne⟩
  simp only [entryLtb] at hle
  unfold entryStrictLt
  by_cases hsz : a.size = b.size
  · rw [if_neg (by omega)] at hle
    right
    refine ⟨hsz, ?_⟩
    cases hv : bytesLt a.path b.path
    · exact absurd (bytesLt_connex _ _ hv hle) hne
    · rfl
  · rw [if_pos (by omega)] at hle
    simp at hle
    left
    omega

/-! ## Theorems: the scan loop of buildDirDb -/

theorem scanLoop_cons_skip_name {cache : Option (List (HashReuseKey × FileEntry))}
    {hashOracle : List Nat → Hash128} {e : ScanEntry} {rest : List ScanEntry}
    (h : e.name = dirdbNameBytes) :
    scanLoop cache hashOracle (e :: rest) = scanLoop cache hashOracle rest := by
  simp [scanLoop, h]

theorem scanLoop_cons_skip_type {cache : Option (List (HashReuseKey × FileEntry))}
    {hashOracle : List Nat → Hash128} {e : ScanEntry} {rest : List ScanEntry}
    (h1 : ¬ e.name = dirdbNameBytes) (h2 : e.isRegular = false) :
    scanLoop cache hashOracle (e :: rest) = scanLoop cache hashOracle rest := by
  simp [scanLoop, h1, h2]

theorem scanLoop_cons_hit {cache : List (HashReuseKey × FileEntry)}
    {hashOracle : List Nat → Hash128} {e : ScanEntry} {rest : List ScanEntry}
    {v : FileEntry}
    (h1 : ¬ e.name = dirdbNameBytes) (h2 : e.isRegular = true)
    (hv : cache.lookup ⟨e.inode, e.size, fileTimeFromTimespec e.mtimeSec e.mtimeNsec⟩ =
      some v) :
    scanLoop (some cache) hashOracle (e :: rest) =
      (⟨e.name, e.size, v.hash, e.inode, fileTimeFromTimespec e.mtimeSec e.mtimeNsec,
          e.numLinks⟩ :: (scanLoop (some cache) hashOracle rest).1,
        (scanLoop (some cache) hashOracle rest).2.1,
        (scanLoop (some cache) hashOracle rest).2.2) := by
  simp [scanLoop, h1, h2, hv]

theorem scanLoop_cons_miss {cache : List (HashReuseKey × FileEntry)}
    {hashOracle : List Nat → Hash128} {e : ScanEntry} {rest : List ScanEntry}
    (h1 : ¬ e.name = dirdbNameBytes) (h2 : e.isRegular = true)
    (hv : cache.lookup ⟨e.inode, e.size, fileTimeFromTimespec e.mtimeSec e.mtimeNsec⟩ =
      none) :
    scanLoop (some cache) hashOracle (e :: rest) =
      (⟨e.name, e.size, hashOracle e.name, e.inode,
          fileTimeFromTimespec e.mtimeSec e.mtimeNsec, e.numLinks⟩ ::
          (scanLoop (some cache) hashOracle rest).1,
        (scanLoop (some cache) hashOracle rest).2.1 + e.size,
        e.name :: (scanLoop (some cache) hashOracle rest).2.2) := by
  simp [scanLoop, h1, h2, hv]

theorem scanLoop_cons_active_shape {cache : Option (List (HashReuseKey × FileEntry))}
    {hashOracle : List Nat → Hash128} {e : ScanEntry} {rest : List ScanEntry}
    (h1 : ¬ e.name = dirdbNameBytes) (h2 : e.isRegular = true) :
    ∃ hsh : Hash128, (scanLoop cache hashOracle (e :: rest)).1 =
      ⟨e.name, e.size, hsh, e.inode, fileTimeFromTimespec e.mtimeSec e.mtimeNsec,
        e.numLinks⟩ :: (scanLoop cache hashOracle rest).1 := by
  cases cache with
  | none => exact ⟨hashOracle e.name, by simp [scanLoop, h1, h2]⟩
  | some c =>
    cases hv : c.lookup ⟨e.inode, e.size, fileTimeFromTimespec e.mtimeSec e.mtimeNsec⟩ with
    | none => exact ⟨hashOracle e.name, by rw [scanLoop_cons_miss h1 h2 hv]⟩
    | some cached => exact ⟨cached.hash, by rw [scanLoop_cons_hit h1 h2 hv]⟩

theorem scanLoop_hashed_shape {cache : Option (List (HashReuseKey × FileEntry))}
    {hashOracle : List Nat → Hash128} {e : ScanEntry} {rest : List ScanEntry}
    (h1 : ¬ e.name = dirdbNameBytes) (h2 : e.isRegular = true) :
    (scanLoop cache hashOracle (e :: rest)).2.2 =
        (scanLoop cache hashOracle rest).2.2 ∨
      (scanLoop cache hashOracle (e :: rest)).2.2 =
        e.name :: (scanLoop cache hashOracle rest).2.2 := by
  cases cache with
  | none =>
    right
    simp [scanLoop, h1, h2]
  | some c =>
    cases hv : c.lookup ⟨e.inode, e.size, fileTimeFromTimespec e.mtimeSec e.mtimeNsec⟩ with
    | none =>
      right
      rw [scanLoop_cons_miss h1 h2 hv]
    | some cached =>
      left
      rw [scanLoop_cons_hit h1 h2 hv]

/-- Every scanned entry stems from a regular, non-sidecar directory entry
and carries its leaf name. -/
theorem scanLoop_fst_char (cache : Option (List (HashReuseKey × FileEntry)))
    (hashOracle : List Nat → Hash128) :
    ∀ (listing : List ScanEntry) (f : FileEntry),
      f ∈ (scanLoop cache hashOracle listing).1 →
      ∃ e ∈ listing, e.isRegular = true ∧ e.name ≠ dirdbNameBytes ∧ f.path = e.name := by
  intro listing
  induction listing with
  | nil =>
    intro f hf
    simp [scanLoop] at hf
  | cons e rest ih =>
    intro f hf
    by_cases h1 : e.name = dirdbNameBytes
    · rw [scanLoop_cons_skip_name h1] at hf
      obtain ⟨e', he', hr⟩ := ih f hf
      exact ⟨e', by simp [he'], hr⟩
    · cases hreg : e.isRegular with
      | false =>
        rw [scanLoop_cons_skip_type h1 hreg] at hf
        obtain ⟨e', he', hr⟩ := ih f hf
        exact ⟨e', by simp [he'], hr⟩
      | true =>
        obtain ⟨hsh, hshape⟩ := @scanLoop_cons_active_shape cache hashOracle _ rest h1 hreg
        rw [hshape] at hf
        rcases List.mem_cons.mp hf with heq | hft
        · exact ⟨e, by simp, hreg, h1, by rw [heq]⟩
        · obtain ⟨e', he', hr⟩ := ih f hft
          exact ⟨e', by simp [he'], hr⟩

theorem scanLoop_names_sublist (cache : Option (List (HashReuseKey × FileEntry)))
    (hashOracle : List Nat → Hash128) :
    ∀ listing : List ScanEntry,
      List.Sublist ((scanLoop cache hashOracle listing).1.map (fun f => f.path))
        (listing.map (fun e => e.name)) := by
  intro listing
  induction listing with
  | nil => simp [scanLoop]
  | cons e rest ih =>
    by_cases h1 : e.name = dirdbNameBytes
    · rw [scanLoop_cons_skip_name h1]
      exact ih.cons e.name
    · cases hreg : e.isRegular with
      | false =>
        rw [scanLoop_cons_skip_type h1 hreg]
        exact ih.cons e.name
      | true =>
        obtain ⟨hsh, hshape⟩ := @scanLoop_cons_active_shape cache hashOracle _ rest h1 hreg
        rw [hshape]
        simp only [List.map_cons]
        exact ih.cons₂ e.name

theorem scanLoop_hashedNames_sublist (cache : Option (List (HashReuseKey × FileEntry)))
    (hashOracle : List Nat → Hash128) :
    ∀ listing : List ScanEntry,
      List.Sublist ((scanLoop cache hashOracle listing).2.2)
        (listing.map (fun e => e.name)) := by
  intro listing
  induction listing with
  | nil => simp [scanLoop]
  | cons e rest ih =>
    by_cases h1 : e.name = dirdbNameBytes
    · rw [scanLoop_cons_skip_name h1]
      exact ih.cons e.name
    · cases hreg : e.isRegular with
      | false =>
        rw [scanLoop_cons_skip_type h1 hreg]
        exact ih.cons e.name
      | true =>
        rcases @scanLoop_hashed_shape cache hashOracle _ rest h1 hreg with hsame | hcons
        · rw [hsame]
          exact ih.cons e.name
        · rw [hcons]
          exact ih.cons₂ e.name

/-! ## Theorems: the filesystem map and replaceWithHardlink -/

theorem fsLookup_erase (fs : FS) (p q : String) :
    fsLookup (fsErase fs p) q = if q = p then none else fsLookup fs q := by
  induction fs with
  | nil => simp [fsErase, fsLookup, List.lookup]
  | cons a t ih =>
    obtain ⟨a1, a2⟩ := a
    by_cases hap : a1 = p
    · have h1 : fsErase ((a1, a2) :: t) p = fsErase t p := by
        simp [fsErase, List.filter_cons, hap]
      rw [h1, ih]
      by_cases hqp : q = p
      · simp [hqp]
      · rw [if_neg hqp, if_neg hqp]
        have hqa : (q == a1) = false := by
          simp
          rw [hap]
          exact hqp
        simp [fsLookup, List.lookup, hqa]
    · have h1 : fsErase ((a1, a2) :: t) p = (a1, a2) :: fsErase t p := by
        simp [fsErase, List.filter_cons, hap]
      rw [h1]
      by_cases hqa : q = a1
      · have hqp : ¬ q = p := fun h => hap (by rw [← hqa, h])
        rw [if_neg hqp]
        simp [fsLookup, List.lookup, hqa]
      · have hqa2 : (q == a1) = false := by simp [hqa]
        simp only [fsLookup, List.lookup, hqa2]
        simp only [fsLookup] at ih
        rw [ih]

theorem fsLookup_insert (fs : FS) (p : String) (i : Nat) (q : String) :
    fsLookup (fsInsert fs p i) q = if q = p then some i else fsLookup fs q := by
  simp only [fsInsert, fsLookup, List.lookup]
  by_cases hqp : q = p
  · simp [hqp]
  · simp only [show (q == p) = false by simp [hqp]]
    have h2 := fsLookup_erase fs p q
    simp only [fsLookup] at h2
    rw [h2, if_neg hqp, if_neg hqp]

theorem tempName_ne_target (target : String) (i : Nat) : tempName target i ≠ target := by
  intro h
  have hl := congrArg String.length h
  simp only [tempName, String.length_append] at hl
  have h16 : (".treeop_link_tmp" : String).length = 16 := rfl
  rw [h16] at hl
  omega

theorem lookup_after_replace (base : FS) (temp target : String) (ino : Nat) (q : String) :
    fsLookup (fsInsert (fsErase base temp) target ino) q =
      if q = target then some ino else if q = temp then none else fsLookup base q := by
  rw [fsLookup_insert]
  by_cases h1 : q = target
  · simp [h1]
  · rw [if_neg h1, if_neg h1, fsLookup_erase]

/-! ## Theorems: hardlink-copies -/

theorem bytesLt_irrefl : ∀ (l : List Nat), bytesLt l l = false
  | [] => rfl
  | a :: as => by
    simp only [bytesLt]
    rw [if_neg (by omega), if_neg (by omega)]
    exact bytesLt_irrefl as

theorem olderLtb_irrefl (a : FileEntry) : olderLtb a a = false := by
  simp [olderLtb, bytesLt_irrefl]

theorem olderLtb_trans {a b c : FileEntry} (h1 : olderLtb a b = true)
    (h2 : olderLtb b c = true) : olderLtb a c = true := by
  simp only [olderLtb] at *
  by_cases hab : a.date = b.date
  · by_cases hbc : b.date = c.date
    · rw [if_neg (by omega)] at h1 h2 ⊢
      exact bytesLt_trans _ _ _ h1 h2
    · rw [if_pos (by omega)] at h2
      simp at h2
      rw [if_pos (by omega)]
      simp
      omega
  · rw [if_pos (by omega)] at h1
    simp at h1
    by_cases hbc : b.date = c.date
    · rw [if_pos (by omega)]
      simp
      omega
    · rw [if_pos (by omega)] at h2
      simp at h2
      rw [if_pos (by omega)]
      simp
      omega

theorem olderLtb_le_lt_trans {a b c : FileEntry} (h1 : olderLtb b a = false)
    (h2 : olderLtb b c = true) : olderLtb a c = true := by
  simp only [olderLtb] at *
  by_cases hba : b.date = a.date
  · rw [if_neg (by omega)] at h1
    by_cases hbc : b.date = c.date
    · rw [if_neg (by omega)] at h2
      rw [if_neg (by omega)]
      cases hv : bytesLt a.path b.path
      · have heq : a.path = b.path := bytesLt_connex _ _ hv h1
        rw [heq]
        exact h2
      · exact bytesLt_trans _ _ _ hv h2
    · rw [if_pos (by omega)] at h2
      simp at h2
      rw [if_pos (by omega)]
      simp
      omega
  · rw [if_pos (by omega)] at h1
    simp at h1
    by_cases hbc : b.date = c.date
    · rw [if_pos (by omega)]
      simp
      omega
    · rw [if_pos (by omega)] at h2
      simp at h2
      rw [if_pos (by omega)]
      simp
      omega

theorem oldestFold_cons (x y : FileEntry) (t : List FileEntry) :
    oldestFold x (y :: t) = oldestFold (if olderLtb y x then y else x) t := rfl

theorem oldestFold_mem (x : FileEntry) (t : List FileEntry) :
    oldestFold x t ∈ x :: t := by
  induction t generalizing x with
  | nil => simp [oldestFold]
  | cons y t2 ih =>
    rw [oldestFold_cons]
    by_cases hc : olderLtb y x = true
    · have hb : (if olderLtb y x then y else x) = y := by simp [hc]
      rw [hb]
      rcases List.mem_cons.mp (ih y) with h | h
      · simp [h]
      · simp [List.mem_cons.mpr (Or.inr h)]
    · have hb : (if olderLtb y x then y else x) = x := by simp [hc]
      rw [hb]
      rcases List.mem_cons.mp (ih x) with h | h
      · simp [h]
      · simp [List.mem_cons.mpr (Or.inr h)]

theorem oldestFold_min (x : FileEntry) (t : List FileEntry) :
    ∀ f ∈ x :: t, olderLtb f (oldestFold x t) = false := by
  induction t generalizing x with
  | nil =>
    intro f hf
    simp at hf
    subst hf
    exact olderLtb_irrefl f
  | cons y t2 ih =>
    intro f hf
    rw [oldestFold_cons]
    by_cases hc : olderLtb y x = true
    · have hb : (if olderLtb y x then y else x) = y := by simp [hc]
      rw [hb]
      rcases List.mem_cons.mp hf with heq | hf2
      · cases hxo : olderLtb f (oldestFold y t2) with
        | false => rfl
        | true =>
          have hc2 : olderLtb y f = true := by
            rw [heq]
            exact hc
          have h1 : olderLtb y (oldestFold y t2) = true := olderLtb_trans hc2 hxo
          have h2 := ih y y (by simp)
          rw [h1] at h2
          cases h2
      · exact ih y f hf2
    · have hb : (if olderLtb y x then y else x) = x := by simp [hc]
      rw [hb]
      have hcf : olderLtb y x = false := by
        cases hv : olderLtb y x
        · rfl
        · exact absurd hv hc
      rcases List.mem_cons.mp hf with heq | hf2
      · rw [heq]
        exact ih x x (by simp)
      · rcases List.mem_cons.mp hf2 with heq2 | hf3
        · cases hyo : olderLtb f (oldestFold x t2) with
          | false => rfl
          | true =>
            have hcf2 : olderLtb f x = false := by
              rw [heq2]
              exact hcf
            have h1 : olderLtb x (oldestFold x t2) = true :=
              olderLtb_le_lt_trans hcf2 hyo
            have h2 := ih x x (by simp)
            rw [h1] at h2
            cases h2
        · exact ih x f (by simp [hf3])

/-- Full characterization of the per-group inner loop: the performed (or
announced) replacements are exactly the planned ones that succeed, failures
become warnings, and the statistics count the successes. -/
theorem groupLoop_char (oldest : FileEntry) (dryRun : Bool)
    (replaceOk : List Nat → List Nat → Bool) (refs : List FileEntry) :
    groupLoop oldest dryRun replaceOk refs =
      ⟨⟨((refs.filter fun ref => (decide (ref.path ≠ oldest.path) &&
            decide (ref.inode ≠ oldest.inode)) &&
            (dryRun || replaceOk oldest.path ref.path)).length),
        ((refs.filter fun ref => (decide (ref.path ≠ oldest.path) &&
            decide (ref.inode ≠ oldest.inode)) &&
            (dryRun || replaceOk oldest.path ref.path)).length),
        (((refs.filter fun ref => (decide (ref.path ≠ oldest.path) &&
            decide (ref.inode ≠ oldest.inode)) &&
            (dryRun || replaceOk oldest.path ref.path)).map
          (fun ref => ref.size)).sum)⟩,
        ((refs.filter fun ref => (decide (ref.path ≠ oldest.path) &&
            decide (ref.inode ≠ oldest.inode)) &&
            (dryRun || replaceOk oldest.path ref.path)).map
          (fun ref => (oldest.path, ref.path))),
        ((refs.filter fun ref => (decide (ref.path ≠ oldest.path) &&
            decide (ref.inode ≠ oldest.inode)) &&
            !(dryRun || replaceOk oldest.path ref.path)).map
          (fun ref => ref.path))⟩ := by
  induction refs with
  | nil => rfl
  | cons ref rest ih =>
    simp only [groupLoop, ih]
    by_cases hp : ref.path = oldest.path
    · simp [hp, List.filter_cons]
    · by_cases hi : ref.inode = oldest.inode
      · simp [hp, hi, List.filter_cons]
      · cases hd : dryRun with
        | true =>
          simp [hp, hi, hd, List.filter_cons] <;> omega
        | false =>
          cases hok : replaceOk oldest.path ref.path with
          | true => simp [hp, hi, hd, hok, List.filter_cons] <;> omega
          | false => simp [hp, hi, hd, hok, List.filter_cons] <;> omega

theorem olderLtb_false_elim {a b : FileEntry} (h : olderLtb a b = false) :
    b.date < a.date ∨ (b.date = a.date ∧
      (a.path = b.path ∨ bytesLt b.path a.path = true)) := by
  simp only [olderLtb] at h
  by_cases hd : a.date = b.date
  · rw [if_neg (by omega)] at h
    right
    refine ⟨hd.symm, ?_⟩
    cases hv : bytesLt b.path a.path
    · left
      exact bytesLt_connex a.path b.path h hv
    · right
      rfl
  · rw [if_pos hd] at h
    simp at h
    left
    omega

theorem insertGroup_forall (P : FileEntry → Prop) (k : ContentKey)
    (f0 : FileEntry) (hP : P f0) :
    ∀ (m : List (ContentKey × List FileEntry)),
      (∀ kg ∈ m, ∀ f ∈ kg.2, P f) →
      ∀ kg ∈ insertGroup k f0 m, ∀ f ∈ kg.2, P f := by
  intro m
  induction m with
  | nil =>
    intro _ kg hkg f hf
    simp only [insertGroup, List.mem_singleton] at hkg
    rw [hkg] at hf
    simp only [List.mem_singleton] at hf
    rw [hf]
    exact hP
  | cons kg2 rest ih =>
    obtain ⟨k2, g⟩ := kg2
    intro hm kg hkg f hf
    have hrest : ∀ kg ∈ rest, ∀ f ∈ kg.2, P f :=
      fun a ha => hm a (List.mem_cons_of_mem _ ha)
    have hhead : ∀ f ∈ g, P f := hm (k2, g) (List.mem_cons_self _ _)
    simp only [insertGroup] at hkg
    by_cases h1 : ContentKey.ltb k k2 = true
    · rw [if_pos h1] at hkg
      rcases List.mem_cons.mp hkg with heq | h2
      · rw [heq] at hf
        simp only [List.mem_singleton] at hf
        rw [hf]
        exact hP
      · rcases List.mem_cons.mp h2 with heq | h3
        · rw [heq] at hf
          exact hhead f hf
        · exact hrest kg h3 f hf
    · rw [if_neg h1] at hkg
      by_cases h2 : ContentKey.ltb k2 k = true
      · rw [if_pos h2] at hkg
        rcases List.mem_cons.mp hkg with heq | h3
        · rw [heq] at hf
          exact hhead f hf
        · exact ih hrest kg h3 f hf
      · rw [if_neg h2] at hkg
        rcases List.mem_cons.mp hkg with heq | h3
        · rw [heq] at hf
          rcases List.mem_append.mp hf with hg | hf0
          · exact hhead f hg
          · simp only [List.mem_singleton] at hf0
            rw [hf0]
            exact hP
        · exact hrest kg h3 f hf

theorem collectContent_aux (sameFilename : Bool)
    (nameHash : Hash128 → List Nat → Hash128)
    (filenameOf : List Nat → List Nat) (minSize : Nat) :
    ∀ (refs : List FileEntry) (m : List (ContentKey × List FileEntry)),
      (∀ kg ∈ m, ∀ f ∈ kg.2, minSize ≤ f.size) →
      ∀ kg ∈ refs.foldl
          (fun m f =>
            if f.size < minSize then m
            else insertGroup (contentKeyOf sameFilename nameHash filenameOf f) f m)
          m,
        ∀ f ∈ kg.2, minSize ≤ f.size := by
  intro refs
  induction refs with
  | nil =>
    intro m hm
    exact hm
  | cons r rest ih =>
    intro m hm
    simp only [List.foldl_cons]
    by_cases hr : r.size < minSize
    · rw [if_pos hr]
      exact ih m hm
    · rw [if_neg hr]
      exact ih _ (insertGroup_forall _ _ _ (by omega) m hm)

theorem collectContent_sizes (sameFilename : Bool)
    (nameHash : Hash128 → List Nat → Hash128)
    (filenameOf : List Nat → List Nat) (dirs : List DirData) (minSize : Nat) :
    ∀ kg ∈ collectContent sameFilename nameHash filenameOf dirs minSize,
      ∀ f ∈ kg.2, minSize ≤ f.size := by
  unfold collectContent
  exact collectContent_aux sameFilename nameHash filenameOf minSize
    (fullRefsOf dirs) [] (fun kg hkg => absurd hkg (List.not_mem_nil _))

theorem outcomeOfPlan_append (dryRun : Bool)
    (replaceOk : List Nat → List Nat → Bool)
    (l1 l2 : List (FileEntry × FileEntry)) :
    outcomeOfPlan dryRun replaceOk (l1 ++ l2) =
      mergeHardlink (outcomeOfPlan dryRun replaceOk l1)
        (outcomeOfPlan dryRun replaceOk l2) := by
  simp [outcomeOfPlan, mergeHardlink, List.filter_append, List.sum_append]

theorem processGroup_char (maxHardlinks : Nat) (dryRun : Bool)
    (fsLinkCount : List Nat → Option Nat)
    (replaceOk : List Nat → List Nat → Bool) (g : List FileEntry) :
    processGroup maxHardlinks dryRun fsLinkCount replaceOk g =
      outcomeOfPlan dryRun replaceOk
        (groupPlanned maxHardlinks dryRun fsLinkCount g) := by
  cases g with
  | nil => rfl
  | cons h t =>
    simp only [processGroup, groupPlanned]
    by_cases hlen : (h :: t).length < 2
    · rw [if_pos hlen, if_pos hlen]
      rfl
    · rw [if_neg hlen, if_neg hlen]
      by_cases hmax : maxHardlinks ≤
          (if dryRun then (oldestFold h t).numLinks
            else
              match fsLinkCount (oldestFold h t).path with
              | some n => n
              | none => (oldestFold h t).numLinks)
      · rw [if_pos hmax, if_pos hmax]
        rfl
      · rw [if_neg hmax, if_neg hmax, groupLoop_char]
        simp [outcomeOfPlan, List.filter_map, List.filter_filter, List.map_map,
          Function.comp_def, Bool.and_comm, Bool.and_left_comm, Bool.and_assoc]

theorem hardlinkCopies_char (sameFilename : Bool)
    (nameHash : Hash128 → List Nat → Hash128)
    (filenameOf : List Nat → List Nat) (dirs : List DirData)
    (minSize maxHardlinks : Nat) (dryRun : Bool)
    (fsLinkCount : List Nat → Option Nat)
    (replaceOk : List Nat → List Nat → Bool) :
    hardlinkCopies sameFilename nameHash filenameOf dirs minSize maxHardlinks
        dryRun fsLinkCount replaceOk =
      outcomeOfPlan dryRun replaceOk
        (hardlinkPlanned sameFilename nameHash filenameOf dirs minSize
          maxHardlinks dryRun fsLinkCount) := by
  unfold hardlinkCopies hardlinkPlanned
  generalize collectContent sameFilename nameHash filenameOf dirs minSize = gs
  induction gs with
  | nil => rfl
  | cons kg rest ih =>
    rw [List.foldr_cons, List.flatMap_cons, outcomeOfPlan_append,
      processGroup_char, ih]

/-! ## Theorems: remove-copies -/

theorem removeRefs_append (dryRun verbose : Bool) (removeOk : List Nat → Bool)
    (l1 l2 : List FileEntry) :
    removeRefs dryRun verbose removeOk (l1 ++ l2) =
      mergeOutcome (removeRefs dryRun verbose removeOk l1)
        (removeRefs dryRun verbose removeOk l2) := by
  induction l1 with
  | nil => simp [removeRefs, mergeOutcome]
  | cons x rest ih =>
    cases dryRun with
    | true =>
      simp only [List.cons_append, removeRefs, ih, if_true]
      cases herr : (removeRefs true verbose removeOk rest).error with
      | none => simp [mergeOutcome, herr, ih, Nat.add_assoc] <;> omega
      | some e => simp [mergeOutcome, herr, ih]
    | false =>
      by_cases hok : removeOk x.path = true
      · simp only [List.cons_append, removeRefs, hok, if_true, Bool.false_eq_true,
          if_false, ih]
        cases herr : (removeRefs false verbose removeOk rest).error with
        | none =>
          cases verbose with
          | true => simp [mergeOutcome, herr, ih, Nat.add_assoc] <;> omega
          | false => simp [mergeOutcome, herr, ih, Nat.add_assoc] <;> omega
        | some e =>
          cases verbose with
          | true => simp [mergeOutcome, herr, ih]
          | false => simp [mergeOutcome, herr, ih]
      · simp only [List.cons_append, removeRefs, hok, Bool.false_eq_true, if_false]
        simp [mergeOutcome]

theorem removeRefs_dry (verbose : Bool) (removeOk : List Nat → Bool)
    (l : List FileEntry) :
    removeRefs true verbose removeOk l =
      ⟨l.length, (l.map fun f => f.size).sum, l.map fun f => f.path, [], none⟩ := by
  induction l with
  | nil => simp [removeRefs]
  | cons x rest ih => simp [removeRefs, ih, Nat.add_comm]

theorem removeRefs_all_ok (verbose : Bool) (removeOk : List Nat → Bool)
    (l : List FileEntry) (h : ∀ f ∈ l, removeOk f.path = true) :
    removeRefs false verbose removeOk l =
      ⟨l.length, (l.map fun f => f.size).sum,
        (if verbose then l.map fun f => f.path else []),
        l.map fun f => f.path, none⟩ := by
  induction l with
  | nil => simp [removeRefs]
  | cons x rest ih =>
    have hx : removeOk x.path = true := h x (List.mem_cons_self _ _)
    have hrest := ih fun f hf => h f (List.mem_cons_of_mem _ hf)
    cases verbose with
    | true => simp [removeRefs, hx, hrest, Nat.add_comm]
    | false => simp [removeRefs, hx, hrest, Nat.add_comm]

theorem removeRefs_performed (verbose : Bool) (removeOk : List Nat → Bool)
    (l : List FileEntry) :
    (removeRefs false verbose removeOk l).performed =
      (l.takeWhile fun f => removeOk f.path).map fun f => f.path := by
  induction l with
  | nil => simp [removeRefs]
  | cons x rest ih =>
    by_cases hok : removeOk x.path = true
    · simp [removeRefs, hok, List.takeWhile_cons, ih]
    · simp [removeRefs, hok, List.takeWhile_cons]

theorem removeRefs_error (verbose : Bool) (removeOk : List Nat → Bool)
    (l : List FileEntry) :
    (removeRefs false verbose removeOk l).error =
      (if l.all fun f => removeOk f.path then none else some "Failed to remove") := by
  induction l with
  | nil => simp [removeRefs]
  | cons x rest ih =>
    by_cases hok : removeOk x.path = true
    · simp [removeRefs, hok, List.all_cons, ih]
    · simp [removeRefs, hok, List.all_cons]

theorem removableB_claim (m : List (ContentKey × Nat)) (k : ContentKey) (i : Nat)
    (h : m.lookup k = none) (k2 : ContentKey) :
    removableB ((k, i) :: m) i k2 = removableB m i k2 := by
  by_cases hk : k2 = k
  · subst hk
    simp [removableB, List.lookup, h]
  · have hne : (k2 == k) = false := by
      simp [hk]
    simp [removableB, List.lookup, hne]

theorem remListB_claim (m : List (ContentKey × Nat)) (k : ContentKey) (i : Nat)
    (rest : List (ContentKey × List FileEntry)) (h : m.lookup k = none) :
    remListB ((k, i) :: m) i rest = remListB m i rest := by
  simp only [remListB]
  congr 1
  funext p
  rw [removableB_claim m k i h p.1]

theorem remListB_congr (m : List (ContentKey × Nat)) (i : Nat)
    (c : ContentKey → Bool) (hco : ∀ k, removableB m i k = c k)
    (entries : List (ContentKey × List FileEntry)) :
    remListB m i entries =
      entries.flatMap fun p => if !p.2.isEmpty && c p.1 then p.2 else [] := by
  simp only [remListB]
  congr 1
  funext p
  rw [hco p.1]

theorem removeRootLoop_char (dryRun verbose : Bool) (removeOk : List Nat → Bool)
    (i : Nat) (entries : List (ContentKey × List FileEntry)) :
    ∀ m, removeRootLoop dryRun verbose removeOk i m entries =
      (removeRefs dryRun verbose removeOk (remListB m i entries),
        claimRoot i m entries) := by
  induction entries with
  | nil =>
    intro m
    simp [removeRootLoop, remListB, claimRoot, removeRefs]
  | cons p rest ih =>
    obtain ⟨k, refs⟩ := p
    intro m
    simp only [removeRootLoop]
    by_cases he : refs.isEmpty = true
    · rw [if_pos he, ih m]
      rw [List.isEmpty_iff] at he
      subst he
      simp [remListB, claimRoot]
    · rw [if_neg he]
      cases hlk : m.lookup k with
      | none =>
        rw [ih ((k, i) :: m), remListB_claim m k i rest hlk]
        simp [remListB, claimRoot, he, hlk, removableB]
      | some j =>
        dsimp only
        have hrne : refs ≠ [] := by
          simpa [List.isEmpty_iff] using he
        by_cases hj : j < i
        · rw [if_pos hj, ih m, ← removeRefs_append]
          simp [remListB, claimRoot, he, hlk, removableB, hj, hrne]
        · rw [if_neg hj, ih m]
          simp [remListB, claimRoot, he, hlk, removableB, hj, hrne]

theorem removableB_eq_isSome (m : List (ContentKey × Nat)) (i : Nat)
    (k : ContentKey) (h : ∀ j, m.lookup k = some j → j < i) :
    removableB m i k = (m.lookup k).isSome := by
  cases hlk : m.lookup k with
  | none => simp [removableB, hlk]
  | some j => simp [removableB, hlk, h j hlk]

theorem lookup_cons_eq {β : Type} (k : ContentKey) (b : β)
    (m : List (ContentKey × β)) :
    List.lookup k ((k, b) :: m) = some b := by
  simp [List.lookup]

theorem lookup_cons_ne {β : Type} (k k2 : ContentKey) (b : β)
    (m : List (ContentKey × β)) (h : k ≠ k2) :
    List.lookup k ((k2, b) :: m) = List.lookup k m := by
  have hb : (k == k2) = false := beq_eq_false_iff_ne.mpr h
  simp [List.lookup, hb]

theorem claimRoot_le (i : Nat) (root : List (ContentKey × List FileEntry)) :
    ∀ m, (∀ k j, m.lookup k = some j → j ≤ i) →
      ∀ k j, (claimRoot i m root).lookup k = some j → j ≤ i := by
  induction root with
  | nil =>
    intro m hm k j hk
    exact hm k j hk
  | cons p rest ih =>
    obtain ⟨k2, refs⟩ := p
    intro m hm k j hk
    simp only [claimRoot] at hk
    by_cases he : refs.isEmpty = true
    · rw [if_pos he] at hk
      exact ih m hm k j hk
    · rw [if_neg he] at hk
      cases hlk : m.lookup k2 with
      | none =>
        rw [hlk] at hk
        refine ih ((k2, i) :: m) ?_ k j hk
        intro k3 j3 hk3
        by_cases hkk : k3 = k2
        · subst hkk
          rw [lookup_cons_eq] at hk3
          simp at hk3
          omega
        · rw [lookup_cons_ne k3 k2 i m hkk] at hk3
          exact hm k3 j3 hk3
      | some j2 =>
        rw [hlk] at hk
        exact ih m hm k j hk

theorem lookup_claimRoot_isSome (i : Nat)
    (root : List (ContentKey × List FileEntry)) :
    ∀ m (k : ContentKey), ((claimRoot i m root).lookup k).isSome =
      ((m.lookup k).isSome || rootHasKey root k) := by
  induction root with
  | nil =>
    intro m k
    simp [claimRoot, rootHasKey]
  | cons p rest ih =>
    obtain ⟨k2, refs⟩ := p
    intro m k
    simp only [claimRoot]
    have hroot : rootHasKey ((k2, refs) :: rest) k =
        ((k2 == k && !refs.isEmpty) || rootHasKey rest k) := by
      simp [rootHasKey]
    by_cases he : refs.isEmpty = true
    · rw [if_pos he, ih m k, hroot, he]
      simp
    · rw [if_neg he]
      have hne : refs.isEmpty = false := by
        cases hv : refs.isEmpty
        · rfl
        · exact absurd hv he
      cases hlk : m.lookup k2 with
      | none =>
        rw [ih ((k2, i) :: m) k, hroot, hne]
        by_cases hkk : k = k2
        · subst hkk
          rw [lookup_cons_eq, hlk]
          simp
        · have hb2 : (k2 == k) = false :=
            beq_eq_false_iff_ne.mpr (fun hx => hkk hx.symm)
          rw [lookup_cons_ne k k2 i m hkk, hb2]
          simp
      | some j2 =>
        rw [ih m k, hroot, hne]
        by_cases hkk : k = k2
        · subst hkk
          rw [hlk]
          simp
        · have hb2 : (k2 == k) = false :=
            beq_eq_false_iff_ne.mpr (fun hx => hkk hx.symm)
          rw [hb2]
          simp

theorem removeRootsLoop_char (dryRun verbose : Bool) (removeOk : List Nat → Bool) :
    ∀ (roots : List (List (ContentKey × List FileEntry))) (i : Nat)
      (m : List (ContentKey × Nat))
      (prev : List (List (ContentKey × List FileEntry))),
      (∀ k j, m.lookup k = some j → j < i) →
      (∀ k, removableB m i k = prev.any fun r => rootHasKey r k) →
      removeRootsLoop dryRun verbose removeOk i m roots =
        removeRefs dryRun verbose removeOk (specRemAux prev roots) := by
  intro roots
  induction roots with
  | nil =>
    intro i m prev _ _
    simp [removeRootsLoop, specRemAux, removeRefs]
  | cons root rest ih =>
    intro i m prev hwf hco
    simp only [removeRootsLoop, removeRootLoop_char, specRemAux]
    rw [removeRefs_append]
    have h1 : remListB m i root =
        root.flatMap fun p =>
          if !p.2.isEmpty && prev.any (fun r => rootHasKey r p.1) then p.2
          else [] :=
      remListB_congr m i _ hco root
    have h2 : removeRootsLoop dryRun verbose removeOk (i + 1)
        (claimRoot i m root) rest =
        removeRefs dryRun verbose removeOk (specRemAux (prev ++ [root]) rest) := by
      have hwf2 : ∀ k j, (claimRoot i m root).lookup k = some j → j < i + 1 :=
        fun k j h => Nat.lt_succ_of_le
          (claimRoot_le i root m (fun k3 j3 h3 => Nat.le_of_lt (hwf k3 j3 h3)) k j h)
      refine ih (i + 1) (claimRoot i m root) (prev ++ [root]) hwf2 ?_
      intro k
      rw [removableB_eq_isSome _ _ _ (hwf2 k),
        lookup_claimRoot_isSome i root m k,
        ← removableB_eq_isSome m i k (hwf k), hco k, List.any_append]
      simp
    rw [h1, h2]

theorem removeCopyFiles_eq (rootFiles : List (List (ContentKey × List FileEntry)))
    (dryRun verbose : Bool) (removeOk : List Nat → Bool) :
    removeCopyFiles rootFiles dryRun verbose removeOk =
      removeRefs dryRun verbose removeOk (specRemovals rootFiles) := by
  unfold removeCopyFiles specRemovals
  exact removeRootsLoop_char dryRun verbose removeOk rootFiles 0 [] []
    (fun k j hk => by simp [List.lookup] at hk)
    (fun k => by simp [removableB, List.lookup])

theorem specRemAux_mem (f : FileEntry) :
    ∀ (roots : List (List (ContentKey × List FileEntry))) prev,
      f ∈ specRemAux prev roots →
      ∃ idx root p, roots.get? idx = some root ∧ p ∈ root ∧ f ∈ p.2 ∧
        ((prev ++ roots.take idx).any fun r => rootHasKey r p.1) = true := by
  intro roots
  induction roots with
  | nil =>
    intro prev h
    simp [specRemAux] at h
  | cons root0 rest ih =>
    intro prev h
    simp only [specRemAux] at h
    rcases List.mem_append.mp h with h0 | h1
    · rcases List.mem_flatMap.mp h0 with ⟨p, hp, hf⟩
      by_cases hc : (!p.2.isEmpty && prev.any fun r => rootHasKey r p.1) = true
      · rw [if_pos hc] at hf
        refine ⟨0, root0, p, rfl, hp, hf, ?_⟩
        simp only [List.take_zero, List.append_nil]
        simp only [Bool.and_eq_true] at hc
        exact hc.2
      · rw [if_neg hc] at hf
        cases hf
    · rcases ih (prev ++ [root0]) h1 with ⟨idx, root, p, hget, hp, hf, hany⟩
      refine ⟨idx + 1, root, p, hget, hp, hf, ?_⟩
      rw [List.take_succ_cons,
        show prev ++ root0 :: rest.take idx = (prev ++ [root0]) ++ rest.take idx
          by simp]
      exact hany

theorem specRemAux_complete (f : FileEntry) :
    ∀ (roots : List (List (ContentKey × List FileEntry))) prev idx root p,
      roots.get? idx = some root → p ∈ root → f ∈ p.2 →
      ((prev ++ roots.take idx).any fun r => rootHasKey r p.1) = true →
      f ∈ specRemAux prev roots := by
  intro roots
  induction roots with
  | nil =>
    intro prev idx root p hget
    cases idx <;> cases hget
  | cons root0 rest ih =>
    intro prev idx root p hget hp hf hany
    simp only [specRemAux]
    cases idx with
    | zero =>
      have hroot : root = root0 := by
        simp at hget
        exact hget.symm
      subst hroot
      refine List.mem_append.mpr (Or.inl ?_)
      refine List.mem_flatMap.mpr ⟨p, hp, ?_⟩
      have hc : (!p.2.isEmpty && prev.any fun r => rootHasKey r p.1) = true := by
        have hne : p.2.isEmpty = false := by
          cases hv : p.2 with
          | nil =>
            rw [hv] at hf
            cases hf
          | cons y ys => simp [hv]
        rw [hne]
        simp only [List.take_zero, List.append_nil] at hany
        simp [hany]
      rw [if_pos hc]
      exact hf
    | succ idx2 =>
      refine List.mem_append.mpr (Or.inr ?_)
      refine ih (prev ++ [root0]) idx2 root p hget hp hf ?_
      rw [List.take_succ_cons,
        show prev ++ root0 :: rest.take idx2 = (prev ++ [root0]) ++ rest.take idx2
          by simp] at hany
      exact hany

theorem nodup_flatMap_eq {α β : Type} [DecidableEq β] (g : α → List β) :
    ∀ (l : List α), (l.flatMap g).Nodup →
      ∀ x ∈ l, ∀ y ∈ l, ∀ b, b ∈ g x → b ∈ g y → x = y := by
  intro l
  induction l with
  | nil =>
    intro _ x hx
    exact absurd hx (List.not_mem_nil x)
  | cons z t ih =>
    intro hnd x hx y hy b hbx hby
    rw [List.flatMap_cons] at hnd
    have hnd2 := List.nodup_append.mp hnd
    rcases List.mem_cons.mp hx with hxz | hxt
    · rcases List.mem_cons.mp hy with hyz | hyt
      · rw [hxz, hyz]
      · exfalso
        have hb1 : b ∈ g z := by
          rw [← hxz]
          exact hbx
        have hb2 : b ∈ t.flatMap g := List.mem_flatMap.mpr ⟨y, hyt, hby⟩
        exact hnd2.2.2 hb1 hb2
    · rcases List.mem_cons.mp hy with hyz | hyt
      · exfalso
        have hb1 : b ∈ g z := by
          rw [← hyz]
          exact hby
        have hb2 : b ∈ t.flatMap g := List.mem_flatMap.mpr ⟨x, hxt, hbx⟩
        exact hnd2.2.2 hb1 hb2
      · exact ih hnd2.2.1 x hxt y hyt b hbx hby

theorem specRemAux_first_root (f : FileEntry) :
    ∀ (roots : List (List (ContentKey × List FileEntry))) prev,
      (pathsOf roots).Nodup →
      f ∈ specRemAux prev roots →
      ∀ idx root p, roots.get? idx = some root → p ∈ root → f ∈ p.2 →
        ((prev ++ roots.take idx).any fun r => rootHasKey r p.1) = true := by
  intro roots
  induction roots with
  | nil =>
    intro prev _ hmem
    simp [specRemAux] at hmem
  | cons root0 rest ih =>
    intro prev hnd hmem idx root p hget hp hf
    have hndr := List.nodup_append.mp
      (show (rootPaths root0 ++ pathsOf rest).Nodup by
        simpa [pathsOf] using hnd)
    simp only [specRemAux] at hmem
    rcases List.mem_append.mp hmem with h0 | h1
    · rcases List.mem_flatMap.mp h0 with ⟨p0, hp0, hf0⟩
      by_cases hc : (!p0.2.isEmpty && prev.any fun r => rootHasKey r p0.1) = true
      · rw [if_pos hc] at hf0
        cases idx with
        | zero =>
          have hroot : root = root0 := by
            simp at hget
            exact hget.symm
          subst hroot
          have hpp : p = p0 := by
            refine nodup_flatMap_eq (fun q => q.2.map fun f2 => f2.path) root
              (by simpa [rootPaths] using hndr.1) p hp p0 hp0 f.path ?_ ?_
            · exact List.mem_map.mpr ⟨f, hf, rfl⟩
            · exact List.mem_map.mpr ⟨f, hf0, rfl⟩
          rw [hpp]
          simp only [List.take_zero, List.append_nil]
          simp only [Bool.and_eq_true] at hc
          exact hc.2
        | succ idx2 =>
          exfalso
          have hb1 : f.path ∈ rootPaths root0 :=
            List.mem_flatMap.mpr ⟨p0, hp0, List.mem_map.mpr ⟨f, hf0, rfl⟩⟩
          have hb2 : f.path ∈ pathsOf rest :=
            List.mem_flatMap.mpr ⟨root, List.get?_mem hget,
              List.mem_flatMap.mpr ⟨p, hp, List.mem_map.mpr ⟨f, hf, rfl⟩⟩⟩
          exact hndr.2.2 hb1 hb2
      · rw [if_neg hc] at hf0
        cases hf0
    · cases idx with
      | zero =>
        exfalso
        have hroot : root = root0 := by
          simp at hget
          exact hget.symm
        subst hroot
        have hb1 : f.path ∈ rootPaths root :=
          List.mem_flatMap.mpr ⟨p, hp, List.mem_map.mpr ⟨f, hf, rfl⟩⟩
        rcases specRemAux_mem f rest (prev ++ [root]) h1 with
          ⟨idx2, root2, p2, hget2, hp2, hf2, _⟩
        have hb2 : f.path ∈ pathsOf rest :=
          List.mem_flatMap.mpr ⟨root2, List.get?_mem hget2,
            List.mem_flatMap.mpr ⟨p2, hp2, List.mem_map.mpr ⟨f, hf2, rfl⟩⟩⟩
        exact hndr.2.2 hb1 hb2
      | succ idx2 =>
        have hres := ih (prev ++ [root0]) hndr.2.1 h1 idx2 root p hget hp hf
        rw [List.take_succ_cons,
          show prev ++ root0 :: rest.take idx2 = (prev ++ [root0]) ++ rest.take idx2
            by simp]
        exact hres

/-! ## Theorems: copy-extract -/

theorem copyRefs_append (dryRun : Bool) (relOf : List Nat → Option (List Nat))
    (copyOk : List Nat → Bool) (l1 l2 : List FileEntry) :
    copyRefs dryRun relOf copyOk (l1 ++ l2) =
      mergeCopy (copyRefs dryRun relOf copyOk l1)
        (copyRefs dryRun relOf copyOk l2) := by
  induction l1 with
  | nil => simp [copyRefs, mergeCopy]
  | cons x rest ih =>
    cases hrel : relOf x.path with
    | none => simp [copyRefs, hrel, mergeCopy]
    | some rp =>
      cases dryRun with
      | true =>
        simp only [List.cons_append, copyRefs, hrel]
        cases herr : (copyRefs true relOf copyOk rest).error with
        | none => simp [mergeCopy, herr, ih]
        | some e => simp [mergeCopy, herr, ih]
      | false =>
        by_cases hok : copyOk x.path = true
        · simp only [List.cons_append, copyRefs, hrel, hok, if_true,
            Bool.false_eq_true, if_false]
          cases herr : (copyRefs false relOf copyOk rest).error with
          | none => simp [mergeCopy, herr, ih]
          | some e => simp [mergeCopy, herr, ih]
        · simp only [List.cons_append, copyRefs, hrel, hok, Bool.false_eq_true,
            if_false]
          simp [mergeCopy]

theorem copyIntersectFiles_eq
    (filesSrc filesOther : List (ContentKey × List FileEntry))
    (dryRun : Bool) (relOf : List Nat → Option (List Nat))
    (copyOk : List Nat → Bool) :
    copyIntersectFiles false filesSrc filesOther dryRun relOf copyOk =
      copyRefs dryRun relOf copyOk (specCopies filesSrc filesOther) := by
  unfold copyIntersectFiles specCopies
  simp only [Bool.false_eq_true, if_false]
  induction filesSrc with
  | nil => rfl
  | cons p rest ih =>
    simp only [List.foldr_cons, List.flatMap_cons]
    by_cases hl : (filesOther.lookup p.1).isSome = true
    · rw [if_pos hl, ih]
      simp [hl]
    · rw [if_neg hl, ih, ← copyRefs_append]
      simp [hl]

theorem copyRefs_copied (relOf : List Nat → Option (List Nat))
    (copyOk : List Nat → Bool) (l : List FileEntry) :
    (copyRefs false relOf copyOk l).copied =
      (l.takeWhile fun f => (relOf f.path).isSome && copyOk f.path).map
        fun f => f.path := by
  induction l with
  | nil => simp [copyRefs]
  | cons x rest ih =>
    cases hrel : relOf x.path with
    | none => simp [copyRefs, hrel, List.takeWhile_cons]
    | some rp =>
      by_cases hok : copyOk x.path = true
      · simp [copyRefs, hrel, hok, List.takeWhile_cons, ih]
      · simp [copyRefs, hrel, hok, List.takeWhile_cons]

theorem copyRefs_error_none (relOf : List Nat → Option (List Nat))
    (copyOk : List Nat → Bool) (l : List FileEntry) :
    ((copyRefs false relOf copyOk l).error = none) ↔
      ∀ f ∈ l, (relOf f.path).isSome = true ∧ copyOk f.path = true := by
  induction l with
  | nil => simp [copyRefs]
  | cons x rest ih =>
    cases hrel : relOf x.path with
    | none => simp [copyRefs, hrel]
    | some rp =>
      by_cases hok : copyOk x.path = true
      · simp [copyRefs, hrel, hok, ih]
      · simp [copyRefs, hrel, hok]

/-! ## Theorems: the DirDB codec -/

theorem u64FromBytes_appendU64Le (v : Nat) :
    u64FromBytes (v &&& 255) (v >>> 8 &&& 255) (v >>> 16 &&& 255)
      (v >>> 24 &&& 255) (v >>> 32 &&& 255) (v >>> 40 &&& 255)
      (v >>> 48 &&& 255) (v >>> 56 &&& 255) = v % 2 ^ 64 := by
  have and255_lt : ∀ x : Nat, x &&& 255 < 256 := fun x => by
    rw [and255_eq_mod]
    exact Nat.mod_lt _ (by norm_num)
  have h := (u64FromBytes_eq_decodeLE (and255_lt v) (and255_lt (v >>> 8))
    (and255_lt (v >>> 16)) (and255_lt (v >>> 24)) (and255_lt (v >>> 32))
    (and255_lt (v >>> 40)) (and255_lt (v >>> 48)) (and255_lt (v >>> 56))).1
  rw [h]
  exact decodeLE_appendU64Le v

theorem readU64_at {data : Bytes} (pre post : Bytes) (v pos : Nat)
    (hdata : data = pre ++ (appendU64Le v ++ post)) (hpos : pos = pre.length) :
    readU64 data pos = Except.ok (v % 2 ^ 64) := by
  subst hdata
  subst hpos
  unfold readU64
  have hlen : pre.length + 8 ≤ (pre ++ (appendU64Le v ++ post)).length := by
    simp [appendU64Le]
  rw [if_pos hlen]
  have hget : ∀ i, i < 8 →
      (pre ++ (appendU64Le v ++ post)).getD (pre.length + i) 0 =
        (appendU64Le v).getD i 0 := by
    intro i hi
    rw [List.getD_append_right pre _ 0 _ (by omega)]
    have h2 : pre.length + i - pre.length = i := by omega
    rw [h2]
    exact List.getD_append _ _ 0 i (by simp [appendU64Le]; omega)
  have h0 := hget 0 (by norm_num)
  rw [Nat.add_zero] at h0
  rw [h0, hget 1 (by norm_num), hget 2 (by norm_num), hget 3 (by norm_num),
    hget 4 (by norm_num), hget 5 (by norm_num), hget 6 (by norm_num),
    hget 7 (by norm_num)]
  exact congrArg Except.ok (u64FromBytes_appendU64Le v)

theorem readU64_take_short (data : Bytes) (n pos : Nat) (h : n < pos + 8) :
    readU64 (data.take n) pos = Except.error "Unexpected end of .dirdb" := by
  unfold readU64
  rw [if_neg]
  intro hc
  have := List.length_take n data
  omega

theorem readU64_take_eq (data : Bytes) (n pos : Nat) (h : pos + 8 ≤ n) :
    readU64 (data.take n) pos = readU64 data pos := by
  unfold readU64
  have hlt : (data.take n).length = min n data.length := List.length_take n data
  by_cases hd : pos + 8 ≤ data.length
  · rw [if_pos (by omega), if_pos hd]
    have hget : ∀ i, i < 8 → (data.take n).getD (pos + i) 0 = data.getD (pos + i) 0 := by
      intro i hi
      simp only [List.getD_eq_getElem?_getD, List.getElem?_take]
      rw [if_pos (by omega)]
    have h0 := hget 0 (by norm_num)
    rw [Nat.add_zero] at h0
    rw [h0, hget 1 (by norm_num), hget 2 (by norm_num), hget 3 (by norm_num),
      hget 4 (by norm_num), hget 5 (by norm_num), hget 6 (by norm_num),
      hget 7 (by norm_num)]
  · rw [if_neg (by omega), if_neg hd]

theorem tocRegion_cons (tocPad : Bytes) (t : Nat × Nat) (rest : List (Nat × Nat)) :
    tocRegion tocPad (t :: rest) =
      (appendU64Le t.1 ++ appendU64Le t.2 ++ tocPad) ++ tocRegion tocPad rest := by
  simp [tocRegion]

theorem fileRegion_cons (filePad : Bytes) (r : RawFileEntry)
    (rest : List RawFileEntry) :
    fileRegion filePad (r :: rest) =
      (appendU64Le r.nameIndex ++ appendU64Le r.hashLo ++ appendU64Le r.hashHi ++
        appendU64Le r.inode ++ appendU64Le r.date ++ appendU64Le r.numLinks ++
        filePad) ++ fileRegion filePad rest := by
  simp [fileRegion]

theorem readTocEntries_at (tocPad : Bytes) :
    ∀ (tocs : List (Nat × Nat)) (data pre post : Bytes) (pos : Nat),
      data = pre ++ (tocRegion tocPad tocs ++ post) →
      pos = pre.length →
      (∀ t ∈ tocs, t.1 < 2 ^ 64 ∧ t.2 < 2 ^ 64) →
      readTocEntries data (16 + tocPad.length) tocs.length pos =
        Except.ok (tocs, pos + (tocRegion tocPad tocs).length) := by
  intro tocs
  induction tocs with
  | nil =>
    intro data pre post pos hdata hpos hbnd
    simp [readTocEntries, tocRegion]
  | cons t rest ih =>
    intro data pre post pos hdata hpos hbnd
    have hbt := hbnd t (List.mem_cons_self _ _)
    have hr1 : readU64 data pos = Except.ok (t.1 % 2 ^ 64) :=
      readU64_at pre
        (appendU64Le t.2 ++ tocPad ++ (tocRegion tocPad rest ++ post)) t.1 pos
        (by rw [hdata, tocRegion_cons]; simp [List.append_assoc]) hpos
    have hr2 : readU64 data (pos + 8) = Except.ok (t.2 % 2 ^ 64) :=
      readU64_at (pre ++ appendU64Le t.1)
        (tocPad ++ (tocRegion tocPad rest ++ post)) t.2 (pos + 8)
        (by rw [hdata, tocRegion_cons]; simp [List.append_assoc])
        (by rw [hpos]; simp [appendU64Le])
    have hdl : data.length =
        pos + (16 + tocPad.length) +
          ((tocRegion tocPad rest).length + post.length) := by
      rw [hdata, hpos, tocRegion_cons]
      simp only [List.length_append, appendU64Le_length]
      omega
    have hble : ¬ (pos + (16 + tocPad.length) > data.length) := by omega
    have hrec := ih data
      (pre ++ (appendU64Le t.1 ++ appendU64Le t.2 ++ tocPad)) post
      (pos + (16 + tocPad.length))
      (by rw [hdata, tocRegion_cons]; simp [List.append_assoc])
      (by rw [hpos]; simp only [List.length_append, appendU64Le_length]; try omega)
      (fun t2 ht2 => hbnd t2 (List.mem_cons_of_mem _ ht2))
    have hposEq : pos + (16 + tocPad.length) + (tocRegion tocPad rest).length =
        pos + (tocRegion tocPad (t :: rest)).length := by
      rw [tocRegion_cons]
      simp only [List.length_append, appendU64Le_length]
      omega
    simp only [List.length_cons, readTocEntries, hr1, hr2, if_neg hble, hrec,
      hposEq, Nat.mod_eq_of_lt hbt.1, Nat.mod_eq_of_lt hbt.2]

theorem readFileEntries_at (filePad : Bytes) :
    ∀ (raws : List RawFileEntry) (data pre post : Bytes) (pos : Nat),
      data = pre ++ (fileRegion filePad raws ++ post) →
      pos = pre.length →
      (∀ r ∈ raws, r.nameIndex < 2 ^ 64 ∧ r.hashLo < 2 ^ 64 ∧
        r.hashHi < 2 ^ 64 ∧ r.inode < 2 ^ 64 ∧ r.date < 2 ^ 64 ∧
        r.numLinks < 2 ^ 64) →
      readFileEntries data (48 + filePad.length) raws.length pos =
        Except.ok (raws, pos + (fileRegion filePad raws).length) := by
  intro raws
  induction raws with
  | nil =>
    intro data pre post pos hdata hpos hbnd
    simp [readFileEntries, fileRegion]
  | cons r rest ih =>
    intro data pre post pos hdata hpos hbnd
    have hbt := hbnd r (List.mem_cons_self _ _)
    have hr1 : readU64 data pos = Except.ok (r.nameIndex % 2 ^ 64) :=
      readU64_at pre
        (appendU64Le r.hashLo ++ appendU64Le r.hashHi ++ appendU64Le r.inode ++
          appendU64Le r.date ++ appendU64Le r.numLinks ++ filePad ++
          (fileRegion filePad rest ++ post)) r.nameIndex pos
        (by rw [hdata, fileRegion_cons]; simp [List.append_assoc]) hpos
    have hr2 : readU64 data (pos + 8) = Except.ok (r.hashLo % 2 ^ 64) :=
      readU64_at (pre ++ appendU64Le r.nameIndex)
        (appendU64Le r.hashHi ++ appendU64Le r.inode ++
          appendU64Le r.date ++ appendU64Le r.numLinks ++ filePad ++
          (fileRegion filePad rest ++ post)) r.hashLo (pos + 8)
        (by rw [hdata, fileRegion_cons]; simp [List.append_assoc])
        (by rw [hpos]; simp [appendU64Le])
    have hr3 : readU64 data (pos + 16) = Except.ok (r.hashHi % 2 ^ 64) :=
      readU64_at (pre ++ appendU64Le r.nameIndex ++ appendU64Le r.hashLo)
        (appendU64Le r.inode ++ appendU64Le r.date ++ appendU64Le r.numLinks ++
          filePad ++ (fileRegion filePad rest ++ post)) r.hashHi (pos + 16)
        (by rw [hdata, fileRegion_cons]; simp [List.append_assoc])
        (by rw [hpos]; simp [appendU64Le]; try omega)
    have hr4 : readU64 data (pos + 24) = Except.ok (r.inode % 2 ^ 64) :=
      readU64_at (pre ++ appendU64Le r.nameIndex ++ appendU64Le r.hashLo ++
          appendU64Le r.hashHi)
        (appendU64Le r.date ++ appendU64Le r.numLinks ++ filePad ++
          (fileRegion filePad rest ++ post)) r.inode (pos + 24)
        (by rw [hdata, fileRegion_cons]; simp [List.append_assoc])
        (by rw [hpos]; simp [appendU64Le]; try omega)
    have hr5 : readU64 data (pos + 32) = Except.ok (r.date % 2 ^ 64) :=
      readU64_at (pre ++ appendU64Le r.nameIndex ++ appendU64Le r.hashLo ++
          appendU64Le r.hashHi ++ appendU64Le r.inode)
        (appendU64Le r.numLinks ++ filePad ++
          (fileRegion filePad rest ++ post)) r.date (pos + 32)
        (by rw [hdata, fileRegion_cons]; simp [List.append_assoc])
        (by rw [hpos]; simp [appendU64Le]; try omega)
    have hr6 : readU64 data (pos + 40) = Except.ok (r.numLinks % 2 ^ 64) :=
      readU64_at (pre ++ appendU64Le r.nameIndex ++ appendU64Le r.hashLo ++
          appendU64Le r.hashHi ++ appendU64Le r.inode ++ appendU64Le r.date)
        (filePad ++ (fileRegion filePad rest ++ post)) r.numLinks (pos + 40)
        (by rw [hdata, fileRegion_cons]; simp [List.append_assoc])
        (by rw [hpos]; simp [appendU64Le]; try omega)
    have hdl : data.length =
        pos + (48 + filePad.length) +
          ((fileRegion filePad rest).length + post.length) := by
      rw [hdata, hpos, fileRegion_cons]
      simp only [List.length_append, appendU64Le_length]
      omega
    have hble : ¬ (pos + (48 + filePad.length) > data.length) := by omega
    have hrec := ih data
      (pre ++ (appendU64Le r.nameIndex ++ appendU64Le r.hashLo ++
        appendU64Le r.hashHi ++ appendU64Le r.inode ++ appendU64Le r.date ++
        appendU64Le r.numLinks ++ filePad)) post
      (pos + (48 + filePad.length))
      (by rw [hdata, fileRegion_cons]; simp [List.append_assoc])
      (by rw [hpos]; simp only [List.length_append, appendU64Le_length]; try omega)
      (fun r2 hr2m => hbnd r2 (List.mem_cons_of_mem _ hr2m))
    have hposEq : pos + (48 + filePad.length) + (fileRegion filePad rest).length =
        pos + (fileRegion filePad (r :: rest)).length := by
      rw [fileRegion_cons]
      simp only [List.length_append, appendU64Le_length]
      omega
    simp only [List.length_cons, readFileEntries, hr1, hr2, hr3, hr4, hr5, hr6,
      if_neg hble, hrec, hposEq, Nat.mod_eq_of_lt hbt.1,
      Nat.mod_eq_of_lt hbt.2.1, Nat.mod_eq_of_lt hbt.2.2.1,
      Nat.mod_eq_of_lt hbt.2.2.2.1, Nat.mod_eq_of_lt hbt.2.2.2.2.1,
      Nat.mod_eq_of_lt hbt.2.2.2.2.2]

theorem phaseStrings_at (data pre : Bytes) (tocs : List (Nat × Nat))
    (raws : List RawFileEntry) (strings : Bytes) (posF : Nat)
    (hdata : data = pre ++ (appendU64Le tagStrings ++
      appendU64Le strings.length ++ strings))
    (hpos : posF = pre.length) (hsl : strings.length < 2 ^ 64) :
    phaseStrings data tocs raws posF = postValidate tocs raws strings := by
  have hTagS : tagStrings < 2 ^ 64 := by decide
  have h8 : readU64 data posF = Except.ok tagStrings := by
    rw [readU64_at pre (appendU64Le strings.length ++ strings) tagStrings posF
      (by rw [hdata]; simp [List.append_assoc]) hpos, Nat.mod_eq_of_lt hTagS]
  have h9 : readU64 data (posF + 8) = Except.ok strings.length := by
    rw [readU64_at (pre ++ appendU64Le tagStrings) strings strings.length
      (posF + 8) (by rw [hdata]; simp [List.append_assoc])
      (by rw [hpos]; simp [appendU64Le]), Nat.mod_eq_of_lt hsl]
  have hdl : data.length = posF + 16 + strings.length := by
    rw [hdata, hpos]
    simp only [List.length_append, appendU64Le_length]
    omega
  have hnb : ¬ (posF + 16 + strings.length > data.length) := by omega
  have hslice : (data.drop (posF + 16)).take strings.length = strings := by
    have hd2 : data = (pre ++ appendU64Le tagStrings ++
        appendU64Le strings.length) ++ strings := by
      rw [hdata]
      simp [List.append_assoc]
    have hdpl : (pre ++ appendU64Le tagStrings ++
        appendU64Le strings.length).length = posF + 16 := by
      rw [hpos]
      simp [appendU64Le]
      try omega
    rw [hd2, ← hdpl, List.drop_left]
    exact List.take_of_length_le (by omega)
  simp [phaseStrings, h8, h9, if_neg hnb, hslice]

theorem phaseFiles_at (data pre : Bytes) (tocs : List (Nat × Nat))
    (raws : List RawFileEntry) (strings : Bytes) (filePad : Bytes) (posT : Nat)
    (hdata : data = pre ++ (appendU64Le tagFiles ++ appendU64Le raws.length ++
      appendU64Le (48 + filePad.length) ++ fileRegion filePad raws ++
      appendU64Le tagStrings ++ appendU64Le strings.length ++ strings))
    (hpos : posT = pre.length)
    (hraw : ∀ r ∈ raws, r.nameIndex < 2 ^ 64 ∧ r.hashLo < 2 ^ 64 ∧
      r.hashHi < 2 ^ 64 ∧ r.inode < 2 ^ 64 ∧ r.date < 2 ^ 64 ∧
      r.numLinks < 2 ^ 64)
    (hrc : raws.length < 2 ^ 64) (hsl : strings.length < 2 ^ 64)
    (hfs : 48 + filePad.length < 2 ^ 64) :
    phaseFiles data tocs posT = postValidate tocs raws strings := by
  have hTagF : tagFiles < 2 ^ 64 := by decide
  have h5 : readU64 data posT = Except.ok tagFiles := by
    rw [readU64_at pre (appendU64Le raws.length ++
      appendU64Le (48 + filePad.length) ++ fileRegion filePad raws ++
      appendU64Le tagStrings ++ appendU64Le strings.length ++ strings)
      tagFiles posT (by rw [hdata]; simp [List.append_assoc]) hpos,
      Nat.mod_eq_of_lt hTagF]
  have h6 : readU64 data (posT + 8) = Except.ok raws.length := by
    rw [readU64_at (pre ++ appendU64Le tagFiles)
      (appendU64Le (48 + filePad.length) ++ fileRegion filePad raws ++
      appendU64Le tagStrings ++ appendU64Le strings.length ++ strings)
      raws.length (posT + 8) (by rw [hdata]; simp [List.append_assoc])
      (by rw [hpos]; simp [appendU64Le]), Nat.mod_eq_of_lt hrc]
  have h7 : readU64 data (posT + 16) = Except.ok (48 + filePad.length) := by
    rw [readU64_at (pre ++ appendU64Le tagFiles ++ appendU64Le raws.length)
      (fileRegion filePad raws ++ appendU64Le tagStrings ++
      appendU64Le strings.length ++ strings)
      (48 + filePad.length) (posT + 16)
      (by rw [hdata]; simp [List.append_assoc])
      (by rw [hpos]; simp [appendU64Le]; try omega), Nat.mod_eq_of_lt hfs]
  have hF : readFileEntries data (48 + filePad.length) raws.length
      (posT + 24) = Except.ok (raws,
        posT + 24 + (fileRegion filePad raws).length) :=
    readFileEntries_at filePad raws data
      (pre ++ appendU64Le tagFiles ++ appendU64Le raws.length ++
        appendU64Le (48 + filePad.length))
      (appendU64Le tagStrings ++ appendU64Le strings.length ++ strings)
      (posT + 24) (by rw [hdata]; simp [List.append_assoc])
      (by rw [hpos]; simp [appendU64Le]; try omega) hraw
  have hS : phaseStrings data tocs raws
      (posT + 24 + (fileRegion filePad raws).length) =
      postValidate tocs raws strings :=
    phaseStrings_at data
      (pre ++ appendU64Le tagFiles ++ appendU64Le raws.length ++
        appendU64Le (48 + filePad.length) ++ fileRegion filePad raws)
      tocs raws strings (posT + 24 + (fileRegion filePad raws).length)
      (by rw [hdata]; simp [List.append_assoc])
      (by rw [hpos]; simp [appendU64Le]; try omega) hsl
  have hfs48 : ¬ (48 + filePad.length < 48) := by omega
  simp [phaseFiles, h5, h6, h7, if_neg hfs48, hF, hS]

theorem phaseToc_at (data pre post : Bytes) (tocs : List (Nat × Nat))
    (tocPad : Bytes)
    (hdata : data = pre ++ (appendU64Le tocs.length ++
      appendU64Le (16 + tocPad.length) ++ tocRegion tocPad tocs ++ post))
    (hpre : pre.length = 24)
    (htoc : ∀ t ∈ tocs, t.1 < 2 ^ 64 ∧ t.2 < 2 ^ 64)
    (htc : tocs.length < 2 ^ 64) (hts : 16 + tocPad.length < 2 ^ 64) :
    phaseToc data =
      phaseFiles data tocs (40 + (tocRegion tocPad tocs).length) := by
  have h3 : readU64 data 24 = Except.ok tocs.length := by
    rw [readU64_at pre (appendU64Le (16 + tocPad.length) ++
      tocRegion tocPad tocs ++ post) tocs.length 24
      (by rw [hdata]; simp [List.append_assoc]) hpre.symm,
      Nat.mod_eq_of_lt htc]
  have h4 : readU64 data 32 = Except.ok (16 + tocPad.length) := by
    rw [readU64_at (pre ++ appendU64Le tocs.length)
      (tocRegion tocPad tocs ++ post) (16 + tocPad.length) 32
      (by rw [hdata]; simp [List.append_assoc])
      (by simp [appendU64Le, hpre]), Nat.mod_eq_of_lt hts]
  have hT : readTocEntries data (16 + tocPad.length) tocs.length 40 =
      Except.ok (tocs, 40 + (tocRegion tocPad tocs).length) :=
    readTocEntries_at tocPad tocs data
      (pre ++ appendU64Le tocs.length ++ appendU64Le (16 + tocPad.length))
      post 40 (by rw [hdata]; simp [List.append_assoc])
      (by simp [appendU64Le, hpre]) htoc
  have hts16 : ¬ (16 + tocPad.length < 16) := by omega
  simp [phaseToc, h3, h4, if_neg hts16, hT]

theorem splitChain13a (s1 s2 s3 s4 s5 s6 s7 s8 s9 s10 s11 s12 s13 : Bytes) :
    s1 ++ s2 ++ s3 ++ s4 ++ s5 ++ s6 ++ s7 ++ s8 ++ s9 ++ s10 ++ s11 ++ s12 ++
      s13 =
    [] ++ (s1 ++ (s2 ++ s3 ++ s4 ++ s5 ++ s6 ++ s7 ++ s8 ++ s9 ++ s10 ++ s11 ++
      s12 ++ s13)) := by
  simp only [List.nil_append, List.append_assoc]

theorem splitChain13b (s1 s2 s3 s4 s5 s6 s7 s8 s9 s10 s11 s12 s13 : Bytes) :
    s1 ++ s2 ++ s3 ++ s4 ++ s5 ++ s6 ++ s7 ++ s8 ++ s9 ++ s10 ++ s11 ++ s12 ++
      s13 =
    s1 ++ (s2 ++ (s3 ++ s4 ++ s5 ++ s6 ++ s7 ++ s8 ++ s9 ++ s10 ++ s11 ++
      s12 ++ s13)) := by
  simp only [List.append_assoc]

theorem splitChain13c (s1 s2 s3 s4 s5 s6 s7 s8 s9 s10 s11 s12 s13 : Bytes) :
    s1 ++ s2 ++ s3 ++ s4 ++ s5 ++ s6 ++ s7 ++ s8 ++ s9 ++ s10 ++ s11 ++ s12 ++
      s13 =
    (s1 ++ s2) ++ (s3 ++ (s4 ++ s5 ++ s6 ++ s7 ++ s8 ++ s9 ++ s10 ++ s11 ++
      s12 ++ s13)) := by
  simp only [List.append_assoc]

theorem splitChain13d (s1 s2 s3 s4 s5 s6 s7 s8 s9 s10 s11 s12 s13 : Bytes) :
    s1 ++ s2 ++ s3 ++ s4 ++ s5 ++ s6 ++ s7 ++ s8 ++ s9 ++ s10 ++ s11 ++ s12 ++
      s13 =
    (s1 ++ s2 ++ s3) ++ (s4 ++ s5 ++ s6 ++ (s7 ++ s8 ++ s9 ++ s10 ++ s11 ++
      s12 ++ s13)) := by
  simp only [List.append_assoc]

theorem splitChain13e (s1 s2 s3 s4 s5 s6 s7 s8 s9 s10 s11 s12 s13 : Bytes) :
    s1 ++ s2 ++ s3 ++ s4 ++ s5 ++ s6 ++ s7 ++ s8 ++ s9 ++ s10 ++ s11 ++ s12 ++
      s13 =
    (s1 ++ s2 ++ s3 ++ s4 ++ s5 ++ s6) ++ (s7 ++ s8 ++ s9 ++ s10 ++ s11 ++
      s12 ++ s13) := by
  simp only [List.append_assoc]

theorem readDirDbBytes_serializeRaw (tocs : List (Nat × Nat))
    (raws : List RawFileEntry) (strings : Bytes) (tocPad filePad : Bytes)
    (htoc : ∀ t ∈ tocs, t.1 < 2 ^ 64 ∧ t.2 < 2 ^ 64)
    (hraw : ∀ r ∈ raws, r.nameIndex < 2 ^ 64 ∧ r.hashLo < 2 ^ 64 ∧
      r.hashHi < 2 ^ 64 ∧ r.inode < 2 ^ 64 ∧ r.date < 2 ^ 64 ∧
      r.numLinks < 2 ^ 64)
    (htc : tocs.length < 2 ^ 64) (hrc : raws.length < 2 ^ 64)
    (hsl : strings.length < 2 ^ 64)
    (hts : 16 + tocPad.length < 2 ^ 64) (hfs : 48 + filePad.length < 2 ^ 64) :
    readDirDbBytes (serializeRaw tocs raws strings tocPad filePad) =
      postValidate tocs raws strings := by
  have hTagD : tagDirDb < 2 ^ 64 := by decide
  have hTagT : tagToc < 2 ^ 64 := by decide
  set data := serializeRaw tocs raws strings tocPad filePad with hdataDef
  have hsplit : data = appendU64Le tagDirDb ++ appendU64Le 1 ++
      appendU64Le tagToc ++ appendU64Le tocs.length ++
      appendU64Le (16 + tocPad.length) ++ tocRegion tocPad tocs ++
      appendU64Le tagFiles ++ appendU64Le raws.length ++
      appendU64Le (48 + filePad.length) ++ fileRegion filePad raws ++
      appendU64Le tagStrings ++ appendU64Le strings.length ++ strings :=
    hdataDef.trans rfl
  have h0 : readU64 data 0 = Except.ok tagDirDb := by
    rw [readU64_at [] (appendU64Le 1 ++ appendU64Le tagToc ++
      appendU64Le tocs.length ++ appendU64Le (16 + tocPad.length) ++
      tocRegion tocPad tocs ++ appendU64Le tagFiles ++
      appendU64Le raws.length ++ appendU64Le (48 + filePad.length) ++
      fileRegion filePad raws ++ appendU64Le tagStrings ++
      appendU64Le strings.length ++ strings) tagDirDb 0
      (by rw [hsplit]; exact splitChain13a _ _ _ _ _ _ _ _ _ _ _ _ _) rfl,
      Nat.mod_eq_of_lt hTagD]
  have h1 : readU64 data 8 = Except.ok 1 := by
    rw [readU64_at (appendU64Le tagDirDb) (appendU64Le tagToc ++
      appendU64Le tocs.length ++ appendU64Le (16 + tocPad.length) ++
      tocRegion tocPad tocs ++ appendU64Le tagFiles ++
      appendU64Le raws.length ++ appendU64Le (48 + filePad.length) ++
      fileRegion filePad raws ++ appendU64Le tagStrings ++
      appendU64Le strings.length ++ strings) 1 8
      (by rw [hsplit]; exact splitChain13b _ _ _ _ _ _ _ _ _ _ _ _ _)
      (by simp only [appendU64Le_length]),
      Nat.mod_eq_of_lt (show (1 : Nat) < 2 ^ 64 by norm_num)]
  have h2 : readU64 data 16 = Except.ok tagToc := by
    rw [readU64_at (appendU64Le tagDirDb ++ appendU64Le 1)
      (appendU64Le tocs.length ++ appendU64Le (16 + tocPad.length) ++
      tocRegion tocPad tocs ++ appendU64Le tagFiles ++
      appendU64Le raws.length ++ appendU64Le (48 + filePad.length) ++
      fileRegion filePad raws ++ appendU64Le tagStrings ++
      appendU64Le strings.length ++ strings) tagToc 16
      (by rw [hsplit]; exact splitChain13c _ _ _ _ _ _ _ _ _ _ _ _ _)
      (by simp only [List.length_append, appendU64Le_length]),
      Nat.mod_eq_of_lt hTagT]
  have hTp : phaseToc data =
      phaseFiles data tocs (40 + (tocRegion tocPad tocs).length) :=
    phaseToc_at data
      (appendU64Le tagDirDb ++ appendU64Le 1 ++ appendU64Le tagToc)
      (appendU64Le tagFiles ++ appendU64Le raws.length ++
        appendU64Le (48 + filePad.length) ++ fileRegion filePad raws ++
        appendU64Le tagStrings ++ appendU64Le strings.length ++ strings)
      tocs tocPad
      (by rw [hsplit]; exact splitChain13d _ _ _ _ _ _ _ _ _ _ _ _ _)
      (by simp only [List.length_append, appendU64Le_length]) htoc htc hts
  have hFp : phaseFiles data tocs (40 + (tocRegion tocPad tocs).length) =
      postValidate tocs raws strings :=
    phaseFiles_at data
      (appendU64Le tagDirDb ++ appendU64Le 1 ++ appendU64Le tagToc ++
        appendU64Le tocs.length ++ appendU64Le (16 + tocPad.length) ++
        tocRegion tocPad tocs)
      tocs raws strings filePad (40 + (tocRegion tocPad tocs).length)
      (by rw [hsplit]; exact splitChain13e _ _ _ _ _ _ _ _ _ _ _ _ _)
      (by simp only [List.length_append, appendU64Le_length]; try omega)
      hraw hrc hsl hfs
  simp [readDirDbBytes, h0, h1, h2, hTp, hFp]

theorem lenMarkBytes_length_pos (n : Nat) : 0 < (lenMarkBytes n).length := by
  unfold lenMarkBytes
  by_cases h1 : n ≤ 252
  · simp [h1]
  · by_cases h2 : n ≤ 65535
    · simp [h1, h2]
    · by_cases h3 : n ≤ 4294967295
      · simp [h1, h2, h3]
      · simp [h1, h2, h3]

theorem getD_at (pre rest : Bytes) (i off : Nat) (hoff : off = pre.length) :
    (pre ++ rest).getD (off + i) 0 = rest.getD i 0 := by
  subst hoff
  rw [List.getD_append_right pre rest 0 _ (by omega)]
  congr 1
  omega

theorem getD_at0 (pre rest : Bytes) (off : Nat) (hoff : off = pre.length) :
    (pre ++ rest).getD off 0 = rest.getD 0 0 := by
  have h := getD_at pre rest 0 off hoff
  rw [Nat.add_zero] at h
  exact h

theorem decode2_mod (n : Nat) :
    (n &&& 255) ||| (n >>> 8 &&& 255) <<< 8 = n % 65536 := by
  have h28 : (2 : Nat) ^ 8 = 256 := by norm_num
  have ha : n &&& 255 < 2 ^ 8 := by
    rw [h28, and255_eq_mod]
    omega
  rw [lor_shiftLeft_eq_add (n >>> 8 &&& 255) ha, and255_eq_mod, and255_eq_mod,
    Nat.shiftRight_eq_div_pow, h28]
  omega

theorem decode4_mod (n : Nat) :
    (n &&& 255) ||| (n >>> 8 &&& 255) <<< 8 ||| (n >>> 16 &&& 255) <<< 16 |||
      (n >>> 24 &&& 255) <<< 24 = n % 4294967296 := by
  have h28 : (2 : Nat) ^ 8 = 256 := by norm_num
  have h216 : (2 : Nat) ^ 16 = 65536 := by norm_num
  have h224 : (2 : Nat) ^ 24 = 16777216 := by norm_num
  have hb : ∀ x : Nat, x &&& 255 < 256 := fun x => by
    rw [and255_eq_mod]
    omega
  have ha : n &&& 255 < 2 ^ 8 := by
    rw [h28]
    exact hb n
  rw [lor_shiftLeft_eq_add (n >>> 8 &&& 255) ha]
  have h1 := lor_shiftLeft_bound ha (hb (n >>> 8))
  rw [lor_shiftLeft_eq_add (n >>> 16 &&& 255) h1]
  have h2 := lor_shiftLeft_bound h1 (hb (n >>> 16))
  rw [lor_shiftLeft_eq_add (n >>> 24 &&& 255) h2]
  rw [and255_eq_mod, and255_eq_mod, and255_eq_mod, and255_eq_mod,
    Nat.shiftRight_eq_div_pow, Nat.shiftRight_eq_div_pow,
    Nat.shiftRight_eq_div_pow, h28, h216, h224]
  omega

theorem readLengthStringAt_at (blob pre post s : Bytes) (off : Nat)
    (hblob : blob = pre ++ (lenMarkBytes s.length ++ (s ++ post)))
    (hoff : off = pre.length) (hlen : s.length < 2 ^ 64) :
    readLengthStringAt blob off = Except.ok s := by
  have hget0 : blob.getD off 0 = (lenMarkBytes s.length ++ (s ++ post)).getD 0 0 := by
    rw [hblob]
    exact getD_at0 pre _ off hoff
  have hgeti : ∀ i, blob.getD (off + i) 0 =
      (lenMarkBytes s.length ++ (s ++ post)).getD i 0 := by
    intro i
    rw [hblob]
    exact getD_at pre _ i off hoff
  have hlb : blob.length = off + (lenMarkBytes s.length).length + s.length +
      post.length := by
    rw [hblob, hoff]
    simp only [List.length_append]
    omega
  have hmarkpos := lenMarkBytes_length_pos s.length
  have hofflt : ¬ (off ≥ blob.length) := by omega
  unfold readLengthStringAt
  rw [if_neg hofflt]
  by_cases hc1 : s.length ≤ 252
  · have hmark : lenMarkBytes s.length = [s.length] := by
      unfold lenMarkBytes
      rw [if_pos hc1]
    have hpb : blob.getD off 0 = s.length := by
      rw [hget0, hmark]
      rfl
    rw [hpb, if_pos hc1]
    have hml : (lenMarkBytes s.length).length = 1 := by
      rw [hmark]
      rfl
    rw [if_neg (by omega)]
    have hslice : (blob.drop (off + 1)).take s.length = s := by
      have hd2 : blob = (pre ++ [s.length]) ++ (s ++ post) := by
        rw [hblob, hmark]
        simp [List.append_assoc]
      have hdpl : (pre ++ [s.length]).length = off + 1 := by
        rw [hoff]
        simp
      rw [hd2, ← hdpl, List.drop_left, List.take_left]
    rw [hslice]
  · by_cases hc2 : s.length ≤ 65535
    · have hmark : lenMarkBytes s.length = [255, s.length &&& 255,
          s.length >>> 8 &&& 255] := by
        unfold lenMarkBytes
        rw [if_neg hc1, if_pos hc2]
      have hpb : blob.getD off 0 = 255 := by
        rw [hget0, hmark]
        rfl
      have hb1 : blob.getD (off + 1) 0 = s.length &&& 255 := by
        rw [hgeti 1, hmark]
        rfl
      have hb2 : blob.getD (off + 2) 0 = s.length >>> 8 &&& 255 := by
        rw [hgeti 2, hmark]
        rfl
      have hml : (lenMarkBytes s.length).length = 3 := by
        rw [hmark]
        rfl
      rw [hpb, if_neg (by norm_num), if_pos rfl, if_neg (by omega)]
      rw [hb1, hb2, decode2_mod, Nat.mod_eq_of_lt (by omega)]
      rw [if_neg (by omega)]
      have hslice : (blob.drop (off + 3)).take s.length = s := by
        have hd2 : blob = (pre ++ [255, s.length &&& 255,
            s.length >>> 8 &&& 255]) ++ (s ++ post) := by
          rw [hblob, hmark]
          simp [List.append_assoc]
        have hdpl : (pre ++ [255, s.length &&& 255,
            s.length >>> 8 &&& 255]).length = off + 3 := by
          rw [hoff]
          simp
        rw [hd2, ← hdpl, List.drop_left, List.take_left]
      rw [hslice]
    · by_cases hc3 : s.length ≤ 4294967295
      · have hmark : lenMarkBytes s.length = [254, s.length &&& 255,
            s.length >>> 8 &&& 255, s.length >>> 16 &&& 255,
            s.length >>> 24 &&& 255] := by
          unfold lenMarkBytes
          rw [if_neg hc1, if_neg hc2, if_pos hc3]
        have hpb : blob.getD off 0 = 254 := by
          rw [hget0, hmark]
          rfl
        have hb1 : blob.getD (off + 1) 0 = s.length &&& 255 := by
          rw [hgeti 1, hmark]
          rfl
        have hb2 : blob.getD (off + 2) 0 = s.length >>> 8 &&& 255 := by
          rw [hgeti 2, hmark]
          rfl
        have hb3 : blob.getD (off + 3) 0 = s.length >>> 16 &&& 255 := by
          rw [hgeti 3, hmark]
          rfl
        have hb4 : blob.getD (off + 4) 0 = s.length >>> 24 &&& 255 := by
          rw [hgeti 4, hmark]
          rfl
        have hml : (lenMarkBytes s.length).length = 5 := by
          rw [hmark]
          rfl
        rw [hpb, if_neg (by norm_num), if_neg (by norm_num), if_pos rfl,
          if_neg (by omega)]
        rw [hb1, hb2, hb3, hb4, decode4_mod, Nat.mod_eq_of_lt (by omega)]
        rw [if_neg (by omega)]
        have hslice : (blob.drop (off + 5)).take s.length = s := by
          have hd2 : blob = (pre ++ [254, s.length &&& 255,
              s.length >>> 8 &&& 255, s.length >>> 16 &&& 255,
              s.length >>> 24 &&& 255]) ++ (s ++ post) := by
            rw [hblob, hmark]
            simp [List.append_assoc]
          have hdpl : (pre ++ [254, s.length &&& 255,
              s.length >>> 8 &&& 255, s.length >>> 16 &&& 255,
              s.length >>> 24 &&& 255]).length = off + 5 := by
            rw [hoff]
            simp
          rw [hd2, ← hdpl, List.drop_left, List.take_left]
        rw [hslice]
      · have hmark : lenMarkBytes s.length = 253 :: appendU64Le s.length := by
          unfold lenMarkBytes
          rw [if_neg hc1, if_neg hc2, if_neg hc3]
        have hpb : blob.getD off 0 = 253 := by
          rw [hget0, hmark]
          rfl
        have hml : (lenMarkBytes s.length).length = 9 := by
          rw [hmark]
          rfl
        rw [hpb, if_neg (by norm_num), if_neg (by norm_num),
          if_neg (by norm_num), if_pos rfl, if_neg (by omega)]
        have hb1 : blob.getD (off + 1) 0 = s.length &&& 255 := by
          rw [hgeti 1, hmark]
          rfl
        have hb2 : blob.getD (off + 2) 0 = s.length >>> 8 &&& 255 := by
          rw [hgeti 2, hmark]
          rfl
        have hb3 : blob.getD (off + 3) 0 = s.length >>> 16 &&& 255 := by
          rw [hgeti 3, hmark]
          rfl
        have hb4 : blob.getD (off + 4) 0 = s.length >>> 24 &&& 255 := by
          rw [hgeti 4, hmark]
          rfl
        have hb5 : blob.getD (off + 5) 0 = s.length >>> 32 &&& 255 := by
          rw [hgeti 5, hmark]
          rfl
        have hb6 : blob.getD (off + 6) 0 = s.length >>> 40 &&& 255 := by
          rw [hgeti 6, hmark]
          rfl
        have hb7 : blob.getD (off + 7) 0 = s.length >>> 48 &&& 255 := by
          rw [hgeti 7, hmark]
          rfl
        have hb8 : blob.getD (off + 8) 0 = s.length >>> 56 &&& 255 := by
          rw [hgeti 8, hmark]
          rfl
        rw [hb1, hb2, hb3, hb4, hb5, hb6, hb7, hb8,
          u64FromBytes_appendU64Le s.length, Nat.mod_eq_of_lt hlen]
        simp only []
        rw [if_neg (by omega)]
        have hslice : (blob.drop (off + 9)).take s.length = s := by
          have hd2 : blob = (pre ++ (253 :: appendU64Le s.length)) ++
              (s ++ post) := by
            rw [hblob, hmark]
            simp [List.append_assoc]
          have hdpl : (pre ++ (253 :: appendU64Le s.length)).length =
              off + 9 := by
            rw [hoff]
            simp [appendU64Le]
          rw [hd2, ← hdpl, List.drop_left, List.take_left]
        rw [hslice]

theorem buildRaws_blob : ∀ (files : List FileEntry) (acc : Bytes),
    (buildRaws files acc).2 = acc ++ nameBlob files := by
  intro files
  induction files with
  | nil =>
    intro acc
    simp [buildRaws, nameBlob]
  | cons e rest ih =>
    intro acc
    simp only [buildRaws, nameBlob, List.flatMap_cons]
    rw [ih (appendLengthString acc e.path)]
    simp [appendLengthString, nameBlob, List.append_assoc]

theorem buildRaws_length : ∀ (files : List FileEntry) (acc : Bytes),
    (buildRaws files acc).1.length = files.length := by
  intro files
  induction files with
  | nil =>
    intro acc
    rfl
  | cons e rest ih =>
    intro acc
    simp [buildRaws, ih]

theorem buildEntries_roundtrip : ∀ (files : List FileEntry) (acc : Bytes),
    (∀ f ∈ files, f.path.length < 2 ^ 64) →
    buildEntries (acc ++ nameBlob files)
      ((buildRaws files acc).1.zip (files.map fun f => f.size)) =
      Except.ok files := by
  intro files
  induction files with
  | nil =>
    intro acc _
    simp [buildRaws, buildEntries]
  | cons e rest ih =>
    intro acc hb
    have hbe := hb e (List.mem_cons_self _ _)
    have hblob2 : acc ++ nameBlob (e :: rest) =
        appendLengthString acc e.path ++ nameBlob rest := by
      simp [nameBlob, appendLengthString, List.append_assoc]
    rw [hblob2]
    simp only [buildRaws, List.map_cons, List.zip_cons_cons, buildEntries]
    have hread : readLengthStringAt
        (appendLengthString acc e.path ++ nameBlob rest) acc.length =
        Except.ok e.path :=
      readLengthStringAt_at _ acc (nameBlob rest) e.path acc.length
        (by simp [appendLengthString, List.append_assoc]) rfl hbe
    have hrec : buildEntries (appendLengthString acc e.path ++ nameBlob rest)
        ((buildRaws rest (appendLengthString acc e.path)).1.zip
          (rest.map fun f => f.size)) = Except.ok rest :=
      ih (appendLengthString acc e.path)
        (fun f hf => hb f (List.mem_cons_of_mem _ hf))
    have hni : ¬ (acc.length ≥
        (appendLengthString acc e.path ++ nameBlob rest).length) := by
      have := lenMarkBytes_length_pos e.path.length
      simp only [appendLengthString, List.length_append]
      omega
    simp only [hread, if_neg hni]
    simp only [List.zip] at hrec
    rw [hrec]

theorem fillSizes_append (v a b : Nat) : ∀ (l1 l2 : List Nat) (j : Nat),
    fillSizes v a b j (l1 ++ l2) =
      fillSizes v a b j l1 ++ fillSizes v a b (j + l1.length) l2 := by
  intro l1
  induction l1 with
  | nil =>
    intro l2 j
    simp [fillSizes]
  | cons x t ih =>
    intro l2 j
    simp only [List.cons_append, fillSizes, List.length_cons, List.append_eq]
    rw [ih l2 (j + 1)]
    have he : j + 1 + t.length = j + (t.length + 1) := by omega
    rw [he]

theorem fillSizes_outside (v a b : Nat) : ∀ (l : List Nat) (j : Nat),
    (j + l.length ≤ a ∨ b ≤ j) → fillSizes v a b j l = l := by
  intro l
  induction l with
  | nil =>
    intro j _
    rfl
  | cons x t ih =>
    intro j hj
    simp only [fillSizes, List.length_cons] at *
    rw [if_neg (by omega), ih (j + 1) (by omega)]

theorem fillSizes_window (v x : Nat) : ∀ (m : Nat) (a b j : Nat),
    a ≤ j → j + m ≤ b → fillSizes v a b j (List.replicate m x) =
      List.replicate m v := by
  intro m
  induction m with
  | zero =>
    intro a b j _ _
    rfl
  | succ k ih =>
    intro a b j hja hjb
    simp only [List.replicate_succ, fillSizes]
    rw [if_pos (by omega), ih a b (j + 1) (by omega) (by omega)]

theorem fillSizes_length (v a b : Nat) : ∀ (l : List Nat) (j : Nat),
    (fillSizes v a b j l).length = l.length := by
  intro l
  induction l with
  | nil =>
    intro j
    rfl
  | cons x t ih =>
    intro j
    simp [fillSizes, ih]

theorem dropWhile_head_false (p : FileEntry → Bool) :
    ∀ (l : List FileEntry) (x : FileEntry) (xs : List FileEntry),
      l.dropWhile p = x :: xs → p x = false := by
  intro l
  induction l with
  | nil =>
    intro x xs h
    cases h
  | cons y t ih =>
    intro x xs h
    rw [List.dropWhile_cons] at h
    by_cases hy : p y = true
    · rw [if_pos hy] at h
      exact ih x xs h
    · rw [if_neg hy] at h
      injection h with h1 h2
      rw [← h1]
      cases hv : p y
      · rfl
      · exact absurd hv hy

theorem map_size_replicate : ∀ (run : List FileEntry) (s : Nat),
    (∀ f ∈ run, f.size = s) →
    run.map (fun f => f.size) = List.replicate run.length s := by
  intro run
  induction run with
  | nil =>
    intro s _
    rfl
  | cons f t ih =>
    intro s hall
    simp only [List.map_cons, List.replicate_succ]
    rw [hall f (List.mem_cons_self _ _), ih s
      (fun g hg => hall g (List.mem_cons_of_mem _ hg))]
    rfl

theorem buildTocAux_run : ∀ (run : List FileEntry) (s i : Nat)
    (rest2 : List FileEntry), (∀ f ∈ run, f.size = s) →
    buildTocAux (run ++ rest2) i (some s) =
      buildTocAux rest2 (i + run.length) (some s) := by
  intro run
  induction run with
  | nil =>
    intro s i rest2 _
    simp
  | cons f t ih =>
    intro s i rest2 hall
    have hf : f.size = s := hall f (List.mem_cons_self _ _)
    simp only [List.cons_append, buildTocAux, hf, List.append_eq]
    rw [if_pos trivial, ih s (i + 1) rest2
      (fun g hg => hall g (List.mem_cons_of_mem _ hg)),
      show i + 1 + t.length = i + (f :: t).length by
        simp only [List.length_cons]
        omega]

theorem buildTocAux_switch : ∀ (l : List FileEntry) (i s : Nat),
    (∀ x xs, l = x :: xs → x.size ≠ s) →
    buildTocAux l i (some s) = buildTocAux l i none := by
  intro l i s h
  cases l with
  | nil => rfl
  | cons x t =>
    have hx : x.size ≠ s := h x t rfl
    simp only [buildTocAux]
    rw [if_neg (by
      intro hc
      injection hc with h2
      exact hx h2.symm), if_neg (by simp)]

theorem mem_takeWhile_size (e : FileEntry) : ∀ (l : List FileEntry)
    (g : FileEntry),
    g ∈ l.takeWhile (fun f => decide (f.size = e.size)) → g.size = e.size := by
  intro l
  induction l with
  | nil =>
    intro g hg
    simp [List.takeWhile] at hg
  | cons x t ih =>
    intro g hg
    rw [List.takeWhile_cons] at hg
    by_cases hx : x.size = e.size
    · rw [if_pos (by simp [hx])] at hg
      rcases List.mem_cons.mp hg with h | h
      · rw [h]
        exact hx
      · exact ih g h
    · rw [if_neg (by simp [hx])] at hg
      cases hg

theorem applyToc_build : ∀ (n : Nat) (files : List FileEntry) (i : Nat)
    (pre2 : List Nat), files.length ≤ n → pre2.length = i →
    applyTocLoop (i + files.length) (buildTocAux files i none)
      (pre2 ++ List.replicate files.length 0) =
      Except.ok (pre2 ++ files.map fun f => f.size) := by
  intro n
  induction n with
  | zero =>
    intro files i pre2 hn hp
    have hfe : files = [] := List.length_eq_zero.mp (by omega)
    subst hfe
    simp [buildTocAux, applyTocLoop]
  | succ k ih =>
    intro files i pre2 hn hp
    cases files with
    | nil => simp [buildTocAux, applyTocLoop]
    | cons e rest =>
      obtain ⟨run, rst, hrundef, hrstdef⟩ :
          ∃ run rst, run = rest.takeWhile (fun f => decide (f.size = e.size)) ∧
            rst = rest.dropWhile (fun f => decide (f.size = e.size)) :=
        ⟨_, _, rfl, rfl⟩
      have hsplit : run ++ rst = rest := by
        rw [hrundef, hrstdef]
        exact List.takeWhile_append_dropWhile _ _
      have hrun : ∀ f ∈ run, f.size = e.size := by
        intro g hg
        rw [hrundef] at hg
        exact mem_takeWhile_size e rest g hg
      have hlens : run.length + rst.length = rest.length := by
        rw [← List.length_append, hsplit]
      have hrstlen : rst.length ≤ k := by
        simp only [List.length_cons] at hn
        omega
      have htoc : buildTocAux (e :: rest) i none = (e.size, i) ::
          buildTocAux rst (i + 1 + run.length) none := by
        simp only [buildTocAux]
        rw [if_neg (by simp)]
        congr 1
        rw [← hsplit, buildTocAux_run run e.size (i + 1) rst hrun,
          buildTocAux_switch rst (i + 1 + run.length) e.size ?hsw]
        case hsw =>
          intro x xs hx
          have hfalse := dropWhile_head_false
            (fun f => decide (f.size = e.size)) rest x xs (by rw [← hrstdef, hx])
          intro hsz
          have hfalse2 : decide (x.size = e.size) = false := hfalse
          rw [hsz] at hfalse2
          simp at hfalse2
      have hfill : fillSizes e.size i (i + 1 + run.length) 0
          (pre2 ++ List.replicate (e :: rest).length 0) =
          pre2 ++ (List.replicate (1 + run.length) e.size ++
            List.replicate rst.length 0) := by
        have hrep : List.replicate (e :: rest).length (0 : Nat) =
            List.replicate (1 + run.length) 0 ++
              List.replicate rst.length 0 := by
          rw [← List.replicate_add]
          congr 1
          simp only [List.length_cons]
          omega
        rw [hrep, fillSizes_append, fillSizes_append]
        rw [fillSizes_outside _ _ _ pre2 0 (Or.inl (by omega))]
        rw [fillSizes_window _ _ _ _ _ _ (by omega) (by omega)]
        rw [fillSizes_outside _ _ _ _ _ (Or.inr
          (by simp only [List.length_replicate]; omega))]
      have hmaprun : run.map (fun f => f.size) =
          List.replicate run.length e.size := map_size_replicate run e.size hrun
      have hmaps : (e :: rest).map (fun f => f.size) =
          e.size :: (run.map (fun f => f.size) ++ rst.map (fun f => f.size)) := by
        rw [List.map_cons]
        congr 1
        rw [← List.map_append, hsplit]
      rw [htoc]
      clear hrundef hrstdef hsplit
      simp only [applyTocLoop]
      cases rst with
      | nil =>
        simp only [buildTocAux]
        rw [if_neg (by simp only [List.length_cons]; omega)]
        have hstopEq : i + (e :: rest).length = i + 1 + run.length := by
          simp only [List.length_cons]
          simp only [List.length_nil] at hlens
          omega
        rw [hstopEq, hfill]
        simp only [applyTocLoop]
        rw [hmaps, hmaprun]
        simp [List.replicate_succ, Nat.add_comm 1 run.length,
          List.replicate_add]
      | cons h2 t2 =>
        have htoc2 : buildTocAux (h2 :: t2) (i + 1 + run.length) none =
            (h2.size, i + 1 + run.length) ::
              buildTocAux t2 (i + 1 + run.length + 1) (some h2.size) := by
          simp only [buildTocAux]
          rw [if_neg (by simp)]
        rw [htoc2]
        simp only []
        rw [if_neg (by simp only [List.length_cons] at hlens ⊢; omega)]
        rw [hfill, ← List.append_assoc]
        have hres := ih (h2 :: t2) (i + 1 + run.length)
          (pre2 ++ List.replicate (1 + run.length) e.size)
          (by simp only [List.length_cons] at hrstlen ⊢; omega)
          (by simp only [List.length_append, List.length_replicate]; omega)
        rw [htoc2] at hres
        have hfc2 : i + (e :: rest).length = i + 1 + run.length +
            (h2 :: t2).length := by
          simp only [List.length_cons] at hlens ⊢
          omega
        rw [hfc2, hres, hmaps, hmaprun]
        simp [List.replicate_succ, Nat.add_comm 1 run.length,
          List.replicate_add, List.append_assoc]

theorem postValidate_build (files : List FileEntry)
    (hb : ∀ f ∈ files, f.path.length < 2 ^ 64) :
    postValidate (buildTocAux files 0 none) (buildRaws files []).1
      (buildRaws files []).2 = Except.ok files := by
  unfold postValidate
  have hrl : (buildRaws files []).1.length = files.length :=
    buildRaws_length files []
  cases files with
  | nil => simp [buildRaws, buildTocAux, applyTocLoop, buildEntries]
  | cons e rest =>
    have hcond : ¬ ((buildRaws (e :: rest) []).1.length ≠ 0 ∧
        (buildTocAux (e :: rest) 0 none).length = 0) := by
      intro hc
      have h2 := hc.2
      simp only [buildTocAux] at h2
      rw [if_neg (by simp)] at h2
      simp at h2
    rw [if_neg hcond]
    have hax := applyToc_build (e :: rest).length (e :: rest) 0 []
      (Nat.le_refl _) rfl
    simp only [Nat.zero_add, List.nil_append] at hax
    rw [hrl, hax]
    have hblob2 := buildRaws_blob (e :: rest) []
    have hbe := buildEntries_roundtrip (e :: rest) [] hb
    simp only [List.nil_append] at hbe hblob2
    rw [hblob2]
    exact hbe

theorem buildTocAux_bounds : ∀ (files : List FileEntry) (i : Nat)
    (prev : Option Nat), ∀ t ∈ buildTocAux files i prev,
    (∃ f ∈ files, t.1 = f.size) ∧ t.2 < i + files.length := by
  intro files
  induction files with
  | nil =>
    intro i prev t ht
    cases ht
  | cons e rest ih =>
    intro i prev t ht
    simp only [buildTocAux] at ht
    by_cases hp : prev = some e.size
    · rw [if_pos hp] at ht
      obtain ⟨⟨f, hf, hts⟩, hidx⟩ := ih (i + 1) (some e.size) t ht
      refine ⟨⟨f, List.mem_cons_of_mem _ hf, hts⟩, ?_⟩
      simp only [List.length_cons]
      omega
    · rw [if_neg hp] at ht
      rcases List.mem_cons.mp ht with heq | ht2
      · rw [heq]
        refine ⟨⟨e, List.mem_cons_self _ _, rfl⟩, ?_⟩
        simp only [List.length_cons]
        omega
      · obtain ⟨⟨f, hf, hts⟩, hidx⟩ := ih (i + 1) (some e.size) t ht2
        refine ⟨⟨f, List.mem_cons_of_mem _ hf, hts⟩, ?_⟩
        simp only [List.length_cons]
        omega

theorem buildTocAux_length_le : ∀ (files : List FileEntry) (i : Nat)
    (prev : Option Nat), (buildTocAux files i prev).length ≤ files.length := by
  intro files
  induction files with
  | nil =>
    intro i prev
    simp [buildTocAux]
  | cons e rest ih =>
    intro i prev
    simp only [buildTocAux]
    by_cases hp : prev = some e.size
    · rw [if_pos hp]
      have := ih (i + 1) (some e.size)
      simp only [List.length_cons]
      omega
    · rw [if_neg hp]
      have := ih (i + 1) (some e.size)
      simp only [List.length_cons]
      omega

theorem buildRaws_fields : ∀ (files : List FileEntry) (acc : Bytes),
    ∀ r ∈ (buildRaws files acc).1, ∃ f ∈ files, r.hashLo = f.hash.lo ∧
      r.hashHi = f.hash.hi ∧ r.inode = f.inode ∧ r.date = f.date ∧
      r.numLinks = f.numLinks := by
  intro files
  induction files with
  | nil =>
    intro acc r hr
    cases hr
  | cons e rest ih =>
    intro acc r hr
    simp only [buildRaws] at hr
    rcases List.mem_cons.mp hr with heq | hr2
    · rw [heq]
      exact ⟨e, List.mem_cons_self _ _, rfl, rfl, rfl, rfl, rfl⟩
    · obtain ⟨f, hf, hfs⟩ := ih (appendLengthString acc e.path) r hr2
      exact ⟨f, List.mem_cons_of_mem _ hf, hfs⟩

theorem buildRaws_nameIndex_le : ∀ (files : List FileEntry) (acc : Bytes),
    ∀ r ∈ (buildRaws files acc).1,
      r.nameIndex ≤ (buildRaws files acc).2.length := by
  intro files
  induction files with
  | nil =>
    intro acc r hr
    cases hr
  | cons e rest ih =>
    intro acc r hr
    simp only [buildRaws] at hr ⊢
    rcases List.mem_cons.mp hr with heq | hr2
    · rw [heq]
      rw [buildRaws_blob rest (appendLengthString acc e.path)]
      simp only [appendLengthString, List.length_append]
      omega
    · exact ih (appendLengthString acc e.path) r hr2

theorem readDirDb_roundTrip (files : List FileEntry)
    (hb : ∀ f ∈ files, f.size < 2 ^ 64 ∧ f.hash.lo < 2 ^ 64 ∧
      f.hash.hi < 2 ^ 64 ∧ f.inode < 2 ^ 64 ∧ f.date < 2 ^ 64 ∧
      f.numLinks < 2 ^ 64 ∧ f.path.length < 2 ^ 64)
    (hcnt : files.length < 2 ^ 64)
    (hblob : (buildRaws files []).2.length < 2 ^ 64) :
    readDirDbBytes (serializeDirDb files) = Except.ok files := by
  unfold serializeDirDb
  have h1 : ∀ t ∈ buildTocAux files 0 none, t.1 < 2 ^ 64 ∧ t.2 < 2 ^ 64 := by
    intro t ht
    obtain ⟨⟨f, hf, hts⟩, hidx⟩ := buildTocAux_bounds files 0 none t ht
    constructor
    · rw [hts]
      exact (hb f hf).1
    · omega
  have h2 : ∀ r ∈ (buildRaws files []).1, r.nameIndex < 2 ^ 64 ∧
      r.hashLo < 2 ^ 64 ∧ r.hashHi < 2 ^ 64 ∧ r.inode < 2 ^ 64 ∧
      r.date < 2 ^ 64 ∧ r.numLinks < 2 ^ 64 := by
    intro r hr
    have hni := buildRaws_nameIndex_le files [] r hr
    obtain ⟨f, hf, e1, e2, e3, e4, e5⟩ := buildRaws_fields files [] r hr
    have hbf := hb f hf
    refine ⟨by omega, ?_, ?_, ?_, ?_, ?_⟩
    · rw [e1]
      exact hbf.2.1
    · rw [e2]
      exact hbf.2.2.1
    · rw [e3]
      exact hbf.2.2.2.1
    · rw [e4]
      exact hbf.2.2.2.2.1
    · rw [e5]
      exact hbf.2.2.2.2.2.1
  have h3 : (buildTocAux files 0 none).length < 2 ^ 64 := by
    have := buildTocAux_length_le files 0 none
    omega
  have h4 : (buildRaws files []).1.length < 2 ^ 64 := by
    rw [buildRaws_length]
    exact hcnt
  rw [readDirDbBytes_serializeRaw _ _ _ _ _ h1 h2 h3 h4 hblob
    (by norm_num) (by norm_num)]
  exact postValidate_build files (fun f hf => (hb f hf).2.2.2.2.2.2)

theorem version_reject (data : Bytes) (v : Nat)
    (hv : readU64 data 8 = Except.ok v) (hne : v ≠ 1) :
    ∃ e, readDirDbBytes data = Except.error e := by
  cases hR0 : readU64 data 0 with
  | error e => exact ⟨e, by simp [readDirDbBytes, hR0]⟩
  | ok tag1 =>
    by_cases h1 : tag1 = tagDirDb
    · subst h1
      exact ⟨"Unsupported .dirdb version", by simp [readDirDbBytes, hR0, hv, hne]⟩
    · exact ⟨"Invalid .dirdb tag", by simp [readDirDbBytes, hR0, h1]⟩

theorem tocEntrySize_reject (data : Bytes) (t : Nat)
    (ht : readU64 data 32 = Except.ok t) (hlt : t < 16) :
    ∃ e, readDirDbBytes data = Except.error e := by
  cases hR0 : readU64 data 0 with
  | error e => exact ⟨e, by simp [readDirDbBytes, hR0]⟩
  | ok tag1 =>
    by_cases h1 : tag1 = tagDirDb
    · subst h1
      cases hR1 : readU64 data 8 with
      | error e => exact ⟨e, by simp [readDirDbBytes, hR0, hR1]⟩
      | ok v =>
        by_cases hv : v = 1
        · subst hv
          cases hR2 : readU64 data 16 with
          | error e => exact ⟨e, by simp [readDirDbBytes, hR0, hR1, hR2]⟩
          | ok tag2 =>
            by_cases h2 : tag2 = tagToc
            · subst h2
              cases hR3 : readU64 data 24 with
              | error e =>
                exact ⟨e, by simp [readDirDbBytes, phaseToc, hR0, hR1, hR2, hR3]⟩
              | ok cnt =>
                exact ⟨"Unsupported TOC entry size", by
                  simp [readDirDbBytes, phaseToc, hR0, hR1, hR2, hR3, ht, hlt]⟩
            · exact ⟨"Missing TOC tag", by simp [readDirDbBytes, hR0, hR1, hR2, h2]⟩
        · exact ⟨"Unsupported .dirdb version", by simp [readDirDbBytes, hR0, hR1, hv]⟩
    · exact ⟨"Invalid .dirdb tag", by simp [readDirDbBytes, hR0, h1]⟩

theorem fileEntrySize_reject (data : Bytes) (tocs : List (Nat × Nat))
    (posT f : Nat) (hf : readU64 data (posT + 16) = Except.ok f)
    (hlt : f < 48) : ∃ e, phaseFiles data tocs posT = Except.error e := by
  cases hR0 : readU64 data posT with
  | error e => exact ⟨e, by simp [phaseFiles, hR0]⟩
  | ok tag3 =>
    by_cases h3 : tag3 = tagFiles
    · subst h3
      cases hR1 : readU64 data (posT + 8) with
      | error e => exact ⟨e, by simp [phaseFiles, hR0, hR1]⟩
      | ok cnt => exact ⟨"Unsupported file entry size", by simp [phaseFiles, hR0, hR1, hf, hlt]⟩
    · exact ⟨"Missing FILES tag", by simp [phaseFiles, hR0, h3]⟩

theorem nameIndex_reject (strings : Bytes) :
    ∀ pairs : List (RawFileEntry × Nat),
    (∃ p ∈ pairs, strings.length ≤ (Prod.fst p).nameIndex) →
    ∃ e, buildEntries strings pairs = Except.error e := by
  intro pairs
  induction pairs with
  | nil =>
    intro h
    obtain ⟨p, hp, _⟩ := h
    cases hp
  | cons q rest ih =>
    obtain ⟨raw, sz⟩ := q
    intro h
    by_cases hq : strings.length ≤ raw.nameIndex
    · exact ⟨"Invalid name index in .dirdb", by simp [buildEntries, hq]⟩
    · obtain ⟨p, hp, hple⟩ := h
      rcases List.mem_cons.mp hp with rfl | hprest
      · exact absurd hple hq
      · obtain ⟨e, he⟩ := ih ⟨p, hprest, hple⟩
        cases hrs : readLengthStringAt strings raw.nameIndex with
        | error e2 => exact ⟨e2, by simp [buildEntries, hrs, hq]⟩
        | ok path => exact ⟨e, by simp [buildEntries, hrs, hq, he]⟩

theorem padding_skip (tocs : List (Nat × Nat)) (raws : List RawFileEntry)
    (strings : Bytes) (tocPad filePad : Bytes)
    (htoc : ∀ t ∈ tocs, t.1 < 2 ^ 64 ∧ t.2 < 2 ^ 64)
    (hraw : ∀ r ∈ raws, r.nameIndex < 2 ^ 64 ∧ r.hashLo < 2 ^ 64 ∧
      r.hashHi < 2 ^ 64 ∧ r.inode < 2 ^ 64 ∧ r.date < 2 ^ 64 ∧
      r.numLinks < 2 ^ 64)
    (htc : tocs.length < 2 ^ 64) (hrc : raws.length < 2 ^ 64)
    (hsl : strings.length < 2 ^ 64)
    (hts : 16 + tocPad.length < 2 ^ 64) (hfs : 48 + filePad.length < 2 ^ 64) :
    readDirDbBytes (serializeRaw tocs raws strings tocPad filePad) =
      readDirDbBytes (serializeRaw tocs raws strings [] []) := by
  rw [readDirDbBytes_serializeRaw tocs raws strings tocPad filePad htoc hraw
    htc hrc hsl hts hfs,
    readDirDbBytes_serializeRaw tocs raws strings [] [] htoc hraw
    htc hrc hsl (by decide) (by decide)]

theorem tocRegion_length (tocPad : Bytes) : ∀ tocs : List (Nat × Nat),
    (tocRegion tocPad tocs).length = tocs.length * (16 + tocPad.length) := by
  intro tocs
  induction tocs with
  | nil => simp [tocRegion]
  | cons t rest ih =>
    rw [tocRegion_cons]
    simp only [List.length_append, appendU64Le_length, List.length_cons, ih,
      Nat.succ_mul]
    omega

theorem fileRegion_length (filePad : Bytes) : ∀ raws : List RawFileEntry,
    (fileRegion filePad raws).length = raws.length * (48 + filePad.length) := by
  intro raws
  induction raws with
  | nil => simp [fileRegion]
  | cons r rest ih =>
    rw [fileRegion_cons]
    simp only [List.length_append, appendU64Le_length, List.length_cons, ih,
      Nat.succ_mul]
    omega

theorem readTocEntries_trunc : ∀ (n : Nat) (data : Bytes) (tes pos : Nat),
    16 ≤ tes → 0 < n → data.length < pos + n * tes →
    ∃ e, readTocEntries data tes n pos = Except.error e := by
  intro n
  induction n with
  | zero =>
    intro data tes pos h16 h0 hlen
    omega
  | succ m ih =>
    intro data tes pos h16 h0 hlen
    cases hR1 : readU64 data pos with
    | error e => exact ⟨e, by simp [readTocEntries, hR1]⟩
    | ok sz =>
      cases hR2 : readU64 data (pos + 8) with
      | error e => exact ⟨e, by simp [readTocEntries, hR1, hR2]⟩
      | ok fi =>
        by_cases hb : pos + tes > data.length
        · exact ⟨"Unexpected end of TOC in .dirdb", by simp [readTocEntries, hR1, hR2, hb]⟩
        · have hm : 0 < m := by
            rcases Nat.eq_zero_or_pos m with hm0 | hm0
            · subst hm0
              have h1 : (0 + 1) * tes = tes := by ring
              omega
            · exact hm0
          obtain ⟨e, he⟩ := ih data tes (pos + tes) h16 hm (by
            have h1 : (m + 1) * tes = tes + m * tes := by ring
            omega)
          exact ⟨e, by simp [readTocEntries, hR1, hR2, hb, he]⟩

theorem readFileEntries_trunc : ∀ (n : Nat) (data : Bytes) (fes pos : Nat),
    48 ≤ fes → 0 < n → data.length < pos + n * fes →
    ∃ e, readFileEntries data fes n pos = Except.error e := by
  intro n
  induction n with
  | zero =>
    intro data fes pos h48 h0 hlen
    omega
  | succ m ih =>
    intro data fes pos h48 h0 hlen
    cases hR1 : readU64 data pos with
    | error e => exact ⟨e, by simp [readFileEntries, hR1]⟩
    | ok v1 =>
      cases hR2 : readU64 data (pos + 8) with
      | error e => exact ⟨e, by simp [readFileEntries, hR1, hR2]⟩
      | ok v2 =>
        cases hR3 : readU64 data (pos + 16) with
        | error e => exact ⟨e, by simp [readFileEntries, hR1, hR2, hR3]⟩
        | ok v3 =>
          cases hR4 : readU64 data (pos + 24) with
          | error e => exact ⟨e, by simp [readFileEntries, hR1, hR2, hR3, hR4]⟩
          | ok v4 =>
            cases hR5 : readU64 data (pos + 32) with
            | error e =>
              exact ⟨e, by simp [readFileEntries, hR1, hR2, hR3, hR4, hR5]⟩
            | ok v5 =>
              cases hR6 : readU64 data (pos + 40) with
              | error e =>
                exact ⟨e, by
                  simp [readFileEntries, hR1, hR2, hR3, hR4, hR5, hR6]⟩
              | ok v6 =>
                by_cases hb : pos + fes > data.length
                · exact ⟨"Unexpected end of file entries in .dirdb", by
                    simp [readFileEntries, hR1, hR2, hR3, hR4, hR5, hR6, hb]⟩
                · have hm : 0 < m := by
                    rcases Nat.eq_zero_or_pos m with hm0 | hm0
                    · subst hm0
                      have h1 : (0 + 1) * fes = fes := by ring
                      omega
                    · exact hm0
                  obtain ⟨e, he⟩ := ih data fes (pos + fes) h48 hm (by
                    have h1 : (m + 1) * fes = fes + m * fes := by ring
                    omega)
                  exact ⟨e, by
                    simp [readFileEntries, hR1, hR2, hR3, hR4, hR5, hR6, hb,
                      he]⟩

theorem readTocEntries_take : ∀ (cnt : Nat) (data : Bytes) (n tes pos : Nat),
    16 ≤ tes → pos + cnt * tes ≤ n → n ≤ data.length →
    readTocEntries (data.take n) tes cnt pos =
      readTocEntries data tes cnt pos := by
  intro cnt
  induction cnt with
  | zero =>
    intro data n tes pos h16 hb hnd
    simp [readTocEntries]
  | succ m ih =>
    intro data n tes pos h16 hb hnd
    have hmul : (m + 1) * tes = tes + m * tes := by ring
    have h8 : pos + 8 ≤ n := by omega
    have h16n : pos + 16 ≤ n := by omega
    simp only [readTocEntries, readU64_take_eq data n pos h8,
      readU64_take_eq data n (pos + 8) h16n]
    cases hR1 : readU64 data pos with
    | error e => rfl
    | ok sz =>
      cases hR2 : readU64 data (pos + 8) with
      | error e => rfl
      | ok fi =>
        dsimp only
        have hc1 : ¬ (pos + tes > (data.take n).length) := by
          rw [List.length_take]
          omega
        have hc2 : ¬ (pos + tes > data.length) := by omega
        rw [if_neg hc1, if_neg hc2,
          ih data n tes (pos + tes) h16 (by omega) hnd]

theorem readFileEntries_take : ∀ (cnt : Nat) (data : Bytes) (n fes pos : Nat),
    48 ≤ fes → pos + cnt * fes ≤ n → n ≤ data.length →
    readFileEntries (data.take n) fes cnt pos =
      readFileEntries data fes cnt pos := by
  intro cnt
  induction cnt with
  | zero =>
    intro data n fes pos h48 hb hnd
    simp [readFileEntries]
  | succ m ih =>
    intro data n fes pos h48 hb hnd
    have hmul : (m + 1) * fes = fes + m * fes := by ring
    have h8 : pos + 8 ≤ n := by omega
    have h16n : pos + 8 + 8 ≤ n := by omega
    have h24 : pos + 16 + 8 ≤ n := by omega
    have h32 : pos + 24 + 8 ≤ n := by omega
    have h40 : pos + 32 + 8 ≤ n := by omega
    have h48n : pos + 40 + 8 ≤ n := by omega
    simp only [readFileEntries, readU64_take_eq data n pos h8,
      readU64_take_eq data n (pos + 8) h16n,
      readU64_take_eq data n (pos + 16) h24,
      readU64_take_eq data n (pos + 24) h32,
      readU64_take_eq data n (pos + 32) h40,
      readU64_take_eq data n (pos + 40) h48n]
    cases hR1 : readU64 data pos with
    | error e => rfl
    | ok v1 =>
      cases hR2 : readU64 data (pos + 8) with
      | error e => rfl
      | ok v2 =>
        cases hR3 : readU64 data (pos + 16) with
        | error e => rfl
        | ok v3 =>
          cases hR4 : readU64 data (pos + 24) with
          | error e => rfl
          | ok v4 =>
            cases hR5 : readU64 data (pos + 32) with
            | error e => rfl
            | ok v5 =>
              cases hR6 : readU64 data (pos + 40) with
              | error e => rfl
              | ok v6 =>
                dsimp only
                have hc1 : ¬ (pos + fes > (data.take n).length) := by
                  rw [List.length_take]
                  omega
                have hc2 : ¬ (pos + fes > data.length) := by omega
                rw [if_neg hc1, if_neg hc2,
                  ih data n fes (pos + fes) h48 (by omega) hnd]

theorem splitChain24 (s1 s2 s3 s4 s5 s6 s7 s8 s9 s10 s11 s12 s13 : Bytes) :
    s1 ++ s2 ++ s3 ++ s4 ++ s5 ++ s6 ++ s7 ++ s8 ++ s9 ++ s10 ++ s11 ++ s12 ++
      s13 =
    (s1 ++ s2 ++ s3) ++ (s4 ++ (s5 ++ s6 ++ s7 ++ s8 ++ s9 ++ s10 ++ s11 ++
      s12 ++ s13)) := by
  simp only [List.append_assoc]

theorem splitChain32 (s1 s2 s3 s4 s5 s6 s7 s8 s9 s10 s11 s12 s13 : Bytes) :
    s1 ++ s2 ++ s3 ++ s4 ++ s5 ++ s6 ++ s7 ++ s8 ++ s9 ++ s10 ++ s11 ++ s12 ++
      s13 =
    (s1 ++ s2 ++ s3 ++ s4) ++ (s5 ++ (s6 ++ s7 ++ s8 ++ s9 ++ s10 ++ s11 ++
      s12 ++ s13)) := by
  simp only [List.append_assoc]

theorem splitChainTOC (s1 s2 s3 s4 s5 s6 s7 s8 s9 s10 s11 s12 s13 : Bytes) :
    s1 ++ s2 ++ s3 ++ s4 ++ s5 ++ s6 ++ s7 ++ s8 ++ s9 ++ s10 ++ s11 ++ s12 ++
      s13 =
    (s1 ++ s2 ++ s3 ++ s4 ++ s5) ++ (s6 ++ (s7 ++ s8 ++ s9 ++ s10 ++ s11 ++
      s12 ++ s13)) := by
  simp only [List.append_assoc]

theorem splitChainT0 (s1 s2 s3 s4 s5 s6 s7 s8 s9 s10 s11 s12 s13 : Bytes) :
    s1 ++ s2 ++ s3 ++ s4 ++ s5 ++ s6 ++ s7 ++ s8 ++ s9 ++ s10 ++ s11 ++ s12 ++
      s13 =
    (s1 ++ s2 ++ s3 ++ s4 ++ s5 ++ s6) ++ (s7 ++ (s8 ++ s9 ++ s10 ++ s11 ++
      s12 ++ s13)) := by
  simp only [List.append_assoc]

theorem splitChainT8 (s1 s2 s3 s4 s5 s6 s7 s8 s9 s10 s11 s12 s13 : Bytes) :
    s1 ++ s2 ++ s3 ++ s4 ++ s5 ++ s6 ++ s7 ++ s8 ++ s9 ++ s10 ++ s11 ++ s12 ++
      s13 =
    (s1 ++ s2 ++ s3 ++ s4 ++ s5 ++ s6 ++ s7) ++ (s8 ++ (s9 ++ s10 ++ s11 ++
      s12 ++ s13)) := by
  simp only [List.append_assoc]

theorem splitChainT16 (s1 s2 s3 s4 s5 s6 s7 s8 s9 s10 s11 s12 s13 : Bytes) :
    s1 ++ s2 ++ s3 ++ s4 ++ s5 ++ s6 ++ s7 ++ s8 ++ s9 ++ s10 ++ s11 ++ s12 ++
      s13 =
    (s1 ++ s2 ++ s3 ++ s4 ++ s5 ++ s6 ++ s7 ++ s8) ++ (s9 ++ (s10 ++ s11 ++
      s12 ++ s13)) := by
  simp only [List.append_assoc]

theorem splitChainFIL (s1 s2 s3 s4 s5 s6 s7 s8 s9 s10 s11 s12 s13 : Bytes) :
    s1 ++ s2 ++ s3 ++ s4 ++ s5 ++ s6 ++ s7 ++ s8 ++ s9 ++ s10 ++ s11 ++ s12 ++
      s13 =
    (s1 ++ s2 ++ s3 ++ s4 ++ s5 ++ s6 ++ s7 ++ s8 ++ s9) ++ (s10 ++ (s11 ++
      s12 ++ s13)) := by
  simp only [List.append_assoc]

theorem splitChainF0 (s1 s2 s3 s4 s5 s6 s7 s8 s9 s10 s11 s12 s13 : Bytes) :
    s1 ++ s2 ++ s3 ++ s4 ++ s5 ++ s6 ++ s7 ++ s8 ++ s9 ++ s10 ++ s11 ++ s12 ++
      s13 =
    (s1 ++ s2 ++ s3 ++ s4 ++ s5 ++ s6 ++ s7 ++ s8 ++ s9 ++ s10) ++ (s11 ++
      (s12 ++ s13)) := by
  simp only [List.append_assoc]

theorem splitChainF8 (s1 s2 s3 s4 s5 s6 s7 s8 s9 s10 s11 s12 s13 : Bytes) :
    s1 ++ s2 ++ s3 ++ s4 ++ s5 ++ s6 ++ s7 ++ s8 ++ s9 ++ s10 ++ s11 ++ s12 ++
      s13 =
    (s1 ++ s2 ++ s3 ++ s4 ++ s5 ++ s6 ++ s7 ++ s8 ++ s9 ++ s10 ++ s11) ++
      (s12 ++ s13) := by
  simp only [List.append_assoc]

theorem readDirDbBytes_trunc (files : List FileEntry) (n : Nat)
    (hb : ∀ f ∈ files, f.size < 2 ^ 64 ∧ f.hash.lo < 2 ^ 64 ∧
      f.hash.hi < 2 ^ 64 ∧ f.inode < 2 ^ 64 ∧ f.date < 2 ^ 64 ∧
      f.numLinks < 2 ^ 64 ∧ f.path.length < 2 ^ 64)
    (hcnt : files.length < 2 ^ 64)
    (hblob : (buildRaws files []).2.length < 2 ^ 64)
    (hn : n < (serializeDirDb files).length) :
    ∃ e, readDirDbBytes ((serializeDirDb files).take n) = Except.error e := by
  have hTagD : tagDirDb < 2 ^ 64 := by decide
  have hTagT : tagToc < 2 ^ 64 := by decide
  have hTagF : tagFiles < 2 ^ 64 := by decide
  obtain ⟨tocs, raws, strings, htocsDef, hrawsDef, hstringsDef⟩ :
      ∃ tocs raws strings, tocs = buildTocAux files 0 none ∧
        raws = (buildRaws files []).1 ∧ strings = (buildRaws files []).2 :=
    ⟨_, _, _, rfl, rfl, rfl⟩
  have hsplit : serializeDirDb files = appendU64Le tagDirDb ++ appendU64Le 1 ++
      appendU64Le tagToc ++ appendU64Le tocs.length ++ appendU64Le 16 ++
      tocRegion [] tocs ++ appendU64Le tagFiles ++ appendU64Le raws.length ++
      appendU64Le 48 ++ fileRegion [] raws ++ appendU64Le tagStrings ++
      appendU64Le strings.length ++ strings := by
    rw [htocsDef, hrawsDef, hstringsDef]
    rfl
  have hrl : raws.length = files.length := by
    rw [hrawsDef]
    exact buildRaws_length files []
  have htcle : tocs.length ≤ files.length := by
    rw [htocsDef]
    exact buildTocAux_length_le files 0 none
  have htc : tocs.length < 2 ^ 64 := by omega
  have hrc : raws.length < 2 ^ 64 := by omega
  have hsl : strings.length < 2 ^ 64 := by
    rw [hstringsDef]
    exact hblob
  have htoc : ∀ t ∈ tocs, t.1 < 2 ^ 64 ∧ t.2 < 2 ^ 64 := by
    intro t ht
    rw [htocsDef] at ht
    obtain ⟨⟨f, hf, hts⟩, hidx⟩ := buildTocAux_bounds files 0 none t ht
    refine ⟨?_, by omega⟩
    rw [hts]
    exact (hb f hf).1
  have hraw : ∀ r ∈ raws, r.nameIndex < 2 ^ 64 ∧ r.hashLo < 2 ^ 64 ∧
      r.hashHi < 2 ^ 64 ∧ r.inode < 2 ^ 64 ∧ r.date < 2 ^ 64 ∧
      r.numLinks < 2 ^ 64 := by
    intro r hr
    rw [hrawsDef] at hr
    have hni := buildRaws_nameIndex_le files [] r hr
    obtain ⟨f, hf, e1, e2, e3, e4, e5⟩ := buildRaws_fields files [] r hr
    have hbf := hb f hf
    refine ⟨by omega, ?_, ?_, ?_, ?_, ?_⟩
    · rw [e1]
      exact hbf.2.1
    · rw [e2]
      exact hbf.2.2.1
    · rw [e3]
      exact hbf.2.2.2.1
    · rw [e4]
      exact hbf.2.2.2.2.1
    · rw [e5]
      exact hbf.2.2.2.2.2.1
  have hLT : (tocRegion [] tocs).length = tocs.length * 16 := by
    rw [tocRegion_length]
    simp
  have hLR : (fileRegion [] raws).length = raws.length * 48 := by
    rw [fileRegion_length]
    simp
  have htotal : (serializeDirDb files).length =
      40 + tocs.length * 16 + 24 + raws.length * 48 + 16 + strings.length := by
    rw [hsplit]
    simp only [List.length_append, appendU64Le_length, hLT, hLR]
    try omega
  have htakelen : ((serializeDirDb files).take n).length = n := by
    rw [List.length_take]
    omega
  have h0 : readU64 (serializeDirDb files) 0 = Except.ok tagDirDb := by
    rw [readU64_at [] (appendU64Le 1 ++ appendU64Le tagToc ++
      appendU64Le tocs.length ++ appendU64Le 16 ++ tocRegion [] tocs ++
      appendU64Le tagFiles ++ appendU64Le raws.length ++ appendU64Le 48 ++
      fileRegion [] raws ++ appendU64Le tagStrings ++
      appendU64Le strings.length ++ strings) tagDirDb 0
      (by rw [hsplit]; exact splitChain13a _ _ _ _ _ _ _ _ _ _ _ _ _) rfl,
      Nat.mod_eq_of_lt hTagD]
  have h1 : readU64 (serializeDirDb files) 8 = Except.ok 1 := by
    rw [readU64_at (appendU64Le tagDirDb) (appendU64Le tagToc ++
      appendU64Le tocs.length ++ appendU64Le 16 ++ tocRegion [] tocs ++
      appendU64Le tagFiles ++ appendU64Le raws.length ++ appendU64Le 48 ++
      fileRegion [] raws ++ appendU64Le tagStrings ++
      appendU64Le strings.length ++ strings) 1 8
      (by rw [hsplit]; exact splitChain13b _ _ _ _ _ _ _ _ _ _ _ _ _)
      (by simp only [appendU64Le_length]),
      Nat.mod_eq_of_lt (show (1 : Nat) < 2 ^ 64 by norm_num)]
  have h2 : readU64 (serializeDirDb files) 16 = Except.ok tagToc := by
    rw [readU64_at (appendU64Le tagDirDb ++ appendU64Le 1)
      (appendU64Le tocs.length ++ appendU64Le 16 ++ tocRegion [] tocs ++
      appendU64Le tagFiles ++ appendU64Le raws.length ++ appendU64Le 48 ++
      fileRegion [] raws ++ appendU64Le tagStrings ++
      appendU64Le strings.length ++ strings) tagToc 16
      (by rw [hsplit]; exact splitChain13c _ _ _ _ _ _ _ _ _ _ _ _ _)
      (by simp only [List.length_append, appendU64Le_length]),
      Nat.mod_eq_of_lt hTagT]
  have h3 : readU64 (serializeDirDb files) 24 = Except.ok tocs.length := by
    rw [readU64_at (appendU64Le tagDirDb ++ appendU64Le 1 ++ appendU64Le tagToc)
      (appendU64Le 16 ++ tocRegion [] tocs ++
      appendU64Le tagFiles ++ appendU64Le raws.length ++ appendU64Le 48 ++
      fileRegion [] raws ++ appendU64Le tagStrings ++
      appendU64Le strings.length ++ strings) tocs.length 24
      (by rw [hsplit]; exact splitChain24 _ _ _ _ _ _ _ _ _ _ _ _ _)
      (by simp only [List.length_append, appendU64Le_length]),
      Nat.mod_eq_of_lt htc]
  have h4 : readU64 (serializeDirDb files) 32 = Except.ok 16 := by
    rw [readU64_at (appendU64Le tagDirDb ++ appendU64Le 1 ++
      appendU64Le tagToc ++ appendU64Le tocs.length)
      (tocRegion [] tocs ++
      appendU64Le tagFiles ++ appendU64Le raws.length ++ appendU64Le 48 ++
      fileRegion [] raws ++ appendU64Le tagStrings ++
      appendU64Le strings.length ++ strings) 16 32
      (by rw [hsplit]; exact splitChain32 _ _ _ _ _ _ _ _ _ _ _ _ _)
      (by simp only [List.length_append, appendU64Le_length]),
      Nat.mod_eq_of_lt (show (16 : Nat) < 2 ^ 64 by norm_num)]
  have hT : readTocEntries (serializeDirDb files) 16 tocs.length 40 =
      Except.ok (tocs, 40 + tocs.length * 16) := by
    have h := readTocEntries_at [] tocs (serializeDirDb files)
      (appendU64Le tagDirDb ++ appendU64Le 1 ++ appendU64Le tagToc ++
        appendU64Le tocs.length ++ appendU64Le 16)
      (appendU64Le tagFiles ++ appendU64Le raws.length ++ appendU64Le 48 ++
        fileRegion [] raws ++ appendU64Le tagStrings ++
        appendU64Le strings.length ++ strings) 40
      (by rw [hsplit]; exact splitChainTOC _ _ _ _ _ _ _ _ _ _ _ _ _)
      (by simp only [List.length_append, appendU64Le_length])
      htoc
    simp only [List.length_nil, Nat.add_zero, hLT] at h
    exact h
  have h5 : readU64 (serializeDirDb files) (40 + tocs.length * 16) =
      Except.ok tagFiles := by
    rw [readU64_at (appendU64Le tagDirDb ++ appendU64Le 1 ++
      appendU64Le tagToc ++ appendU64Le tocs.length ++ appendU64Le 16 ++
      tocRegion [] tocs)
      (appendU64Le raws.length ++ appendU64Le 48 ++
      fileRegion [] raws ++ appendU64Le tagStrings ++
      appendU64Le strings.length ++ strings) tagFiles (40 + tocs.length * 16)
      (by rw [hsplit]; exact splitChainT0 _ _ _ _ _ _ _ _ _ _ _ _ _)
      (by simp only [List.length_append, appendU64Le_length, hLT]; try omega),
      Nat.mod_eq_of_lt hTagF]
  have h6 : readU64 (serializeDirDb files) (40 + tocs.length * 16 + 8) =
      Except.ok raws.length := by
    rw [readU64_at (appendU64Le tagDirDb ++ appendU64Le 1 ++
      appendU64Le tagToc ++ appendU64Le tocs.length ++ appendU64Le 16 ++
      tocRegion [] tocs ++ appendU64Le tagFiles)
      (appendU64Le 48 ++
      fileRegion [] raws ++ appendU64Le tagStrings ++
      appendU64Le strings.length ++ strings) raws.length
      (40 + tocs.length * 16 + 8)
      (by rw [hsplit]; exact splitChainT8 _ _ _ _ _ _ _ _ _ _ _ _ _)
      (by simp only [List.length_append, appendU64Le_length, hLT]; try omega),
      Nat.mod_eq_of_lt hrc]
  have h7 : readU64 (serializeDirDb files) (40 + tocs.length * 16 + 16) =
      Except.ok 48 := by
    rw [readU64_at (appendU64Le tagDirDb ++ appendU64Le 1 ++
      appendU64Le tagToc ++ appendU64Le tocs.length ++ appendU64Le 16 ++
      tocRegion [] tocs ++ appendU64Le tagFiles ++ appendU64Le raws.length)
      (fileRegion [] raws ++ appendU64Le tagStrings ++
      appendU64Le strings.length ++ strings) 48
      (40 + tocs.length * 16 + 16)
      (by rw [hsplit]; exact splitChainT16 _ _ _ _ _ _ _ _ _ _ _ _ _)
      (by simp only [List.length_append, appendU64Le_length, hLT]; try omega),
      Nat.mod_eq_of_lt (show (48 : Nat) < 2 ^ 64 by norm_num)]
  have hF : readFileEntries (serializeDirDb files) 48 raws.length
      (40 + tocs.length * 16 + 24) =
      Except.ok (raws, 40 + tocs.length * 16 + 24 + raws.length * 48) := by
    have h := readFileEntries_at [] raws (serializeDirDb files)
      (appendU64Le tagDirDb ++ appendU64Le 1 ++ appendU64Le tagToc ++
        appendU64Le tocs.length ++ appendU64Le 16 ++ tocRegion [] tocs ++
        appendU64Le tagFiles ++ appendU64Le raws.length ++ appendU64Le 48)
      (appendU64Le tagStrings ++ appendU64Le strings.length ++ strings)
      (40 + tocs.length * 16 + 24)
      (by rw [hsplit]; exact splitChainFIL _ _ _ _ _ _ _ _ _ _ _ _ _)
      (by simp only [List.length_append, appendU64Le_length, hLT]; try omega)
      hraw
    simp only [List.length_nil, Nat.add_zero, hLR] at h
    exact h
  have h8 : readU64 (serializeDirDb files)
      (40 + tocs.length * 16 + 24 + raws.length * 48) =
      Except.ok tagStrings := by
    have hTagS : tagStrings < 2 ^ 64 := by decide
    rw [readU64_at (appendU64Le tagDirDb ++ appendU64Le 1 ++
      appendU64Le tagToc ++ appendU64Le tocs.length ++ appendU64Le 16 ++
      tocRegion [] tocs ++ appendU64Le tagFiles ++ appendU64Le raws.length ++
      appendU64Le 48 ++ fileRegion [] raws)
      (appendU64Le strings.length ++ strings) tagStrings
      (40 + tocs.length * 16 + 24 + raws.length * 48)
      (by rw [hsplit]; exact splitChainF0 _ _ _ _ _ _ _ _ _ _ _ _ _)
      (by simp only [List.length_append, appendU64Le_length, hLT, hLR]; try omega),
      Nat.mod_eq_of_lt hTagS]
  have h9 : readU64 (serializeDirDb files)
      (40 + tocs.length * 16 + 24 + raws.length * 48 + 8) =
      Except.ok strings.length := by
    rw [readU64_at (appendU64Le tagDirDb ++ appendU64Le 1 ++
      appendU64Le tagToc ++ appendU64Le tocs.length ++ appendU64Le 16 ++
      tocRegion [] tocs ++ appendU64Le tagFiles ++ appendU64Le raws.length ++
      appendU64Le 48 ++ fileRegion [] raws ++ appendU64Le tagStrings)
      strings strings.length
      (40 + tocs.length * 16 + 24 + raws.length * 48 + 8)
      (by rw [hsplit]; exact splitChainF8 _ _ _ _ _ _ _ _ _ _ _ _ _)
      (by simp only [List.length_append, appendU64Le_length, hLT, hLR]; try omega),
      Nat.mod_eq_of_lt hsl]
  have htk : ∀ p v, p + 8 ≤ n →
      readU64 (serializeDirDb files) p = Except.ok v →
      readU64 ((serializeDirDb files).take n) p = Except.ok v := by
    intro p v hp hfull
    rw [readU64_take_eq _ n p hp]
    exact hfull
  rcases Nat.lt_or_ge n 8 with hA | hA
  · exact ⟨"Unexpected end of .dirdb", by
      simp [readDirDbBytes,
        readU64_take_short (serializeDirDb files) n 0 (by omega)]⟩
  rcases Nat.lt_or_ge n 16 with hB | hB
  · exact ⟨"Unexpected end of .dirdb", by
      simp [readDirDbBytes, htk 0 _ (by omega) h0,
        readU64_take_short (serializeDirDb files) n 8 (by omega)]⟩
  rcases Nat.lt_or_ge n 24 with hC | hC
  · exact ⟨"Unexpected end of .dirdb", by
      simp [readDirDbBytes, htk 0 _ (by omega) h0, htk 8 _ (by omega) h1,
        readU64_take_short (serializeDirDb files) n 16 (by omega)]⟩
  rcases Nat.lt_or_ge n 32 with hD | hD
  · exact ⟨"Unexpected end of .dirdb", by
      simp [readDirDbBytes, phaseToc, htk 0 _ (by omega) h0,
        htk 8 _ (by omega) h1, htk 16 _ (by omega) h2,
        readU64_take_short (serializeDirDb files) n 24 (by omega)]⟩
  rcases Nat.lt_or_ge n 40 with hE | hE
  · exact ⟨"Unexpected end of .dirdb", by
      simp [readDirDbBytes, phaseToc, htk 0 _ (by omega) h0,
        htk 8 _ (by omega) h1, htk 16 _ (by omega) h2, htk 24 _ (by omega) h3,
        readU64_take_short (serializeDirDb files) n 32 (by omega)]⟩
  rcases Nat.lt_or_ge n (40 + tocs.length * 16) with hTr | hTr
  · have hTpos : 0 < tocs.length := by
      rcases Nat.eq_zero_or_pos tocs.length with h | h
      · rw [h] at hTr
        simp at hTr
        omega
      · exact h
    obtain ⟨e, he⟩ := readTocEntries_trunc tocs.length
      ((serializeDirDb files).take n) 16 40 (by omega) hTpos
      (by rw [htakelen]; omega)
    exact ⟨e, by
      simp [readDirDbBytes, phaseToc, htk 0 _ (by omega) h0,
        htk 8 _ (by omega) h1, htk 16 _ (by omega) h2, htk 24 _ (by omega) h3,
        htk 32 _ (by omega) h4, he]⟩
  have hTk : readTocEntries ((serializeDirDb files).take n) 16 tocs.length 40 =
      Except.ok (tocs, 40 + tocs.length * 16) := by
    rw [readTocEntries_take tocs.length (serializeDirDb files) n 16 40
      (by omega) (by omega) (by omega)]
    exact hT
  rcases Nat.lt_or_ge n (40 + tocs.length * 16 + 8) with hG | hG
  · exact ⟨"Unexpected end of .dirdb", by
      simp [readDirDbBytes, phaseToc, phaseFiles, htk 0 _ (by omega) h0,
        htk 8 _ (by omega) h1, htk 16 _ (by omega) h2, htk 24 _ (by omega) h3,
        htk 32 _ (by omega) h4, hTk,
        readU64_take_short (serializeDirDb files) n (40 + tocs.length * 16)
          (by omega)]⟩
  rcases Nat.lt_or_ge n (40 + tocs.length * 16 + 16) with hH | hH
  · exact ⟨"Unexpected end of .dirdb", by
      simp [readDirDbBytes, phaseToc, phaseFiles, htk 0 _ (by omega) h0,
        htk 8 _ (by omega) h1, htk 16 _ (by omega) h2, htk 24 _ (by omega) h3,
        htk 32 _ (by omega) h4, hTk, htk (40 + tocs.length * 16) _ (by omega) h5,
        readU64_take_short (serializeDirDb files) n (40 + tocs.length * 16 + 8)
          (by omega)]⟩
  rcases Nat.lt_or_ge n (40 + tocs.length * 16 + 24) with hI | hI
  · exact ⟨"Unexpected end of .dirdb", by
      simp [readDirDbBytes, phaseToc, phaseFiles, htk 0 _ (by omega) h0,
        htk 8 _ (by omega) h1, htk 16 _ (by omega) h2, htk 24 _ (by omega) h3,
        htk 32 _ (by omega) h4, hTk, htk (40 + tocs.length * 16) _ (by omega) h5,
        htk (40 + tocs.length * 16 + 8) _ (by omega) h6,
        readU64_take_short (serializeDirDb files) n
          (40 + tocs.length * 16 + 16) (by omega)]⟩
  rcases Nat.lt_or_ge n (40 + tocs.length * 16 + 24 + raws.length * 48)
    with hJ | hJ
  · have hRpos : 0 < raws.length := by
      rcases Nat.eq_zero_or_pos raws.length with h | h
      · rw [h] at hJ
        simp at hJ
        omega
      · exact h
    obtain ⟨e, he⟩ := readFileEntries_trunc raws.length
      ((serializeDirDb files).take n) 48 (40 + tocs.length * 16 + 24)
      (by omega) hRpos (by rw [htakelen]; omega)
    exact ⟨e, by
      simp [readDirDbBytes, phaseToc, phaseFiles, htk 0 _ (by omega) h0,
        htk 8 _ (by omega) h1, htk 16 _ (by omega) h2, htk 24 _ (by omega) h3,
        htk 32 _ (by omega) h4, hTk, htk (40 + tocs.length * 16) _ (by omega) h5,
        htk (40 + tocs.length * 16 + 8) _ (by omega) h6,
        htk (40 + tocs.length * 16 + 16) _ (by omega) h7, he]⟩
  have hFk : readFileEntries ((serializeDirDb files).take n) 48 raws.length
      (40 + tocs.length * 16 + 24) =
      Except.ok (raws, 40 + tocs.length * 16 + 24 + raws.length * 48) := by
    rw [readFileEntries_take raws.length (serializeDirDb files) n 48
      (40 + tocs.length * 16 + 24) (by omega) (by omega) (by omega)]
    exact hF
  rcases Nat.lt_or_ge n (40 + tocs.length * 16 + 24 + raws.length * 48 + 8)
    with hK | hK
  · exact ⟨"Unexpected end of .dirdb", by
      simp [readDirDbBytes, phaseToc, phaseFiles, phaseStrings,
        htk 0 _ (by omega) h0, htk 8 _ (by omega) h1, htk 16 _ (by omega) h2,
        htk 24 _ (by omega) h3, htk 32 _ (by omega) h4, hTk,
        htk (40 + tocs.length * 16) _ (by omega) h5,
        htk (40 + tocs.length * 16 + 8) _ (by omega) h6,
        htk (40 + tocs.length * 16 + 16) _ (by omega) h7, hFk,
        readU64_take_short (serializeDirDb files) n
          (40 + tocs.length * 16 + 24 + raws.length * 48) (by omega)]⟩
  rcases Nat.lt_or_ge n (40 + tocs.length * 16 + 24 + raws.length * 48 + 16)
    with hL | hL
  · exact ⟨"Unexpected end of .dirdb", by
      simp [readDirDbBytes, phaseToc, phaseFiles, phaseStrings,
        htk 0 _ (by omega) h0, htk 8 _ (by omega) h1, htk 16 _ (by omega) h2,
        htk 24 _ (by omega) h3, htk 32 _ (by omega) h4, hTk,
        htk (40 + tocs.length * 16) _ (by omega) h5,
        htk (40 + tocs.length * 16 + 8) _ (by omega) h6,
        htk (40 + tocs.length * 16 + 16) _ (by omega) h7, hFk,
        htk (40 + tocs.length * 16 + 24 + raws.length * 48) _ (by omega) h8,
        readU64_take_short (serializeDirDb files) n
          (40 + tocs.length * 16 + 24 + raws.length * 48 + 8) (by omega)]⟩
  have hgt : 40 + tocs.length * 16 + 24 + raws.length * 48 + 16 +
      strings.length > n := by omega
  exact ⟨"Invalid STRINGS size", by
    simp [readDirDbBytes, phaseToc, phaseFiles, phaseStrings,
      htk 0 _ (by omega) h0, htk 8 _ (by omega) h1, htk 16 _ (by omega) h2,
      htk 24 _ (by omega) h3, htk 32 _ (by omega) h4, hTk,
      htk (40 + tocs.length * 16) _ (by omega) h5,
      htk (40 + tocs.length * 16 + 8) _ (by omega) h6,
      htk (40 + tocs.length * 16 + 16) _ (by omega) h7, hFk,
      htk (40 + tocs.length * 16 + 24 + raws.length * 48) _ (by omega) h8,
      htk (40 + tocs.length * 16 + 24 + raws.length * 48 + 8) _ (by omega) h9,
      htakelen, hgt]⟩

/-! ## Claim theorems -/

/-- C2: getMinUniqueHashBits returns 0 when the deduplicated set of hashes
has at most one element; otherwise it returns min(128, 1 + the maximum over
all pairs of distinct hashes of the number of leading bits they share over
the 128-bit value with hi most significant), no two distinct hashes share
that many leading bits, and some pair shares exactly one fewer (so the
adjacent-pair scan of the sorted list coincides with the all-pairs
maximum). -/
theorem getMinUniqueHashBits_spec (hashes : List Hash128)
    (hbnd : ∀ h ∈ hashes, h.hi < 2 ^ 64 ∧ h.lo < 2 ^ 64) :
    ((∀ x ∈ hashes, ∀ y ∈ hashes, x = y) → getMinUniqueHashBits hashes = 0) ∧
    ((∃ x ∈ hashes, ∃ y ∈ hashes, x ≠ y) →
      getMinUniqueHashBits hashes = min 128 (1 + pairsMaxShared hashes) ∧
      (∀ x ∈ hashes, ∀ y ∈ hashes, x ≠ y →
        ¬ agreeTop (getMinUniqueHashBits hashes) x.val y.val) ∧
      (∃ x ∈ hashes, ∃ y ∈ hashes, x ≠ y ∧
        agreeTop (getMinUniqueHashBits hashes - 1) x.val y.val)) := by
  have hmem : ∀ z : Hash128, z ∈ dedupAdj (sortHashes hashes) ↔ z ∈ hashes := fun z =>
    (mem_dedupAdj).trans (sortHashes_perm hashes).mem_iff
  have hsorted : List.Pairwise hlex (dedupAdj (sortHashes hashes)) :=
    dedupAdj_sorted (sortHashes_sorted hashes)
  have hbd : ∀ h ∈ dedupAdj (sortHashes hashes), h.hi < 2 ^ 64 ∧ h.lo < 2 ^ 64 :=
    fun h hm => hbnd h ((hmem h).mp hm)
  constructor
  · intro hall
    have hdlen : (dedupAdj (sortHashes hashes)).length ≤ 1 := by
      by_contra hlen
      rcases hd : dedupAdj (sortHashes hashes) with _ | ⟨a, _ | ⟨b, r⟩⟩
      · rw [hd] at hlen
        simp at hlen
      · rw [hd] at hlen
        simp at hlen
      · rw [hd] at hsorted hmem
        have hab : hlex a b := (List.pairwise_cons.mp hsorted).1 b (by simp)
        exact hlex_ne hab (hall a ((hmem a).mp (by simp)) b ((hmem b).mp (by simp)))
    rw [getMinUniqueHashBits_eq]
    by_cases h1 : hashes.length ≤ 1
    · rw [if_pos h1]
    · rw [if_neg h1, if_pos hdlen]
  · rintro ⟨x0, hx0, y0, hy0, hne0⟩
    have h1 : ¬ hashes.length ≤ 1 := by
      have := two_mem_ne_length hx0 hy0 hne0
      omega
    have hd2 : 2 ≤ (dedupAdj (sortHashes hashes)).length :=
      two_mem_ne_length ((hmem x0).mpr hx0) ((hmem y0).mpr hy0) hne0
    have hd1 : ¬ (dedupAdj (sortHashes hashes)).length ≤ 1 := by omega
    have hccle : ∀ x y : Hash128, x ∈ hashes → y ∈ hashes → x ≠ y →
        commonCode x y ≤ maxAdjCommon (dedupAdj (sortHashes hashes)) := by
      intro x y hx hy hne
      by_cases hpl : hlex x y
      · exact commonCode_le_maxAdj _ hbd hsorted x y ((hmem x).mpr hx)
          ((hmem y).mpr hy) hpl
      · rcases hlex_connex hpl with h | h
        · rw [commonCode_comm]
          exact commonCode_le_maxAdj _ hbd hsorted y x ((hmem y).mpr hy)
            ((hmem x).mpr hx) h
        · exact absurd h hne
    have hmp : maxAdjCommon (dedupAdj (sortHashes hashes)) = pairsMaxShared hashes := by
      apply le_antisymm
      · exact maxAdj_le_pairsMax _ hbnd (fun h hm => (hmem h).mp hm) hsorted
      · unfold pairsMaxShared
        apply foldr_max_le
        intro v hv
        rcases List.mem_map.mp hv with ⟨p, hp, rfl⟩
        rcases List.mem_filter.mp hp with ⟨hprod, hpne⟩
        rcases List.mem_product.mp hprod with ⟨hp1, hp2⟩
        have hne : p.1 ≠ p.2 := of_decide_eq_true hpne
        rw [sharedBits_eq_commonCode (hbnd _ hp1) (hbnd _ hp2) hne]
        exact hccle p.1 p.2 hp1 hp2 hne
    have h127 : maxAdjCommon (dedupAdj (sortHashes hashes)) ≤ 127 := by
      obtain ⟨x, hx, y, hy, hne, heq⟩ := maxAdj_attained _ hsorted hd2
      rw [← heq]
      exact commonCode_le_127 (hbd x hx).1 (hbd x hx).2 (hbd y hy).1 (hbd y hy).2 hne
    have hrval : getMinUniqueHashBits hashes =
        maxAdjCommon (dedupAdj (sortHashes hashes)) + 1 := by
      rw [getMinUniqueHashBits_eq, if_neg h1, if_neg hd1]
      omega
    refine ⟨?_, ?_, ?_⟩
    · rw [hrval, hmp]
      omega
    · intro x hx y hy hne hag
      rw [hrval] at hag
      have hb1 := hbnd x hx
      have hb2 := hbnd y hy
      have h128 : maxAdjCommon (dedupAdj (sortHashes hashes)) + 1 ≤ 128 := by omega
      have hle := (agreeTop_iff_le_commonCode hb1.1 hb1.2 hb2.1 hb2.2 hne h128).mp hag
      have := hccle x y hx hy hne
      omega
    · obtain ⟨x, hx, y, hy, hne, heq⟩ := maxAdj_attained _ hsorted hd2
      refine ⟨x, (hmem x).mp hx, y, (hmem y).mp hy, hne, ?_⟩
      rw [hrval, Nat.add_sub_cancel, ← heq]
      exact (agreeTop_iff_le_commonCode (hbd x hx).1 (hbd x hx).2 (hbd y hy).1
        (hbd y hy).2 hne (by omega)).mpr le_rfl

/-- Witness for C2 at a concrete list of hashes: 0x0...0, 0x0...01 and
0x8...0 (top bit set) need all 128 bits, matching the spec scenario. -/
theorem getMinUniqueHashBits_spec_witness :
    (∀ h ∈ [Hash128.mk 0 0, Hash128.mk 0 1, Hash128.mk (2 ^ 63) 0],
      h.hi < 2 ^ 64 ∧ h.lo < 2 ^ 64) ∧
    getMinUniqueHashBits [Hash128.mk 0 0, Hash128.mk 0 1, Hash128.mk (2 ^ 63) 0] =
      min 128 (1 + pairsMaxShared
        [Hash128.mk 0 0, Hash128.mk 0 1, Hash128.mk (2 ^ 63) 0]) := by
  have hbnd : ∀ h ∈ [Hash128.mk 0 0, Hash128.mk 0 1, Hash128.mk (2 ^ 63) 0],
      h.hi < 2 ^ 64 ∧ h.lo < 2 ^ 64 := by decide
  refine ⟨hbnd, ?_⟩
  exact ((getMinUniqueHashBits_spec _ hbnd).2
    ⟨Hash128.mk 0 0, by decide, Hash128.mk 0 1, by decide, by decide⟩).1

/-- C7: after any directory build (createDirDb is buildDirDb with no cache,
updateDirDb is buildDirDb with the cache of the existing sidecar; the cache
is universally quantified here), the files list is strictly sorted by
(size ascending, name ascending), contains no entry named .dirdb and no
entry for a non-regular file, and every entry name is the leaf name the
directory iterator yielded (in particular separator-free when the listing
names are). -/
theorem buildDirDb_files_invariant (listing : List ScanEntry)
    (cache : Option (List (HashReuseKey × FileEntry)))
    (hashOracle : List Nat → Hash128)
    (hnd : (listing.map (fun e => e.name)).Nodup) :
    List.Pairwise entryStrictLt (buildDirDb listing cache hashOracle).1.files ∧
    (∀ f ∈ (buildDirDb listing cache hashOracle).1.files, f.path ≠ dirdbNameBytes) ∧
    (∀ f ∈ (buildDirDb listing cache hashOracle).1.files,
      ∃ e ∈ listing, e.isRegular = true ∧ f.path = e.name) ∧
    ((∀ e ∈ listing, 47 ∉ e.name) →
      ∀ f ∈ (buildDirDb listing cache hashOracle).1.files, 47 ∉ f.path) := by
  have hfiles : (buildDirDb listing cache hashOracle).1.files =
      sortEntries (scanLoop cache hashOracle listing).1 := rfl
  have hmemf : ∀ f, f ∈ (buildDirDb listing cache hashOracle).1.files ↔
      f ∈ (scanLoop cache hashOracle listing).1 := by
    intro f
    rw [hfiles]
    exact (sortEntries_perm _).mem_iff
  have hchar : ∀ f ∈ (buildDirDb listing cache hashOracle).1.files,
      ∃ e ∈ listing, e.isRegular = true ∧ e.name ≠ dirdbNameBytes ∧ f.path = e.name :=
    fun f hf => scanLoop_fst_char cache hashOracle listing f ((hmemf f).mp hf)
  refine ⟨?_, ?_, ?_, ?_⟩
  · rw [hfiles]
    apply sorted_strict_of_distinct_names (sortEntries_sorted _)
    have hnodup : ((scanLoop cache hashOracle listing).1.map (fun f => f.path)).Nodup :=
      hnd.sublist (scanLoop_names_sublist cache hashOracle listing)
    have hnodup2 : ((sortEntries (scanLoop cache hashOracle listing).1).map
        (fun f => f.path)).Nodup :=
      (((sortEntries_perm _).map (fun f => f.path)).nodup_iff).mpr hnodup
    exact (List.pairwise_map).mp hnodup2
  · intro f hf
    obtain ⟨e, _, _, hne, hp⟩ := hchar f hf
    rw [hp]
    exact hne
  · intro f hf
    obtain ⟨e, he, hreg, _, hp⟩ := hchar f hf
    exact ⟨e, he, hreg, hp⟩
  · intro hsep f hf
    obtain ⟨e, he, _, _, hp⟩ := hchar f hf
    rw [hp]
    exact hsep e he

/-- Witness for C7 at a concrete three-file listing (the spec scenario with
files z (1 byte), a (2 bytes), m (1 byte)). -/
theorem buildDirDb_files_invariant_witness :
    ((([⟨[122], true, 1, 10, 5, 0, 1⟩, ⟨[97], true, 2, 11, 6, 0, 1⟩,
        ⟨[109], true, 1, 12, 7, 0, 1⟩] : List ScanEntry).map
          (fun e => e.name)).Nodup) ∧
    List.Pairwise entryStrictLt
      (buildDirDb [⟨[122], true, 1, 10, 5, 0, 1⟩, ⟨[97], true, 2, 11, 6, 0, 1⟩,
        ⟨[109], true, 1, 12, 7, 0, 1⟩] none (fun _ => ⟨0, 0⟩)).1.files :=
  ⟨by decide,
   (buildDirDb_files_invariant _ none (fun _ => ⟨0, 0⟩) (by decide)).1⟩

/-- C9: with a reuse cache, every scanned regular non-sidecar file whose
(inode, size, FILETIME date) triple hits the cache gets the cached hash and
its content is never hashed (its name is absent from the hashed-names
trace); if every scanned file hits the cache, hashedBytes is 0. -/
theorem buildDirDb_hash_reuse (listing : List ScanEntry)
    (c : List (HashReuseKey × FileEntry)) (hashOracle : List Nat → Hash128)
    (hnd : (listing.map (fun e => e.name)).Nodup) :
    (∀ e ∈ listing, e.name ≠ dirdbNameBytes → e.isRegular = true →
      ∀ v, c.lookup ⟨e.inode, e.size, fileTimeFromTimespec e.mtimeSec e.mtimeNsec⟩ =
          some v →
        e.name ∉ (buildDirDb listing (some c) hashOracle).2 ∧
        (⟨e.name, e.size, v.hash, e.inode,
          fileTimeFromTimespec e.mtimeSec e.mtimeNsec, e.numLinks⟩ : FileEntry) ∈
          (buildDirDb listing (some c) hashOracle).1.files) ∧
    ((∀ e ∈ listing, e.name ≠ dirdbNameBytes → e.isRegular = true →
        (c.lookup ⟨e.inode, e.size,
          fileTimeFromTimespec e.mtimeSec e.mtimeNsec⟩).isSome) →
      (buildDirDb listing (some c) hashOracle).1.hashedBytes = 0) := by
  have hbd2 : (buildDirDb listing (some c) hashOracle).2 =
      (scanLoop (some c) hashOracle listing).2.2 := rfl
  have hbdh : (buildDirDb listing (some c) hashOracle).1.hashedBytes =
      (scanLoop (some c) hashOracle listing).2.1 := rfl
  have hmemf : ∀ f, f ∈ (buildDirDb listing (some c) hashOracle).1.files ↔
      f ∈ (scanLoop (some c) hashOracle listing).1 :=
    fun f => (sortEntries_perm _).mem_iff
  constructor
  · intro e he h1 h2 v hv
    rw [hbd2]
    rw [hmemf]
    clear hbd2 hbdh hmemf
    induction listing with
    | nil => cases he
    | cons e0 rest ih =>
      rcases List.mem_cons.mp he with rfl | herest
      · rw [scanLoop_cons_hit h1 h2 hv]
        refine ⟨?_, by simp⟩
        intro hmem
        have hsub := scanLoop_hashedNames_sublist (some c) hashOracle rest
        have : e.name ∈ rest.map (fun e => e.name) := hsub.mem hmem
        simp only [List.map_cons, List.nodup_cons] at hnd
        exact hnd.1 this
      · simp only [List.map_cons, List.nodup_cons] at hnd
        have ihr := ih hnd.2 herest
        by_cases hsk1 : e0.name = dirdbNameBytes
        · rw [scanLoop_cons_skip_name hsk1]
          exact ihr
        · cases hreg0 : e0.isRegular with
          | false =>
            rw [scanLoop_cons_skip_type hsk1 hreg0]
            exact ihr
          | true =>
            have hname_ne : e.name ≠ e0.name := by
              intro heq
              exact hnd.1 (heq ▸ List.mem_map_of_mem (fun e => e.name) herest)
            constructor
            · rcases @scanLoop_hashed_shape (some c) hashOracle _ rest hsk1 hreg0 with hsame | hconsh
              · rw [hsame]
                exact ihr.1
              · rw [hconsh]
                intro hmem
                rcases List.mem_cons.mp hmem with heq | hmem2
                · exact hname_ne heq
                · exact ihr.1 hmem2
            · obtain ⟨hsh, hshape⟩ := @scanLoop_cons_active_shape (some c) hashOracle _ rest hsk1 hreg0
              rw [hshape]
              exact List.mem_cons_of_mem _ ihr.2
  · intro hall
    rw [hbdh]
    clear hbd2 hbdh hmemf
    induction listing with
    | nil => simp [scanLoop]
    | cons e0 rest ih =>
      simp only [List.map_cons, List.nodup_cons] at hnd
      have ihr := ih hnd.2 (fun e he h1 h2 => hall e (by simp [he]) h1 h2)
      by_cases hsk1 : e0.name = dirdbNameBytes
      · rw [scanLoop_cons_skip_name hsk1]
        exact ihr
      · cases hreg0 : e0.isRegular with
        | false =>
          rw [scanLoop_cons_skip_type hsk1 hreg0]
          exact ihr
        | true =>
          have := hall e0 (by simp) hsk1 hreg0
          cases hv : c.lookup ⟨e0.inode, e0.size,
              fileTimeFromTimespec e0.mtimeSec e0.mtimeNsec⟩ with
          | none =>
            rw [hv] at this
            simp at this
          | some v =>
            rw [scanLoop_cons_hit hsk1 hreg0 hv]
            exact ihr

/-- Witness for C9: a one-file listing whose (inode, size, date) triple hits
the cache; nothing is hashed. -/
theorem buildDirDb_hash_reuse_witness :
    ((([⟨[97], true, 3, 7, 5, 0, 1⟩] : List ScanEntry).map
      (fun e => e.name)).Nodup) ∧
    (buildDirDb [⟨[97], true, 3, 7, 5, 0, 1⟩]
      (some [(⟨7, 3, fileTimeFromTimespec 5 0⟩,
        (⟨[97], 3, ⟨11, 22⟩, 7, fileTimeFromTimespec 5 0, 1⟩ : FileEntry))])
      (fun _ => ⟨0, 0⟩)).1.hashedBytes = 0 :=
  ⟨by decide,
   (buildDirDb_hash_reuse _ _ (fun _ => ⟨0, 0⟩) (by decide)).2 (by decide)⟩

/-- C6 counterexample: when a stale temporary path T + ".treeop_link_tmp"
already exists before the call, replaceWithHardlink succeeds via the next
candidate suffix and the stale temporary remains on disk, contradicting the
claim that no path of that form remains after success. -/
theorem replaceWithHardlink_counterexample :
    (replaceWithHardlink [("S", 1), ("T", 2), ("T.treeop_link_tmp", 3)] "S" "T"
        ⟨true, true, true⟩).success = true ∧
    fsLookup (replaceWithHardlink [("S", 1), ("T", 2), ("T.treeop_link_tmp", 3)]
        "S" "T" ⟨true, true, true⟩).fs (tempName "T" 0) = some 3 := by
  constructor
  · rfl
  · rfl

/-- C6 (amended): whenever replaceWithHardlink succeeds, the target exists
with the source's inode (and the source entry is intact), and every
temporary path T + ".treeop_link_tmp"(i) that did not exist before the call
is absent afterwards (in particular, when no temporary pre-exists, none
remains); whenever it fails after the temporary hard link was created, that
temporary has been removed before returning. -/
theorem replaceWithHardlink_spec (fs0 : FS) (source target : String)
    (oracle : LinkOracle) :
    ((replaceWithHardlink fs0 source target oracle).success = true →
      ∃ ino, fsLookup fs0 source = some ino ∧
        fsLookup (replaceWithHardlink fs0 source target oracle).fs target = some ino ∧
        fsLookup (replaceWithHardlink fs0 source target oracle).fs source = some ino ∧
        (∀ j, fsLookup fs0 (tempName target j) = none →
          fsLookup (replaceWithHardlink fs0 source target oracle).fs
            (tempName target j) = none)) ∧
    ((replaceWithHardlink fs0 source target oracle).success = false →
      ∀ tmp, (replaceWithHardlink fs0 source target oracle).created = some tmp →
        fsLookup (replaceWithHardlink fs0 source target oracle).fs tmp = none) := by
  cases hfind : (List.range 100).find?
      (fun i => (fsLookup fs0 (tempName target i)).isNone) with
  | none =>
    have hres : replaceWithHardlink fs0 source target oracle = ⟨false, fs0, none⟩ := by
      simp [replaceWithHardlink, hfind]
    rw [hres]
    exact ⟨(fun h => nomatch h), (fun _ tmp htmp => nomatch htmp)⟩
  | some i =>
    have htempfree : fsLookup fs0 (tempName target i) = none := by
      have hp := List.find?_some hfind
      simpa using hp
    cases hsrc : fsLookup fs0 source with
    | none =>
      have hres : replaceWithHardlink fs0 source target oracle = ⟨false, fs0, none⟩ := by
        simp [replaceWithHardlink, hfind, hsrc]
      rw [hres]
      exact ⟨(fun h => nomatch h), (fun _ tmp htmp => nomatch htmp)⟩
    | some ino =>
      have hsrcne : source ≠ tempName target i := by
        intro h
        rw [h, htempfree] at hsrc
        cases hsrc
      cases hco : oracle.createOk with
      | false =>
        have hres : replaceWithHardlink fs0 source target oracle =
            ⟨false, fs0, none⟩ := by
          simp [replaceWithHardlink, hfind, hsrc, hco]
        rw [hres]
        exact ⟨(fun h => nomatch h), (fun _ tmp htmp => nomatch htmp)⟩
      | true =>
        cases hr1 : oracle.rename1Ok with
        | true =>
          have hres : replaceWithHardlink fs0 source target oracle =
              ⟨true, fsInsert (fsErase (fsInsert fs0 (tempName target i) ino)
                (tempName target i)) target ino, some (tempName target i)⟩ := by
            simp [replaceWithHardlink, hfind, hsrc, hco, hr1]
          rw [hres]
          refine ⟨(fun _ => ⟨ino, rfl, ?_, ?_, ?_⟩), (fun h => nomatch h)⟩
          · show fsLookup (fsInsert (fsErase (fsInsert fs0 (tempName target i) ino)
              (tempName target i)) target ino) target = some ino
            rw [lookup_after_replace]
            simp
          · show fsLookup (fsInsert (fsErase (fsInsert fs0 (tempName target i) ino)
              (tempName target i)) target ino) source = some ino
            rw [lookup_after_replace]
            by_cases hst : source = target
            · simp [hst]
            · rw [if_neg hst, if_neg hsrcne, fsLookup_insert, if_neg hsrcne]
              exact hsrc
          · intro j hj
            show fsLookup (fsInsert (fsErase (fsInsert fs0 (tempName target i) ino)
              (tempName target i)) target ino) (tempName target j) = none
            rw [lookup_after_replace, if_neg (tempName_ne_target target j)]
            by_cases hjt : tempName target j = tempName target i
            · rw [if_pos hjt]
            · rw [if_neg hjt, fsLookup_insert, if_neg hjt]
              exact hj
        | false =>
          cases hr2 : oracle.rename2Ok with
          | true =>
            have hres : replaceWithHardlink fs0 source target oracle =
                ⟨true, fsInsert (fsErase (fsErase (fsInsert fs0 (tempName target i)
                  ino) target) (tempName target i)) target ino,
                  some (tempName target i)⟩ := by
              simp [replaceWithHardlink, hfind, hsrc, hco, hr1, hr2]
            rw [hres]
            refine ⟨(fun _ => ⟨ino, rfl, ?_, ?_, ?_⟩), (fun h => nomatch h)⟩
            · show fsLookup (fsInsert (fsErase (fsErase (fsInsert fs0
                (tempName target i) ino) target) (tempName target i)) target ino)
                target = some ino
              rw [lookup_after_replace]
              simp
            · show fsLookup (fsInsert (fsErase (fsErase (fsInsert fs0
                (tempName target i) ino) target) (tempName target i)) target ino)
                source = some ino
              rw [lookup_after_replace]
              by_cases hst : source = target
              · simp [hst]
              · rw [if_neg hst, if_neg hsrcne, fsLookup_erase, if_neg hst,
                  fsLookup_insert, if_neg hsrcne]
                exact hsrc
            · intro j hj
              show fsLookup (fsInsert (fsErase (fsErase (fsInsert fs0
                (tempName target i) ino) target) (tempName target i)) target ino)
                (tempName target j) = none
              rw [lookup_after_replace, if_neg (tempName_ne_target target j)]
              by_cases hjt : tempName target j = tempName target i
              · rw [if_pos hjt]
              · rw [if_neg hjt, fsLookup_erase,
                  if_neg (tempName_ne_target target j), fsLookup_insert, if_neg hjt]
                exact hj
          | false =>
            have hres : replaceWithHardlink fs0 source target oracle =
                ⟨false, fsErase (fsErase (fsInsert fs0 (tempName target i) ino)
                  target) (tempName target i), some (tempName target i)⟩ := by
              simp [replaceWithHardlink, hfind, hsrc, hco, hr1, hr2]
            rw [hres]
            refine ⟨(fun h => nomatch h), (fun _ tmp htmp => ?_)⟩
            have htmp2 : tmp = tempName target i := by
              cases htmp
              rfl
            show fsLookup (fsErase (fsErase (fsInsert fs0 (tempName target i) ino)
              target) (tempName target i)) tmp = none
            rw [htmp2, fsLookup_erase, if_pos rfl]
/-- Witness for the amended C6 at a clean two-file filesystem. -/
theorem replaceWithHardlink_spec_witness :
    (replaceWithHardlink [("S", 1), ("T", 2)] "S" "T" ⟨true, true, true⟩).success =
      true ∧
    (∃ ino, fsLookup [("S", 1), ("T", 2)] "S" = some ino ∧
      fsLookup (replaceWithHardlink [("S", 1), ("T", 2)] "S" "T"
        ⟨true, true, true⟩).fs "T" = some ino ∧
      fsLookup (replaceWithHardlink [("S", 1), ("T", 2)] "S" "T"
        ⟨true, true, true⟩).fs "S" = some ino ∧
      (∀ j, fsLookup [("S", 1), ("T", 2)] (tempName "T" j) = none →
        fsLookup (replaceWithHardlink [("S", 1), ("T", 2)] "S" "T"
          ⟨true, true, true⟩).fs (tempName "T" j) = none)) :=
  ⟨rfl, (replaceWithHardlink_spec [("S", 1), ("T", 2)] "S" "T" ⟨true, true, true⟩).1 rfl⟩

/-- C10: Hash128::fromBytes returns the all-zero hash for buffers of fewer
than 16 bytes; for buffers of at least 16 bytes the result depends only on
the first 16 bytes, read little-endian as lo (bytes 0..7) then hi (bytes
8..15); and fromBytes inverts toBytes on every Hash128 whose halves fit in
64 bits (as the C++ uint64_t fields do by type). -/
theorem hash128_fromBytes_spec :
    (∀ bytes : List Nat, bytes.length < 16 → Hash128.fromBytes bytes = ⟨0, 0⟩) ∧
    (∀ b1 b2 : List Nat, 16 ≤ b1.length → 16 ≤ b2.length →
      b1.take 16 = b2.take 16 → Hash128.fromBytes b1 = Hash128.fromBytes b2) ∧
    (∀ bytes : List Nat, 16 ≤ bytes.length → (∀ b ∈ bytes, b < 256) →
      Hash128.fromBytes bytes =
        ⟨decodeLE ((bytes.drop 8).take 8), decodeLE (bytes.take 8)⟩) ∧
    (∀ h : Hash128, h.hi < 2 ^ 64 → h.lo < 2 ^ 64 →
      Hash128.fromBytes (Hash128.toBytes h) = h) := by
  refine ⟨?_, ?_, ?_, ?_⟩
  · intro bytes hlen
    simp [Hash128.fromBytes, hlen]
  · intro b1 b2 hl1 hl2 htake
    have hgd : ∀ i, i < 16 → b1.getD i 0 = b2.getD i 0 := fun i hi =>
      getD_congr_of_take_eq htake hi
    simp only [Hash128.fromBytes, Nat.not_lt.mpr hl1, Nat.not_lt.mpr hl2, if_false]
    rw [hgd 0 (by omega), hgd 1 (by omega), hgd 2 (by omega), hgd 3 (by omega),
      hgd 4 (by omega), hgd 5 (by omega), hgd 6 (by omega), hgd 7 (by omega),
      hgd 8 (by omega), hgd 9 (by omega), hgd 10 (by omega), hgd 11 (by omega),
      hgd 12 (by omega), hgd 13 (by omega), hgd 14 (by omega), hgd 15 (by omega)]
  · intro bytes hlen hbnd
    rcases bytes with _ | ⟨b0, _ | ⟨b1, _ | ⟨b2, _ | ⟨b3, _ | ⟨b4, _ | ⟨b5, _ |
      ⟨b6, _ | ⟨b7, _ | ⟨b8, _ | ⟨b9, _ | ⟨b10, _ | ⟨b11, _ | ⟨b12, _ | ⟨b13,
      _ | ⟨b14, _ | ⟨b15, rest⟩⟩⟩⟩⟩⟩⟩⟩⟩⟩⟩⟩⟩⟩⟩⟩ <;> simp at hlen
    have h0 : b0 < 256 := hbnd b0 (by simp)
    have h1 : b1 < 256 := hbnd b1 (by simp)
    have h2 : b2 < 256 := hbnd b2 (by simp)
    have h3 : b3 < 256 := hbnd b3 (by simp)
    have h4 : b4 < 256 := hbnd b4 (by simp)
    have h5 : b5 < 256 := hbnd b5 (by simp)
    have h6 : b6 < 256 := hbnd b6 (by simp)
    have h7 : b7 < 256 := hbnd b7 (by simp)
    have h8 : b8 < 256 := hbnd b8 (by simp)
    have h9 : b9 < 256 := hbnd b9 (by simp)
    have h10 : b10 < 256 := hbnd b10 (by simp)
    have h11 : b11 < 256 := hbnd b11 (by simp)
    have h12 : b12 < 256 := hbnd b12 (by simp)
    have h13 : b13 < 256 := hbnd b13 (by simp)
    have h14 : b14 < 256 := hbnd b14 (by simp)
    have h15 : b15 < 256 := hbnd b15 (by simp)
    have hlo := (u64FromBytes_eq_decodeLE h0 h1 h2 h3 h4 h5 h6 h7).1
    have hhi := (u64FromBytes_eq_decodeLE h8 h9 h10 h11 h12 h13 h14 h15).1
    have hfb : Hash128.fromBytes (b0 :: b1 :: b2 :: b3 :: b4 :: b5 :: b6 :: b7 ::
        b8 :: b9 :: b10 :: b11 :: b12 :: b13 :: b14 :: b15 :: rest) =
        ⟨u64FromBytes b8 b9 b10 b11 b12 b13 b14 b15,
         u64FromBytes b0 b1 b2 b3 b4 b5 b6 b7⟩ := by
      simp [Hash128.fromBytes, List.getD]
    rw [hfb, hlo, hhi]
    simp
  · intro h hhi hlo
    have and255_lt : ∀ x : Nat, x &&& 255 < 256 := fun x => by
      rw [and255_eq_mod]
      exact Nat.mod_lt _ (by norm_num)
    have hlo1 := (u64FromBytes_eq_decodeLE (and255_lt h.lo) (and255_lt (h.lo >>> 8))
      (and255_lt (h.lo >>> 16)) (and255_lt (h.lo >>> 24)) (and255_lt (h.lo >>> 32))
      (and255_lt (h.lo >>> 40)) (and255_lt (h.lo >>> 48)) (and255_lt (h.lo >>> 56))).1
    have hhi1 := (u64FromBytes_eq_decodeLE (and255_lt h.hi) (and255_lt (h.hi >>> 8))
      (and255_lt (h.hi >>> 16)) (and255_lt (h.hi >>> 24)) (and255_lt (h.hi >>> 32))
      (and255_lt (h.hi >>> 40)) (and255_lt (h.hi >>> 48)) (and255_lt (h.hi >>> 56))).1
    have hfb : Hash128.fromBytes (Hash128.toBytes h) =
        ⟨u64FromBytes (h.hi &&& 255) (h.hi >>> 8 &&& 255) (h.hi >>> 16 &&& 255)
          (h.hi >>> 24 &&& 255) (h.hi >>> 32 &&& 255) (h.hi >>> 40 &&& 255)
          (h.hi >>> 48 &&& 255) (h.hi >>> 56 &&& 255),
         u64FromBytes (h.lo &&& 255) (h.lo >>> 8 &&& 255) (h.lo >>> 16 &&& 255)
          (h.lo >>> 24 &&& 255) (h.lo >>> 32 &&& 255) (h.lo >>> 40 &&& 255)
          (h.lo >>> 48 &&& 255) (h.lo >>> 56 &&& 255)⟩ := by
      simp [Hash128.fromBytes, Hash128.toBytes, appendU64Le, List.getD]
    rw [hfb, hlo1, hhi1]
    have dlo := decodeLE_appendU64Le h.lo
    have dhi := decodeLE_appendU64Le h.hi
    simp only [appendU64Le] at dlo dhi
    rw [dlo, dhi, Nat.mod_eq_of_lt hlo, Nat.mod_eq_of_lt hhi]

/-- Witness for C10 at a concrete hash value. -/
theorem hash128_fromBytes_spec_witness :
    Hash128.fromBytes (Hash128.toBytes ⟨3, 5⟩) = ⟨3, 5⟩ :=
  hash128_fromBytes_spec.2.2.2 ⟨3, 5⟩ (by norm_num) (by norm_num)

/-- C5: hardlink-copies target selection. Files of size below minSize are
never considered: every file in every content group collected by
hardlinkCopies has size at least minSize. In every group the processed
target is the group's oldest member: it belongs to the group, and every
member has a strictly larger date, or an equal date and a path that is
equal to or lexicographically larger than the target's. The whole run
equals the outcome of the planned replacements of hardlinkPlanned, whose
per-group plan skips groups of fewer than two files, skips a group when the
target's effective hardlink count (the cached numLinks in dry-run,
otherwise the live filesystem count with fallback to the cached one)
reaches maxHardlinks, and drops references whose path is the target's or
whose inode equals the target's inode, so such files affect neither the
statistics nor the actions nor the warnings. -/
theorem hardlinkCopies_spec (sameFilename : Bool)
    (nameHash : Hash128 → List Nat → Hash128)
    (filenameOf : List Nat → List Nat) (dirs : List DirData)
    (minSize maxHardlinks : Nat) (dryRun : Bool)
    (fsLinkCount : List Nat → Option Nat)
    (replaceOk : List Nat → List Nat → Bool) :
    (∀ kg ∈ collectContent sameFilename nameHash filenameOf dirs minSize,
      ∀ f ∈ kg.2, minSize ≤ f.size) ∧
    (∀ kg ∈ collectContent sameFilename nameHash filenameOf dirs minSize,
      ∀ h t, kg.2 = h :: t →
        oldestFold h t ∈ kg.2 ∧
        ∀ f ∈ kg.2, (oldestFold h t).date < f.date ∨
          ((oldestFold h t).date = f.date ∧
            (f.path = (oldestFold h t).path ∨
              bytesLt (oldestFold h t).path f.path = true))) ∧
    hardlinkCopies sameFilename nameHash filenameOf dirs minSize maxHardlinks
        dryRun fsLinkCount replaceOk =
      outcomeOfPlan dryRun replaceOk
        (hardlinkPlanned sameFilename nameHash filenameOf dirs minSize
          maxHardlinks dryRun fsLinkCount) := by
  refine ⟨collectContent_sizes _ _ _ _ _, ?_,
    hardlinkCopies_char _ _ _ _ _ _ _ _ _⟩
  intro kg hkg h t hht
  constructor
  · rw [hht]
    exact oldestFold_mem h t
  · intro f hf
    have hmin : olderLtb f (oldestFold h t) = false := by
      refine oldestFold_min h t f ?_
      rw [← hht]
      exact hf
    exact olderLtb_false_elim hmin

/-- Witness for C5 on a one-directory instance with one duplicated content
key. -/
theorem hardlinkCopies_spec_witness :
    1 ≤ (⟨[100, 47, 97], 4, ⟨0, 1⟩, 1, 10, 1⟩ : FileEntry).size ∧
    hardlinkCopies false (fun h _ => h) (fun p => p)
        [⟨[100], [⟨[97], 4, ⟨0, 1⟩, 1, 10, 1⟩, ⟨[98], 4, ⟨0, 1⟩, 2, 5, 1⟩]⟩]
        1 10 false (fun _ => Option.none) (fun _ _ => true) =
      outcomeOfPlan false (fun _ _ => true)
        (hardlinkPlanned false (fun h _ => h) (fun p => p)
          [⟨[100], [⟨[97], 4, ⟨0, 1⟩, 1, 10, 1⟩, ⟨[98], 4, ⟨0, 1⟩, 2, 5, 1⟩]⟩]
          1 10 false (fun _ => Option.none)) := by
  have hs := hardlinkCopies_spec false (fun h _ => h) (fun p => p)
    [⟨[100], [⟨[97], 4, ⟨0, 1⟩, 1, 10, 1⟩, ⟨[98], 4, ⟨0, 1⟩, 2, 5, 1⟩]⟩]
    1 10 false (fun _ => Option.none) (fun _ _ => true)
  refine ⟨?_, hs.2.2⟩
  exact hs.1 (⟨4, ⟨0, 1⟩⟩,
      [⟨[100, 47, 97], 4, ⟨0, 1⟩, 1, 10, 1⟩,
        ⟨[100, 47, 98], 4, ⟨0, 1⟩, 2, 5, 1⟩])
    (by decide) (⟨[100, 47, 97], 4, ⟨0, 1⟩, 1, 10, 1⟩ : FileEntry) (by decide)

/-- C3 is refuted as stated for hardlink-copies: in a single group of three
files with one duplicated content, the replacement of the first reference
fails, yet the run does not raise an error or stop; the failure is recorded
as a warning and the later reference is still replaced (a nonempty action
list alongside the nonempty warning list). -/
theorem hardlinkCopies_continues_counterexample :
    hardlinkCopies false (fun h _ => h) (fun p => p)
        [⟨[100], [⟨[97], 4, ⟨0, 1⟩, 3, 2, 1⟩, ⟨[98], 4, ⟨0, 1⟩, 1, 1, 1⟩,
          ⟨[99], 4, ⟨0, 1⟩, 2, 3, 1⟩]⟩]
        1 10 false (fun _ => Option.none)
        (fun _ src => decide (src ≠ [100, 47, 97])) =
      ⟨⟨1, 1, 4⟩, [([100, 47, 98], [100, 47, 99])], [[100, 47, 97]]⟩ := by
  decide

/-- C3 (amended): copy-extract and remove-copies propagate the first failing
I/O operation — the performed mutations are exactly the longest error-free
prefix of the plan and the error is reported — while hardlink-copies does
not stop on a failed replacement: the failure becomes a warning and every
other planned replacement is still attempted, as the outcome equals the
plan filtered by per-file success regardless of where failures occur. -/
theorem mutators_error_spec
    (rootFiles : List (List (ContentKey × List FileEntry)))
    (verbose : Bool) (removeOk : List Nat → Bool)
    (filesSrc filesOther : List (ContentKey × List FileEntry))
    (relOf : List Nat → Option (List Nat)) (copyOk : List Nat → Bool)
    (sameFilename : Bool) (nameHash : Hash128 → List Nat → Hash128)
    (filenameOf : List Nat → List Nat) (dirs : List DirData)
    (minSize maxHardlinks : Nat) (fsLinkCount : List Nat → Option Nat)
    (replaceOk : List Nat → List Nat → Bool) :
    (removeCopyFiles rootFiles false verbose removeOk =
      removeRefs false verbose removeOk (specRemovals rootFiles)) ∧
    ((removeCopyFiles rootFiles false verbose removeOk).performed =
      ((specRemovals rootFiles).takeWhile fun f => removeOk f.path).map
        fun f => f.path) ∧
    ((removeCopyFiles rootFiles false verbose removeOk).error =
      (if (specRemovals rootFiles).all fun f => removeOk f.path then none
        else some "Failed to remove")) ∧
    (copyIntersectFiles false filesSrc filesOther false relOf copyOk =
      copyRefs false relOf copyOk (specCopies filesSrc filesOther)) ∧
    ((copyIntersectFiles false filesSrc filesOther false relOf copyOk).copied =
      ((specCopies filesSrc filesOther).takeWhile fun f =>
        (relOf f.path).isSome && copyOk f.path).map fun f => f.path) ∧
    (((copyIntersectFiles false filesSrc filesOther false relOf copyOk).error
        = none) ↔
      ∀ f ∈ specCopies filesSrc filesOther,
        (relOf f.path).isSome = true ∧ copyOk f.path = true) ∧
    (hardlinkCopies sameFilename nameHash filenameOf dirs minSize maxHardlinks
        false fsLinkCount replaceOk =
      outcomeOfPlan false replaceOk
        (hardlinkPlanned sameFilename nameHash filenameOf dirs minSize
          maxHardlinks false fsLinkCount)) := by
  refine ⟨removeCopyFiles_eq _ _ _ _, ?_, ?_, copyIntersectFiles_eq _ _ _ _ _,
    ?_, ?_, hardlinkCopies_char _ _ _ _ _ _ _ _ _⟩
  · rw [removeCopyFiles_eq]
    exact removeRefs_performed verbose removeOk (specRemovals rootFiles)
  · rw [removeCopyFiles_eq]
    exact removeRefs_error verbose removeOk (specRemovals rootFiles)
  · rw [copyIntersectFiles_eq]
    exact copyRefs_copied relOf copyOk (specCopies filesSrc filesOther)
  · rw [copyIntersectFiles_eq]
    exact copyRefs_error_none relOf copyOk (specCopies filesSrc filesOther)

/-- C4 is refuted as stated: with overlapping roots — here the same path
under the same content key listed in two roots — the single file of the
first root is removed, although the first root contains that key. -/
theorem removeCopyFiles_counterexample :
    (removeCopyFiles
        [[(⟨1, ⟨0, 0⟩⟩, [⟨[97], 1, ⟨0, 0⟩, 0, 0, 1⟩])],
          [(⟨1, ⟨0, 0⟩⟩, [⟨[97], 1, ⟨0, 0⟩, 0, 0, 1⟩])]]
        false false fun _ => true).performed = [[97]] ∧
    (⟨[97], 1, ⟨0, 0⟩, 0, 0, 1⟩ : FileEntry) ∈
      ([(⟨1, ⟨0, 0⟩⟩, [⟨[97], 1, ⟨0, 0⟩, 0, 0, 1⟩])] :
        List (ContentKey × List FileEntry)).flatMap (fun p => p.2) := by
  refine ⟨by decide, by decide⟩

/-- C4 (amended): provided every file path occurs only once across all
roots (the roots do not overlap), removeCopyFiles with all removals
succeeding removes exactly the files whose content key already occurs with
a nonempty group in an earlier root: the counters are their number and
total size, the performed removals their paths; with dryRun set nothing is
performed but the identical set is announced and counted; every file whose
key occurs in an earlier root is in the removal set, and no file of the
lowest-indexed root containing its key is. -/
theorem removeCopyFiles_spec
    (rootFiles : List (List (ContentKey × List FileEntry)))
    (verbose : Bool) (removeOk : List Nat → Bool)
    (hnd : (pathsOf rootFiles).Nodup)
    (hok : ∀ f ∈ specRemovals rootFiles, removeOk f.path = true) :
    removeCopyFiles rootFiles false verbose removeOk =
      ⟨(specRemovals rootFiles).length,
        ((specRemovals rootFiles).map fun f => f.size).sum,
        (if verbose then (specRemovals rootFiles).map fun f => f.path else []),
        (specRemovals rootFiles).map fun f => f.path, none⟩ ∧
    removeCopyFiles rootFiles true verbose removeOk =
      ⟨(specRemovals rootFiles).length,
        ((specRemovals rootFiles).map fun f => f.size).sum,
        (specRemovals rootFiles).map fun f => f.path, [], none⟩ ∧
    (∀ idx root p f, rootFiles.get? idx = some root → p ∈ root → f ∈ p.2 →
      ((rootFiles.take idx).any fun r => rootHasKey r p.1) = true →
      f ∈ specRemovals rootFiles) ∧
    (∀ idx root p f, rootFiles.get? idx = some root → p ∈ root → f ∈ p.2 →
      ((rootFiles.take idx).any fun r => rootHasKey r p.1) = false →
      f ∉ specRemovals rootFiles) := by
  refine ⟨?_, ?_, ?_, ?_⟩
  · rw [removeCopyFiles_eq]
    exact removeRefs_all_ok verbose removeOk (specRemovals rootFiles) hok
  · rw [removeCopyFiles_eq]
    exact removeRefs_dry verbose removeOk (specRemovals rootFiles)
  · intro idx root p f hget hp hf hany
    refine specRemAux_complete f rootFiles [] idx root p hget hp hf ?_
    simpa using hany
  · intro idx root p f hget hp hf hany hmem
    have := specRemAux_first_root f rootFiles [] hnd hmem idx root p hget hp hf
    simp only [List.nil_append] at this
    rw [this] at hany
    cases hany

/-- Witness for C4 (amended) on two disjoint roots sharing one content
key. -/
theorem removeCopyFiles_spec_witness :
    removeCopyFiles
        [[(⟨1, ⟨0, 0⟩⟩, [⟨[97], 1, ⟨0, 0⟩, 0, 0, 1⟩])],
          [(⟨1, ⟨0, 0⟩⟩, [⟨[98], 1, ⟨0, 0⟩, 0, 0, 1⟩])]]
        false false (fun _ => true) =
      ⟨1, 1, [], [[98]], none⟩ := by
  have hs := removeCopyFiles_spec
    [[(⟨1, ⟨0, 0⟩⟩, [⟨[97], 1, ⟨0, 0⟩, 0, 0, 1⟩])],
      [(⟨1, ⟨0, 0⟩⟩, [⟨[98], 1, ⟨0, 0⟩, 0, 0, 1⟩])]]
    false (fun _ => true) (by decide) (by decide)
  rw [hs.1]
  decide

/-- C1: DirDB round-trip: serializing any file list with buildDirDb's TOC
derivation and byte layout and parsing the result with readDirDb yields
exactly the same file list — each entry's size is reconstructed from the
TOC span containing its index, and its name, hash, inode, date and
numLinks are preserved.  The hypotheses state that every field fits in a
u64 and that the name blob and the file count are u64-addressable, which
always holds for the C++ writer whose fields are uint64_t. -/
theorem dirdb_roundtrip_spec (files : List FileEntry)
    (hb : ∀ f ∈ files, f.size < 2 ^ 64 ∧ f.hash.lo < 2 ^ 64 ∧
      f.hash.hi < 2 ^ 64 ∧ f.inode < 2 ^ 64 ∧ f.date < 2 ^ 64 ∧
      f.numLinks < 2 ^ 64 ∧ f.path.length < 2 ^ 64)
    (hcnt : files.length < 2 ^ 64)
    (hblob : (buildRaws files []).2.length < 2 ^ 64) :
    readDirDbBytes (serializeDirDb files) = Except.ok files :=
  readDirDb_roundTrip files hb hcnt hblob

/-- Witness for C1 on a concrete two-entry database with distinct sizes. -/
theorem dirdb_roundtrip_spec_witness :
    readDirDbBytes (serializeDirDb
      [⟨[97], 3, ⟨1, 2⟩, 5, 7, 1⟩, ⟨[98, 99], 4, ⟨0, 9⟩, 6, 8, 2⟩]) =
    Except.ok [⟨[97], 3, ⟨1, 2⟩, 5, 7, 1⟩, ⟨[98, 99], 4, ⟨0, 9⟩, 6, 8, 2⟩] :=
  dirdb_roundtrip_spec
    [⟨[97], 3, ⟨1, 2⟩, 5, 7, 1⟩, ⟨[98, 99], 4, ⟨0, 9⟩, 6, 8, 2⟩]
    (by decide) (by decide) (by decide)

/-- C8: reader rejection.  readDirDb raises an error whenever the version
field read at offset 8 differs from 1, whenever the tocEntrySize read at
offset 32 is below 16, whenever the fileEntrySize of the FILES section is
below 48, whenever some file entry's nameIndex is not strictly less than
the strings-section size, and whenever a serialized database is truncated
at any point (any field or entry extending past the end of the buffer);
conversely it consumes exactly the declared number of bytes per TOC and
file entry, so per-entry trailing padding beyond the fields it understands
does not change the parse result. -/
theorem readDirDb_reject_spec :
    (∀ data v, readU64 data 8 = Except.ok v → v ≠ 1 →
      ∃ e, readDirDbBytes data = Except.error e) ∧
    (∀ data t, readU64 data 32 = Except.ok t → t < 16 →
      ∃ e, readDirDbBytes data = Except.error e) ∧
    (∀ data tocs posT f, readU64 data (posT + 16) = Except.ok f → f < 48 →
      ∃ e, phaseFiles data tocs posT = Except.error e) ∧
    (∀ strings pairs, (∃ p ∈ pairs, strings.length ≤ (Prod.fst p).nameIndex) →
      ∃ e, buildEntries strings pairs = Except.error e) ∧
    (∀ files n,
      (∀ f ∈ files, f.size < 2 ^ 64 ∧ f.hash.lo < 2 ^ 64 ∧
        f.hash.hi < 2 ^ 64 ∧ f.inode < 2 ^ 64 ∧ f.date < 2 ^ 64 ∧
        f.numLinks < 2 ^ 64 ∧ f.path.length < 2 ^ 64) →
      files.length < 2 ^ 64 → (buildRaws files []).2.length < 2 ^ 64 →
      n < (serializeDirDb files).length →
      ∃ e, readDirDbBytes ((serializeDirDb files).take n) = Except.error e) ∧
    (∀ (tocs : List (Nat × Nat)) (raws : List RawFileEntry)
      (strings tocPad filePad : Bytes),
      (∀ t ∈ tocs, t.1 < 2 ^ 64 ∧ t.2 < 2 ^ 64) →
      (∀ r ∈ raws, r.nameIndex < 2 ^ 64 ∧ r.hashLo < 2 ^ 64 ∧
        r.hashHi < 2 ^ 64 ∧ r.inode < 2 ^ 64 ∧ r.date < 2 ^ 64 ∧
        r.numLinks < 2 ^ 64) →
      tocs.length < 2 ^ 64 → raws.length < 2 ^ 64 → strings.length < 2 ^ 64 →
      16 + tocPad.length < 2 ^ 64 → 48 + filePad.length < 2 ^ 64 →
      readDirDbBytes (serializeRaw tocs raws strings tocPad filePad) =
        readDirDbBytes (serializeRaw tocs raws strings [] [])) :=
  ⟨version_reject, tocEntrySize_reject, fileEntrySize_reject,
    nameIndex_reject, readDirDbBytes_trunc, padding_skip⟩

set_option maxRecDepth 8192 in
/-- Witness for C8: a buffer whose version field reads 0 is rejected, and a
ten-byte truncation of a valid one-file database is rejected. -/
theorem readDirDb_reject_spec_witness :
    (∃ e, readDirDbBytes (List.replicate 16 0) = Except.error e) ∧
    (∃ e, readDirDbBytes
      ((serializeDirDb [⟨[97], 1, ⟨0, 0⟩, 1, 1, 1⟩]).take 10) =
      Except.error e) :=
  ⟨readDirDb_reject_spec.1 (List.replicate 16 0) 0 (by rfl) (by decide),
    readDirDb_reject_spec.2.2.2.2.1 [⟨[97], 1, ⟨0, 0⟩, 1, 1, 1⟩] 10
      (by decide) (by decide) (by decide) (by decide)⟩

end Treeop
